import Mathlib

/-!
# goftp: the MLST/MLSD fact parser (`mlst_parser.go`)

A shallow embedding of `mlstParser.parse` and `mlstParser.parseModTime`, together with
the parts of the Go standard library they call (`strings.ToLower`, `strings.HasPrefix`,
`strconv.ParseUint`, `strconv.ParseInt`, `filepath.Base`, `time.Date`, `os.FileMode`).

Conventions.
* A Go `string` is a sequence of bytes; it is modelled as a list of naturals
  (`GoString`), each byte a number below 256.
* A Go run-time panic (index or slice out of range) is an explicit outcome,
  `Result.runtimePanic`.
* `for i, r := range s` decodes UTF-8; the loops of this file only compare `r` with ASCII
  characters. An ASCII byte is never part of a multi-byte encoding and an invalid byte is
  decoded on its own, so every ASCII byte of `s` is visited exactly once, at its own byte
  index: the loops are modelled byte by byte.
* `strings.ToLower` maps an all-ASCII string byte by byte; on any other string it applies
  the Unicode tables of the Go run time, which are not part of this repository. That
  second path is a parameter, `unicodeLower`, of every definition that lower-cases, and
  every theorem holds for all values of it.
* `filepath.Base` is the Unix one (separator `/`, no volume names).
-/

namespace goftp

/-- A Go string: its bytes, in order. -/
abbrev GoString := List Nat

/-- The bytes of an ASCII literal. -/
def ascii (s : String) : GoString := s.toList.map Char.toNat

/-! ## Go standard library -/

/-- The conversion `int64(x)`: the value of `x` modulo `2^64`, read as signed. -/
def toInt64 (x : Int) : Int := (x + 2 ^ 63) % 2 ^ 64 - 2 ^ 63

/-- The conversion `uint64(x)`. -/
def toUint64 (x : Int) : Nat := (x % 2 ^ 64).toNat

/-- The conversion `uint32(x)`, which is what `os.FileMode(m)` does to an `int64`. -/
def toUint32 (x : Int) : Nat := (x % 2 ^ 32).toNat

namespace strings

/-- One byte of the ASCII path of `strings.ToLower`: `c += 'a' - 'A'` for `'A'..'Z'`. -/
def lowerByte (c : Nat) : Nat := if 65 ≤ c ∧ c ≤ 90 then c + 32 else c

/-- The function `strings.ToLower`. An all-ASCII string is lower-cased byte by byte; any
other string goes through `unicodeLower` (Go's `Map(unicode.ToLower, s)`). -/
def ToLower (unicodeLower : GoString → GoString) (s : GoString) : GoString :=
  if s.all (fun c => decide (c < 128)) then s.map lowerByte else unicodeLower s

/-- The function `strings.HasPrefix`: `len(s) >= len(p) && s[0:len(p)] == p`. -/
def HasPrefix (s p : GoString) : Bool :=
  decide (p.length ≤ s.length) && decide (s.take p.length = p)

end strings

namespace strconv

/-- The two errors of `strconv`: `ErrSyntax` and `ErrRange`. -/
inductive NumError where
  | ErrSyntax
  | ErrRange
  deriving DecidableEq, Repr

/-- The digit a byte stands for in `ParseUint`: `'0'..'9'` are 0..9 and a letter is
`lower(c) - 'a' + 10`, where `lower(c) = c | ('x' - 'X')`; no digit otherwise. -/
def digitValue (c : Nat) : Option Nat :=
  if 48 ≤ c ∧ c ≤ 57 then some (c - 48)
  else if 97 ≤ (c ||| 32) ∧ (c ||| 32) ≤ 122 then some ((c ||| 32) - 97 + 10)
  else none

/-- The digit loop of `strconv.ParseUint` for an explicit base (so an underscore is a
syntax error): the value so far is `n`; the result is the pair `(value, err)`. -/
def parseUintLoop (base cutoff maxVal : Nat) : GoString → Nat → Nat × Option NumError
  | [], n => (n, none)
  | c :: cs, n =>
    match digitValue c with
    | none => (0, some .ErrSyntax)
    | some d =>
      if d ≥ base then (0, some .ErrSyntax)
      else if n ≥ cutoff then (maxVal, some .ErrRange)
      else
        let n0 := n * base % 2 ^ 64
        let n1 := (n0 + d) % 2 ^ 64
        if n1 < n0 ∨ n1 > maxVal then (maxVal, some .ErrRange)
        else parseUintLoop base cutoff maxVal cs n1

/-- The function `strconv.ParseUint(s, base, bitSize)` for `2 ≤ base ≤ 36` and
`bitSize ≠ 0`. -/
def ParseUint (s : GoString) (base bitSize : Nat) : Nat × Option NumError :=
  if s = [] then (0, some .ErrSyntax)
  else parseUintLoop base ((2 ^ 64 - 1) / base + 1) (2 ^ bitSize - 1) s 0

/-- The function `strconv.ParseInt(s, base, bitSize)` for `2 ≤ base ≤ 36` and
`bitSize ≠ 0`: an optional sign, then `ParseUint`, then the range check. -/
def ParseInt (s : GoString) (base bitSize : Nat) : Int × Option NumError :=
  match s with
  | [] => (0, some .ErrSyntax)
  | c :: cs =>
    let neg : Bool := decide (c = 45)
    let s1 := if c = 43 then cs else if c = 45 then cs else c :: cs
    match ParseUint s1 base bitSize with
    | (_, some .ErrSyntax) => (0, some .ErrSyntax)
    | (un, _) =>
      let cutoff : Nat := 2 ^ (bitSize - 1)
      if neg = false ∧ un ≥ cutoff then ((cutoff : Int) - 1, some .ErrRange)
      else if neg = true ∧ un > cutoff then (-(cutoff : Int), some .ErrRange)
      else
        let n := toInt64 (un : Int)
        (if neg then toInt64 (-n) else n, none)

end strconv

namespace filepath

/-- The first loop of `filepath.Base`: trailing separators are removed. -/
def stripTrailingSeparators (path : GoString) : GoString :=
  (path.reverse.dropWhile (fun c => decide (c = 47))).reverse

/-- The second loop of `filepath.Base`: what follows the last separator (the whole path
when it has none). -/
def lastElement (path : GoString) : GoString :=
  (path.reverse.takeWhile (fun c => !decide (c = 47))).reverse

/-- The function `filepath.Base` on Unix. -/
def Base (path : GoString) : GoString :=
  if path = [] then [46]
  else
    let p := lastElement (stripTrailingSeparators path)
    if p = [] then [47] else p

end filepath

namespace os

/-- The bit `os.ModeDir` of an `os.FileMode` (a `uint32`): `1 << 31`. -/
def ModeDir : Nat := 2 ^ 31

/-- The bit `os.ModeSymlink`: `1 << 27`. -/
def ModeSymlink : Nat := 2 ^ 27

/-- The method `FileMode.IsDir`: `m&ModeDir != 0`. -/
def IsDir (m : Nat) : Bool := decide (m &&& ModeDir ≠ 0)

end os

namespace time

/-- A `time.Time` in UTC: the seconds since 1970-01-01T00:00:00Z and the nanoseconds
within the second. -/
structure Time where
  unix : Int
  nsec : Int
  deriving DecidableEq, Repr

/-- The helper `norm` of package time: `lo` is brought into `[0, base)`, the carry goes
into `hi`. Both divisions have non-negative operands. -/
def norm (hi lo base : Int) : Int × Int :=
  let p : Int × Int :=
    if lo < 0 then
      let n := (-lo - 1) / base + 1
      (hi - n, lo + n * base)
    else (hi, lo)
  if p.2 ≥ base then
    let n := p.2 / base
    (p.1 + n, p.2 - n * base)
  else p

/-- The table `daysBefore` of package time: the days of a non-leap year before month
`m + 1`. -/
def daysBefore : List Nat := [0, 31, 59, 90, 120, 151, 181, 212, 243, 273, 304, 334, 365]

/-- The function `isLeap`. -/
def isLeap (year : Int) : Bool :=
  decide (year % 4 = 0) && (decide (year % 100 ≠ 0) || decide (year % 400 = 0))

/-- The constant `absoluteZeroYear` is -292277022399. -/
def absoluteZeroYear : Int := -292277022399

/-- The constant `absoluteToInternal + internalToUnix`, in seconds. -/
def absoluteToUnix : Int := -9223371966579724800 + -62135596800

/-- The function `daysSinceEpoch`: the days from the absolute epoch to the start of the
year, counted in 400-, 100-, 4- and 1-year cycles with `uint64` arithmetic. -/
def daysSinceEpoch (year : Int) : Nat :=
  let y0 : Nat := toUint64 (year - absoluteZeroYear)
  let n400 := y0 / 400
  let y1 := y0 - 400 * n400
  let n100 := y1 / 100
  let y2 := y1 - 100 * n100
  let n4 := y2 / 4
  let y3 := y2 - 4 * n4
  146097 * n400 + 36524 * n100 + 1461 * n4 + 365 * y3

/-- The function `time.Date(year, month, day, hour, min, sec, nsec, time.UTC)`: the
fields are normalised, the days since the absolute epoch and the seconds of the day are
added up with `uint64` arithmetic, and the result is shifted to the Unix epoch with `int64`
arithmetic. The zone offset of UTC is 0. -/
def Date (year month day hour min sec nsec : Int) : Time :=
  let ym := norm year (month - 1) 12
  let year := ym.1
  let month := ym.2 + 1
  let sn := norm sec nsec 1000000000
  let ms := norm min sn.1 60
  let hm := norm hour ms.1 60
  let dh := norm day hm.1 24
  let d0 : Nat := daysSinceEpoch year
  let d1 : Nat := (d0 + daysBefore.getD (month - 1).toNat 0) % 2 ^ 64
  let d2 : Nat := if isLeap year ∧ month ≥ 3 then (d1 + 1) % 2 ^ 64 else d1
  let d3 : Nat := (d2 + toUint64 (dh.1 - 1)) % 2 ^ 64
  let abs0 : Nat := d3 * 86400 % 2 ^ 64
  let abs : Nat := (abs0 + toUint64 (dh.2 * 3600 + hm.2 * 60 + ms.2)) % 2 ^ 64
  let unix := toInt64 (toInt64 (abs : Int) + absoluteToUnix)
  ⟨unix, sn.2⟩

end time

/-! ## The parser -/

/-- The struct `mlstFacts`. -/
structure mlstFacts where
  typ : GoString
  unixMode : GoString
  perm : GoString
  size : GoString
  sizd : GoString
  modify : GoString
  deriving DecidableEq, Repr

/-- The tokenizer states `mlstToken`. -/
inductive mlstToken where
  | mlstFactName
  | mlstFactValue
  | mlstFilename
  deriving DecidableEq, Repr

/-- The struct `ftpFile` as `parse` fills it. -/
structure ftpFile where
  name : GoString
  size : Int
  mtime : time.Time
  raw : GoString
  mode : Nat
  deriving DecidableEq, Repr

/-- The struct `ftpError`, by the text of the error it wraps. -/
structure ftpError where
  err : GoString
  deriving DecidableEq, Repr

/-- What a call of `parse` does: it returns `(info, nil)`, `(nil, nil)` or `(nil, err)`, or
it panics at run time. -/
inductive Result where
  | file (info : ftpFile)
  | nothing
  | failure (e : ftpError)
  | runtimePanic
  deriving DecidableEq, Repr

namespace mlstParser

/-- The method `mlstParser.error`: "failed parsing MLST entry: " followed by the entry. -/
def error (entry : GoString) : ftpError := ⟨ascii "failed parsing MLST entry: " ++ entry⟩

/-- The method `mlstParser.incompleteError`: "MLST entry incomplete: " followed by the
entry. -/
def incompleteError (entry : GoString) : ftpError := ⟨ascii "MLST entry incomplete: " ++ entry⟩

/-- The index expression `s[i]`; `none` is the out-of-range panic. -/
def index (s : GoString) (i : Nat) : Option Nat := s.get? i

/-- The slice expression `s[lo:hi]`; `none` is the out-of-range panic. -/
def slice (s : GoString) (lo hi : Nat) : Option GoString :=
  if lo ≤ hi ∧ hi ≤ s.length then some ((s.drop lo).take (hi - lo)) else none

/-- The slice expression `s[lo:]`; `none` is the out-of-range panic. -/
def sliceFrom (s : GoString) (lo : Nat) : Option GoString :=
  if lo ≤ s.length then some (s.drop lo) else none

/-- The variables of the tokenizer loop of `parse`. -/
structure Vars where
  facts : mlstFacts
  state : mlstToken
  left : GoString
  i1 : Nat
  deriving DecidableEq, Repr

/-- One iteration of the loop either goes on with new variables or leaves `parse`. -/
inductive Step where
  | next (v : Vars)
  | leave (r : Result)
  deriving DecidableEq, Repr

/-- The `switch key` of `parse` (lines 53-66): a known key stores the value. -/
def setFact (facts : mlstFacts) (key val : GoString) : mlstFacts :=
  if key = ascii "type" then { facts with typ := val }
  else if key = ascii "unix.mode" then { facts with unixMode := val }
  else if key = ascii "perm" then { facts with perm := val }
  else if key = ascii "size" then { facts with size := val }
  else if key = ascii "sizd" then { facts with sizd := val }
  else if key = ascii "modify" then { facts with modify := val }
  else facts

/-- The body of `for i2, r := range entry` (lines 43-81). -/
def step (unicodeLower : GoString → GoString) (entry : GoString) (i2 r : Nat) (v : Vars) :
    Step :=
  if r = 59 then
    if v.state = .mlstFactValue then
      if v.left = [] then .leave (.failure (error entry))
      else
        match slice v.left 0 (v.left.length - 1), slice entry v.i1 i2 with
        | some k, some x =>
          let facts := setFact v.facts (strings.ToLower unicodeLower k)
            (strings.ToLower unicodeLower x)
          if entry.length ≥ i2 + 1 then
            match index entry (i2 + 1) with
            | none => .leave .runtimePanic
            | some c =>
              .next { facts := facts,
                      state := if c = 32 then .mlstFilename else .mlstFactName,
                      left := v.left, i1 := i2 + 1 }
          else .next { facts := facts, state := .mlstFactName, left := v.left, i1 := i2 + 1 }
        | _, _ => .leave .runtimePanic
    else .next v
  else if r = 61 then
    match v.state with
    | .mlstFactName =>
      match slice entry v.i1 (i2 + 1) with
      | some l => .next { v with left := l, i1 := i2 + 1, state := .mlstFactValue }
      | none => .leave .runtimePanic
    | _ => .next v
  else .next v

/-- The loop `for i2, r := range entry`, from index `i2` on, `rest` being `entry[i2:]`. -/
def loop (unicodeLower : GoString → GoString) (entry : GoString) :
    GoString → Nat → Vars → Step
  | [], _, v => .next v
  | r :: rest, i2, v =>
    match step unicodeLower entry i2 r v with
    | .next w => loop unicodeLower entry rest (i2 + 1) w
    | .leave res => .leave res

/-- What lines 38-86 of `parse` end in: the facts and the filename, or a return. -/
inductive Tokens where
  | ok (facts : mlstFacts) (filename : GoString)
  | leave (r : Result)
  deriving DecidableEq, Repr

/-- Lines 38-86 of `parse`: the tokenizer loop, the check of its final state and the
filename `entry[i1+1:]`. -/
def tokenize (unicodeLower : GoString → GoString) (entry : GoString) : Tokens :=
  match loop unicodeLower entry entry 0
      { facts := ⟨[], [], [], [], [], []⟩, state := .mlstFactName, left := [], i1 := 0 } with
  | .leave r => .leave r
  | .next v =>
    if v.state ≠ .mlstFilename ∨ v.i1 + 1 ≥ entry.length then .leave (.failure (error entry))
    else
      match sliceFrom entry (v.i1 + 1) with
      | none => .leave .runtimePanic
      | some filename => .ok v.facts filename

/-- The loop over `facts.perm` (lines 107-119), from the mode so far. -/
def permMode (perm : GoString) (mode : Nat) : Nat :=
  perm.foldl (fun m c =>
    if c = 97 ∨ c = 100 ∨ c = 99 ∨ c = 102 ∨ c = 109 ∨ c = 112 ∨ c = 119 then m ||| 0o200
    else if c = 108 then m ||| 0o500
    else if c = 114 then m ||| 0o400
    else m) mode

/-- Lines 125-130 of `parse`: the type bit is added to the mode. -/
def withTypeBits (typ : GoString) (mode : Nat) : Nat :=
  if typ = ascii "dir" ∨ typ = ascii "cdir" ∨ typ = ascii "pdir" then mode ||| os.ModeDir
  else if strings.HasPrefix typ (ascii "os.unix=slink") ||
      strings.HasPrefix typ (ascii "os.unix=symlink") then mode ||| os.ModeSymlink
  else mode

/-- The method `mlstParser.parseModTime`: the time and `ok`. -/
def parseModTime (value : GoString) : Option time.Time :=
  if value.length ≠ 14 then none
  else
    match strconv.ParseUint (value.take 4) 10 16,
          strconv.ParseUint ((value.drop 4).take 2) 10 8,
          strconv.ParseUint ((value.drop 6).take 2) 10 8,
          strconv.ParseUint ((value.drop 8).take 2) 10 8,
          strconv.ParseUint ((value.drop 10).take 2) 10 8,
          strconv.ParseUint ((value.drop 12).take 2) 10 8 with
    | (year, none), (month, none), (day, none), (hour, none), (min, none), (sec, none) =>
      some (time.Date year month day hour min sec 0)
    | _, _, _, _, _, _ => none

/-- Lines 132-147 of `parse`: the size, or the return of the `file` case, or the error of
a size that does not parse. -/
def sizeOf (entry : GoString) (facts : mlstFacts) (mode : Nat) : Except Result Int :=
  let r : Except Result (Int × Option strconv.NumError) :=
    if facts.size ≠ [] then .ok (strconv.ParseInt facts.size 10 64)
    else if os.IsDir mode ∧ facts.sizd ≠ [] then .ok (strconv.ParseInt facts.sizd 10 64)
    else if facts.typ = ascii "file" then .error (.failure (incompleteError entry))
    else .ok (0, none)
  match r with
  | .error res => .error res
  | .ok (_, some _) => .error (.failure (error entry))
  | .ok (size, none) => .ok size

/-- Lines 98-123 of `parse`: the mode before the type bit is added, or the error of a
`UNIX.mode` that does not parse. -/
def modeOf (entry : GoString) (facts : mlstFacts) : Except Result Nat :=
  if facts.unixMode ≠ [] then
    match strconv.ParseInt facts.unixMode 8 32 with
    | (_, some _) => .error (.failure (error entry))
    | (m, none) => .ok (toUint32 m)
  else if facts.perm ≠ [] then .ok (permMode facts.perm 0)
  else .ok 0o400

/-- Lines 88-166 of `parse`: from the facts and the filename to the result. -/
def build (entry : GoString) (skipSelfParent : Bool) (facts : mlstFacts)
    (filename : GoString) : Result :=
  let typ := facts.typ
  if typ = [] then .failure (incompleteError entry)
  else if skipSelfParent = true ∧
      (typ = ascii "cdir" ∨ typ = ascii "pdir" ∨ typ = ascii "." ∨ typ = ascii "..") then
    .nothing
  else
    match modeOf entry facts with
    | .error res => res
    | .ok mode0 =>
      let mode := withTypeBits typ mode0
      match sizeOf entry facts mode with
      | .error res => res
      | .ok size =>
        if facts.modify = [] then .failure (incompleteError entry)
        else
          match parseModTime facts.modify with
          | none => .failure (incompleteError entry)
          | some mtime =>
            .file { name := filepath.Base filename, size := size, mtime := mtime,
                    raw := entry, mode := mode }

/-- The method `mlstParser.parse`. -/
def parse (unicodeLower : GoString → GoString) (entry : GoString) (skipSelfParent : Bool) :
    Result :=
  match tokenize unicodeLower entry with
  | .leave r => r
  | .ok facts filename => build entry skipSelfParent facts filename

end mlstParser

/-- The function `parseMLST`. -/
def parseMLST (unicodeLower : GoString → GoString) (entry : GoString) (skipSelfParent : Bool) :
    Result :=
  mlstParser.parse unicodeLower entry skipSelfParent


/-! ## The tokenizer read on lists

The loop of `parse` addresses the entry by index. `run` is the same loop on lists: `cur`
holds the bytes `entry[i1:i2]` read since the current token started. `tokenize_eq_run`
proves that the two agree on every entry. -/

namespace mlstParser

/-- The end of lines 38-86 on lists: `cur` is `entry[i1:]`. -/
def runEnd (entry : GoString) (facts : mlstFacts) (state : mlstToken) (cur : GoString) :
    Tokens :=
  if state ≠ .mlstFilename ∨ cur.length ≤ 1 then .leave (.failure (error entry))
  else .ok facts (cur.drop 1)

/-- The tokenizer loop on lists, from the bytes `rest` still to read. -/
def run (unicodeLower : GoString → GoString) (entry : GoString) :
    GoString → mlstFacts → mlstToken → GoString → GoString → Tokens
  | [], facts, state, _, cur => runEnd entry facts state cur
  | r :: rest, facts, state, left, cur =>
    if r = 59 ∧ state = .mlstFactValue then
      if left = [] then .leave (.failure (error entry))
      else
        match rest with
        | [] => .leave .runtimePanic
        | c :: _ =>
          run unicodeLower entry rest
            (setFact facts (strings.ToLower unicodeLower left.dropLast)
              (strings.ToLower unicodeLower cur))
            (if c = 32 then .mlstFilename else .mlstFactName) left []
    else if r = 61 ∧ state = .mlstFactName then
      run unicodeLower entry rest facts .mlstFactValue (cur ++ [61]) []
    else run unicodeLower entry rest facts state left (cur ++ [r])

/-- Lines 83-86 of `parse`, applied to what the loop ended in. -/
def afterLoop (entry : GoString) : Step → Tokens
  | .leave r => .leave r
  | .next v =>
    if v.state ≠ .mlstFilename ∨ v.i1 + 1 ≥ entry.length then .leave (.failure (error entry))
    else
      match sliceFrom entry (v.i1 + 1) with
      | none => .leave .runtimePanic
      | some filename => .ok v.facts filename

end mlstParser

/-! ## Fact lists

A fact list is the text `key=value;key=value;...`. `encodeFacts` writes one from its
pairs, `readFacts` is what `parse` stores of it: each known key keeps its last value,
both sides lower-cased. -/

namespace mlstParser

/-- The text of one fact: `key=value;`. -/
def encodeFact (kv : GoString × GoString) : GoString := kv.1 ++ 61 :: kv.2 ++ [59]

/-- The text of a fact list. -/
def encodeFacts : List (GoString × GoString) → GoString
  | [] => []
  | kv :: kvs => encodeFact kv ++ encodeFacts kvs

/-- A fact is well formed when its key contains no `=` and no `;` and does not start with a
space, and its value contains no `;`. -/
def WellFormedFact (kv : GoString × GoString) : Prop :=
  61 ∉ kv.1 ∧ 59 ∉ kv.1 ∧ kv.1.head? ≠ some 32 ∧ 59 ∉ kv.2

instance (kv : GoString × GoString) : Decidable (WellFormedFact kv) := by
  unfold WellFormedFact
  infer_instance

/-- The facts stored after reading the pairs `kvs` in order, starting from `facts`. -/
def readFacts (unicodeLower : GoString → GoString) (facts : mlstFacts)
    (kvs : List (GoString × GoString)) : mlstFacts :=
  kvs.foldl (fun f kv =>
    setFact f (strings.ToLower unicodeLower kv.1) (strings.ToLower unicodeLower kv.2)) facts

/-- No fact stored yet: the zero value of `mlstFacts`. -/
def noFacts : mlstFacts := ⟨[], [], [], [], [], []⟩

end mlstParser

/-! ## Reading digits

What a string of digits denotes, to state what `strconv.ParseUint` and `strconv.ParseInt`
return on one. -/

namespace strconv

/-- Every byte of `s` is a digit of the base (at most 10): `'0'` up to `'0' + base - 1`. -/
def IsDigits (base : Nat) (s : GoString) : Prop := ∀ c ∈ s, 48 ≤ c ∧ c < 48 + base

instance (base : Nat) (s : GoString) : Decidable (IsDigits base s) := by
  unfold IsDigits
  infer_instance

/-- The number a digit string denotes in the base, continuing from the value `n`. -/
def digitsFrom (base : Nat) (n : Nat) (s : GoString) : Nat :=
  s.foldl (fun v c => v * base + (c - 48)) n

/-- The number a digit string denotes in the base. -/
def digitsValue (base : Nat) (s : GoString) : Nat := digitsFrom base 0 s

end strconv

namespace mlstParser

/-- The type bit a lower-cased type fact stands for: the directory bit for `dir`, `cdir`
and `pdir`, the symlink bit for a type that begins with `os.unix=slink` or
`os.unix=symlink`, no bit otherwise. -/
def typeBits (typ : GoString) : Nat :=
  if typ = ascii "dir" ∨ typ = ascii "cdir" ∨ typ = ascii "pdir" then os.ModeDir
  else if strings.HasPrefix typ (ascii "os.unix=slink") = true ∨
      strings.HasPrefix typ (ascii "os.unix=symlink") = true then os.ModeSymlink
  else 0

/-- A numeric fact is valid or absent: it is empty or `strconv.ParseInt` reads it without
error in the given base and size. -/
def ValidOrAbsent (s : GoString) (base bitSize : Nat) : Prop :=
  s ≠ [] → (strconv.ParseInt s base bitSize).2 = none

instance (s : GoString) (base bitSize : Nat) : Decidable (ValidOrAbsent s base bitSize) := by
  unfold ValidOrAbsent
  infer_instance

end mlstParser

/-! ## The proleptic Gregorian calendar

The instant a civil date and time of day in UTC names, counted day by day: to state
what `time.Date` returns. -/

namespace calendar

/-- A leap year: divisible by 4, and not by 100 unless by 400. -/
def isLeapYear (y : Nat) : Bool :=
  decide (y % 4 = 0) && (decide (y % 100 ≠ 0) || decide (y % 400 = 0))

/-- The days of year `y`. -/
def daysInYear (y : Nat) : Nat := if isLeapYear y then 366 else 365

/-- The days of month `m` (1 to 12) of year `y`. -/
def daysInMonth (y m : Nat) : Nat :=
  if m = 2 then (if isLeapYear y then 29 else 28)
  else if m = 4 ∨ m = 6 ∨ m = 9 ∨ m = 11 then 30
  else 31

/-- The days of the years `0` to `y - 1`. -/
def daysBeforeYear : Nat → Nat
  | 0 => 0
  | y + 1 => daysBeforeYear y + daysInYear y

/-- The days of the months `1` to `m - 1` of year `y`. -/
def daysBeforeMonth (y : Nat) : Nat → Nat
  | 0 => 0
  | 1 => 0
  | m + 2 => daysBeforeMonth y (m + 1) + daysInMonth y (m + 1)

/-- A valid date and time of day: month 1-12, day within the month, hour below 24, minute
and second below 60. -/
def ValidDateTime (y m d hh mm ss : Nat) : Prop :=
  1 ≤ m ∧ m ≤ 12 ∧ 1 ≤ d ∧ d ≤ daysInMonth y m ∧ hh < 24 ∧ mm < 60 ∧ ss < 60

instance (y m d hh mm ss : Nat) : Decidable (ValidDateTime y m d hh mm ss) := by
  unfold ValidDateTime
  infer_instance

/-- The days from 1970-01-01 to the date `y`-`m`-`d`. -/
def daysSince1970 (y m d : Nat) : Int :=
  ((daysBeforeYear y + daysBeforeMonth y m + (d - 1) : Nat) : Int) - (daysBeforeYear 1970 : Nat)

/-- The seconds from 1970-01-01T00:00:00Z to `y`-`m`-`d`T`hh`:`mm`:`ss`Z. -/
def unixSeconds (y m d hh mm ss : Nat) : Int :=
  daysSince1970 y m d * 86400 + (hh * 3600 + mm * 60 + ss : Nat)

end calendar

/-! ## Permission bits

The bits a perm value stands for, character by character, to state what the loop over
`facts.perm` computes. -/

namespace os

/-- The mask `os.ModePerm`: the Unix permission bits, `0777`. -/
def ModePerm : Nat := 0o777

/-- The method `FileMode.Perm`: `m & ModePerm`. -/
def Perm (m : Nat) : Nat := m &&& ModePerm

end os

namespace mlstParser

/-- The bits of one character of a perm value: `0200` for `a`, `d`, `c`, `f`, `m`, `p`,
`w`; `0500` for `l`; `0400` for `r`; 0 for every other character. -/
def permBit (c : Nat) : Nat :=
  if c = 97 ∨ c = 100 ∨ c = 99 ∨ c = 102 ∨ c = 109 ∨ c = 112 ∨ c = 119 then 0o200
  else if c = 108 then 0o500
  else if c = 114 then 0o400
  else 0

/-- The bitwise OR, over the characters of a perm value, of their bits. -/
def permBits (perm : GoString) : Nat := (perm.map permBit).foldr (fun b acc => b ||| acc) 0

/-- Every byte is ASCII. -/
def IsASCII (s : GoString) : Prop := ∀ c ∈ s, c < 128

instance (s : GoString) : Decidable (IsASCII s) := by
  unfold IsASCII
  infer_instance

end mlstParser

/-! ## Comparing two entries -/

namespace mlstParser

/-- Two results of `parse`, for the entries `entry1` and `entry2`, are the same outcome:
both are the malformed-entry error, both are the incomplete-entry error, both are no
record, or both are records with equal name, size, mode and mtime. -/
def SameOutcome (entry1 entry2 : GoString) (r1 r2 : Result) : Prop :=
  (r1 = .failure (error entry1) ∧ r2 = .failure (error entry2)) ∨
  (r1 = .failure (incompleteError entry1) ∧ r2 = .failure (incompleteError entry2)) ∨
  (r1 = .nothing ∧ r2 = .nothing) ∨
  (∃ a b, r1 = .file a ∧ r2 = .file b ∧
    a.name = b.name ∧ a.size = b.size ∧ a.mode = b.mode ∧ a.mtime = b.mtime)

/-- Two strings of ASCII bytes that are equal after ASCII lower-casing. -/
def LowerEq (s1 s2 : GoString) : Prop :=
  IsASCII s1 ∧ IsASCII s2 ∧ s1.map strings.lowerByte = s2.map strings.lowerByte

/-- Two bytes that the tokenizer cannot tell apart: each is `;`, `=` or a space exactly
when the other is. -/
def SameSeparator (a b : Nat) : Prop := (a = 59 ↔ b = 59) ∧ (a = 61 ↔ b = 61) ∧ (a = 32 ↔ b = 32)

/-- A fact key that `parse` does not know. -/
def UnknownKey (key : GoString) : Prop :=
  key ≠ ascii "type" ∧ key ≠ ascii "unix.mode" ∧ key ≠ ascii "perm" ∧ key ≠ ascii "size" ∧
    key ≠ ascii "sizd" ∧ key ≠ ascii "modify"

instance (key : GoString) : Decidable (UnknownKey key) := by
  unfold UnknownKey
  infer_instance

end mlstParser

/-! ## Out-of-range fields of a date -/

namespace calendar

/-- The days from 0000-01-01 to the first day of month `m` of year `y`, for any month
number: month 0 is the December before year `y` (it has 31 days), and a month above 12
counts on into the following years. -/
def monthStart (y m : Nat) : Int :=
  if m = 0 then (daysBeforeYear y : Int) - 31
  else ((daysBeforeYear (y + (m - 1) / 12) +
    daysBeforeMonth (y + (m - 1) / 12) ((m - 1) % 12 + 1) : Nat) : Int)

/-- The seconds from 1970-01-01T00:00:00Z to the instant that the fields name when what
is beyond the range of a field counts on in the next larger field: second 60 is the first
second of the next minute, hour 24 the first hour of the next day, day 0 the day before the
first of the month and day 32 the day after the 31st, month 13 the January after and
month 0 the December before. -/
def normalisedSeconds (y m d hh mm ss : Nat) : Int :=
  (monthStart y m + ((d : Int) - 1) - (daysBeforeYear 1970 : Nat)) * 86400 +
    (hh * 3600 + mm * 60 + ss : Nat)

end calendar

/-! ## The connection pool -/

namespace pool

/-- Modelled from the spec: the connection pool of the client, whose code is not among
the sources (only its tests are, which compare `numOpenConns()` with `len(freeConnCh)`).
Sections 3 and 4.1: the pool counts its live connections (`live`) and its idle ones
(`idle`) and has a configured maximum (`max`). -/
structure Pool where
  live : Nat
  idle : Nat
  max : Nat
  deriving DecidableEq, Repr

/-- Modelled from the spec: `Borrow` of section 4.1, the pool's code being absent. An idle
connection is handed out if one exists; otherwise, below the maximum, a new one is
established, which fails with a dial error when `dialOk` is false; otherwise the caller
waits, and in a sequence of operations nobody returns a connection meanwhile, so the wait
ends in the pool-exhausted error. The result is the pool and whether a connection was
handed out. -/
def borrow (p : Pool) (dialOk : Bool) : Pool × Bool :=
  if p.idle > 0 then ({ p with idle := p.idle - 1 }, true)
  else if p.live < p.max then
    if dialOk then ({ p with live := p.live + 1 }, true) else (p, false)
  else (p, false)

/-- Modelled from the spec: `Return(conn, healthy)` of section 4.1, the pool's code being
absent. A healthy connection goes back to the idle set; an unhealthy one is closed and
discarded, so the live count decrements. -/
def giveBack (p : Pool) (healthy : Bool) : Pool :=
  if healthy then { p with idle := p.idle + 1 } else { p with live := p.live - 1 }

/-- Modelled from the spec: what decides the course of one public operation (Store,
Delete, Rename, Mkdir, Rmdir, ReadDir, Stat, Getwd) for the pool, section 4.5: whether a
connection it has to establish can be established, whether the borrowed connection is
found stale before any exchange (then the operation retries once), whether the
connection of the retry can be established, and whether the connection is healthy when
the operation ends (with success or with a reported error). -/
structure Operation where
  dialOk : Bool
  stale : Bool
  retryDialOk : Bool
  healthy : Bool
  deriving DecidableEq, Repr

/-- Modelled from the spec: one public operation of section 4.5, the client's code being
absent. It borrows a connection, or ends with the error of the borrow; a stale connection
is returned as unhealthy and a fresh one is borrowed once; the connection is returned when
the operation ends. -/
def perform (p : Pool) (op : Operation) : Pool :=
  match borrow p op.dialOk with
  | (p1, false) => p1
  | (p1, true) =>
    if op.stale then
      match borrow (giveBack p1 false) op.retryDialOk with
      | (p2, false) => p2
      | (p2, true) => giveBack p2 op.healthy
    else giveBack p1 op.healthy

/-- Modelled from the spec: a sequence of operations that all complete, one after the
other. -/
def performAll (p : Pool) (ops : List Operation) : Pool := ops.foldl perform p

end pool

/-! ## The index loop is the list loop -/

namespace mlstParser

theorem tokenize_eq_afterLoop (U : GoString → GoString) (entry : GoString) :
    tokenize U entry = afterLoop entry (loop U entry entry 0
      { facts := ⟨[], [], [], [], [], []⟩, state := .mlstFactName, left := [], i1 := 0 }) := by
  unfold tokenize afterLoop
  cases loop U entry entry 0
      { facts := ⟨[], [], [], [], [], []⟩, state := .mlstFactName, left := [], i1 := 0 } <;> rfl

theorem slice_mid (a cur rest : GoString) :
    slice (a ++ cur ++ rest) a.length (a.length + cur.length) = some cur := by
  unfold slice
  have h1 : a.length ≤ a.length + cur.length ∧
      a.length + cur.length ≤ (a ++ cur ++ rest).length := by
    simp [List.length_append]
  rw [if_pos h1]
  simp [List.append_assoc]

theorem slice_dropLast (left : GoString) : slice left 0 (left.length - 1) = some left.dropLast := by
  unfold slice
  have h1 : 0 ≤ left.length - 1 ∧ left.length - 1 ≤ left.length := by omega
  rw [if_pos h1]
  simp [List.dropLast_eq_take]

theorem index_next (a cur rest : GoString) (r : Nat) :
    index (a ++ cur ++ r :: rest) (a.length + cur.length + 1) = rest.head? := by
  unfold index
  have h : a ++ cur ++ r :: rest = (a ++ cur ++ [r]) ++ rest := by simp
  rw [h]
  have hl : a.length + cur.length + 1 = (a ++ cur ++ [r]).length := by
    simp only [List.length_append, List.length_singleton]
  rw [hl, List.get?_eq_getElem?, List.getElem?_append_right (Nat.le_refl _)]
  simp [List.head?_eq_getElem?]

/-- The index loop and the list loop agree: with `entry = a ++ cur ++ rest`, `i1 = len(a)`
and `i2 = len(a) + len(cur)`, the loop of `parse` followed by lines 83-86 is `run`. -/
theorem loop_eq_run (U : GoString → GoString) (entry : GoString) :
    ∀ (rest a cur : GoString) (facts : mlstFacts) (state : mlstToken) (left : GoString),
      entry = a ++ cur ++ rest →
      afterLoop entry (loop U entry rest (a.length + cur.length)
        { facts := facts, state := state, left := left, i1 := a.length }) =
      run U entry rest facts state left cur := by
  intro rest
  induction rest with
  | nil =>
    intro a cur facts state left h
    simp only [loop, afterLoop, run, runEnd]
    have hlen : entry.length = a.length + cur.length := by simp [h]
    have hs : sliceFrom entry (a.length + 1) =
        if a.length + 1 ≤ entry.length then some (cur.drop 1) else none := by
      unfold sliceFrom
      split
      · subst h
        simp [← List.drop_drop]
      · rfl
    by_cases hc : state ≠ .mlstFilename ∨ cur.length ≤ 1
    · have hc2 : state ≠ .mlstFilename ∨ a.length + 1 ≥ entry.length := by
        rcases hc with hc | hc
        · exact Or.inl hc
        · exact Or.inr (by omega)
      rw [if_pos hc, if_pos hc2]
    · have hc2 : ¬ (state ≠ .mlstFilename ∨ a.length + 1 ≥ entry.length) := by
        intro h2
        apply hc
        rcases h2 with h2 | h2
        · exact Or.inl h2
        · exact Or.inr (by omega)
      rw [if_neg hc, if_neg hc2, hs, if_pos (by push_neg at hc; omega)]
  | cons r rest ih =>
    intro a cur facts state left h
    have h2 : entry = a ++ (cur ++ [r]) ++ rest := by simp [h]
    have h3 : entry = (a ++ cur ++ [r]) ++ [] ++ rest := by simp [h]
    have ih2 := ih a (cur ++ [r])
    have ih3 := ih (a ++ cur ++ [r]) []
    simp only [List.length_append, List.length_singleton, List.length_nil, Nat.add_zero,
      ← Nat.add_assoc] at ih2 ih3
    have hsl : slice entry a.length (a.length + cur.length) = some cur := by
      rw [h]; exact slice_mid a cur (r :: rest)
    have hsl2 : slice entry a.length (a.length + cur.length + 1) = some (cur ++ [r]) := by
      rw [h2]
      have := slice_mid a (cur ++ [r]) rest
      simpa [Nat.add_assoc] using this
    have hix : index entry (a.length + cur.length + 1) = rest.head? := by
      rw [h]; exact index_next a cur rest r
    have hge : entry.length ≥ a.length + cur.length + 1 := by simp [h]; omega
    simp only [loop, run, step]
    by_cases h59 : r = 59
    · subst h59
      by_cases hst : state = .mlstFactValue
      · subst hst
        by_cases hl : left = []
        · simp [hl, afterLoop]
        · simp only [hl, if_true, if_false, and_self, slice_dropLast, hsl, hix, hge]
          cases rest with
          | nil => simp [afterLoop]
          | cons c rest2 =>
            simp only [List.head?_cons]
            exact ih3 _ _ left h3
      · have := ih2 facts state left h2
        simp [hst, this]
    · by_cases h61 : r = 61
      · subst h61
        cases state with
        | mlstFactName =>
          simp only [hsl2]
          simpa using ih3 facts .mlstFactValue (cur ++ [61]) h3
        | mlstFactValue => simpa using ih2 facts .mlstFactValue left h2
        | mlstFilename => simpa using ih2 facts .mlstFilename left h2
      · have := ih2 facts state left h2
        simp [h59, h61, this]

/-- The tokenizer of `parse` is the list loop started on the whole entry. -/
theorem tokenize_eq_run (U : GoString → GoString) (entry : GoString) :
    tokenize U entry = run U entry entry ⟨[], [], [], [], [], []⟩ .mlstFactName [] [] := by
  rw [tokenize_eq_afterLoop]
  have := loop_eq_run U entry entry [] [] ⟨[], [], [], [], [], []⟩ .mlstFactName [] (by simp)
  simpa using this

end mlstParser

/-! ## Reading fact lists -/

namespace mlstParser

theorem run_name_skip (U : GoString → GoString) (e : GoString) (k rest : GoString)
    (facts : mlstFacts) (left : GoString) (hk : 61 ∉ k) :
    ∀ cur, run U e (k ++ rest) facts .mlstFactName left cur =
      run U e rest facts .mlstFactName left (cur ++ k) := by
  induction k with
  | nil => intro cur; simp
  | cons c k ih =>
    intro cur
    have hc : c ≠ 61 := fun h => hk (by simp [h])
    have hk2 : 61 ∉ k := fun h => hk (List.mem_cons_of_mem _ h)
    have := ih hk2 (cur ++ [c])
    simp only [List.cons_append, run]
    simp [hc, this]

theorem run_value_skip (U : GoString → GoString) (e : GoString) (x rest : GoString)
    (facts : mlstFacts) (left : GoString) (hx : 59 ∉ x) :
    ∀ cur, run U e (x ++ rest) facts .mlstFactValue left cur =
      run U e rest facts .mlstFactValue left (cur ++ x) := by
  induction x with
  | nil => intro cur; simp
  | cons c x ih =>
    intro cur
    have hc : c ≠ 59 := fun h => hx (by simp [h])
    have hx2 : 59 ∉ x := fun h => hx (List.mem_cons_of_mem _ h)
    have := ih hx2 (cur ++ [c])
    simp only [List.cons_append, run]
    simp [hc, this]

theorem run_filename (U : GoString → GoString) (e : GoString) (facts : mlstFacts)
    (left : GoString) :
    ∀ rest cur, run U e rest facts .mlstFilename left cur =
      runEnd e facts .mlstFilename (cur ++ rest) := by
  intro rest
  induction rest with
  | nil => intro cur; simp [run]
  | cons c rest ih =>
    intro cur
    have := ih (cur ++ [c])
    simp only [run]
    simp [this]

/-- Reading one well-formed fact that is followed by the byte `c`. -/
theorem run_fact (U : GoString → GoString) (e : GoString) (k x : GoString) (c : Nat)
    (rest : GoString) (facts : mlstFacts) (left : GoString) (hk : 61 ∉ k) (hx : 59 ∉ x) :
    run U e (encodeFact (k, x) ++ c :: rest) facts .mlstFactName left [] =
      run U e (c :: rest) (setFact facts (strings.ToLower U k) (strings.ToLower U x))
        (if c = 32 then .mlstFilename else .mlstFactName) (k ++ [61]) [] := by
  have h1 : encodeFact (k, x) ++ c :: rest = k ++ (61 :: (x ++ (59 :: c :: rest))) := by
    simp [encodeFact]
  rw [h1, run_name_skip U e k _ facts left hk []]
  have h2 : run U e (61 :: (x ++ 59 :: c :: rest)) facts .mlstFactName left ([] ++ k) =
      run U e (x ++ 59 :: c :: rest) facts .mlstFactValue (k ++ [61]) [] := by
    simp [run]
  rw [h2, run_value_skip U e x _ facts (k ++ [61]) hx []]
  have h3 : (k ++ [61]) ≠ [] := by simp
  simp [run, h3]

theorem encodeFacts_append (kvs1 kvs2 : List (GoString × GoString)) :
    encodeFacts (kvs1 ++ kvs2) = encodeFacts kvs1 ++ encodeFacts kvs2 := by
  induction kvs1 with
  | nil => rfl
  | cons kv kvs ih => simp [encodeFacts, ih]

/-- The text after a fact starts with a byte that is not a space when it is a further
well-formed fact list followed by such a text. -/
theorem head_encodeFacts_append (kvs : List (GoString × GoString)) (t : GoString)
    (hwf : ∀ kv ∈ kvs, WellFormedFact kv) (ht : ∃ c rest, t = c :: rest ∧ c ≠ 32) :
    ∃ c rest, encodeFacts kvs ++ t = c :: rest ∧ c ≠ 32 := by
  cases kvs with
  | nil => simpa [encodeFacts] using ht
  | cons kv kvs =>
    obtain ⟨k, x⟩ := kv
    have hw := hwf (k, x) (by simp)
    cases k with
    | nil =>
      exact ⟨61, x ++ 59 :: (encodeFacts kvs ++ t), by simp [encodeFacts, encodeFact], by decide⟩
    | cons c k =>
      refine ⟨c, k ++ 61 :: (x ++ 59 :: (encodeFacts kvs ++ t)),
        by simp [encodeFacts, encodeFact], ?_⟩
      intro hc
      exact hw.2.2.1 (by simp [hc])

/-- Reading a well-formed fact list that is followed by a text `t` not starting with a
space: the loop is back in the fact-name state at `t`, with the facts of the list stored. -/
theorem run_facts (U : GoString → GoString) (e : GoString) (t : GoString)
    (ht : ∃ c rest, t = c :: rest ∧ c ≠ 32) :
    ∀ (kvs : List (GoString × GoString)) (facts : mlstFacts) (left : GoString),
      (∀ kv ∈ kvs, WellFormedFact kv) →
      ∃ left2, run U e (encodeFacts kvs ++ t) facts .mlstFactName left [] =
        run U e t (readFacts U facts kvs) .mlstFactName left2 [] := by
  intro kvs
  induction kvs with
  | nil => intro facts left _; exact ⟨left, by simp [encodeFacts, readFacts]⟩
  | cons kv kvs ih =>
    intro facts left hwf
    obtain ⟨k, x⟩ := kv
    have hw := hwf (k, x) (by simp)
    have hwf2 : ∀ kv ∈ kvs, WellFormedFact kv := fun kv h => hwf kv (List.mem_cons_of_mem _ h)
    obtain ⟨c, rest, hcr, hc⟩ := head_encodeFacts_append kvs t hwf2 ht
    obtain ⟨left2, h2⟩ := ih (setFact facts (strings.ToLower U k) (strings.ToLower U x))
      (k ++ [61]) hwf2
    refine ⟨left2, ?_⟩
    have h1 : encodeFacts ((k, x) :: kvs) ++ t = encodeFact (k, x) ++ c :: rest := by
      simp [encodeFacts, ← hcr]
    rw [h1, run_fact U e k x c rest facts left hw.1 hw.2.2.2, if_neg hc, ← hcr, h2]
    simp [readFacts]

theorem error_ne_incompleteError (entry : GoString) : error entry ≠ incompleteError entry := by
  intro h
  have h2 : (error entry).err.head? = (incompleteError entry).err.head? := by rw [h]
  have h3 : (error entry).err.head? = some 102 := rfl
  have h4 : (incompleteError entry).err.head? = some 77 := rfl
  rw [h3, h4] at h2
  exact absurd h2 (by decide)

end mlstParser

/-! ## From the facts to the record -/

namespace mlstParser

theorem parse_of_tokenize (U : GoString → GoString) (entry : GoString) (skip : Bool)
    (facts : mlstFacts) (fn : GoString) (h : tokenize U entry = .ok facts fn) :
    parse U entry skip = build entry skip facts fn := by
  unfold parse
  rw [h]

/-- When `build` returns a record, every step of lines 88-166 went through. -/
theorem build_file_inv (entry : GoString) (skip : Bool) (facts : mlstFacts) (fn : GoString)
    (info : ftpFile) (h : build entry skip facts fn = .file info) :
    facts.typ ≠ [] ∧
    ¬ (skip = true ∧ (facts.typ = ascii "cdir" ∨ facts.typ = ascii "pdir" ∨
        facts.typ = ascii "." ∨ facts.typ = ascii "..")) ∧
    ∃ mode0 size mtime, modeOf entry facts = .ok mode0 ∧
      sizeOf entry facts (withTypeBits facts.typ mode0) = .ok size ∧
      facts.modify ≠ [] ∧ parseModTime facts.modify = some mtime ∧
      info = { name := filepath.Base fn, size := size, mtime := mtime, raw := entry,
               mode := withTypeBits facts.typ mode0 } := by
  unfold build at h
  simp only at h
  split at h
  · exact absurd h (by simp)
  · rename_i htyp
    split at h
    · exact absurd h (by simp)
    · rename_i hskip
      refine ⟨htyp, hskip, ?_⟩
      split at h
      · rename_i res hm
        unfold modeOf at hm
        split at hm
        · split at hm
          · rw [← Except.error.inj hm] at h; exact absurd h (by simp)
          · exact absurd hm (by simp)
        · split at hm <;> exact absurd hm (by simp)
      · rename_i mode0 hm
        split at h
        · rename_i res hs
          unfold sizeOf at hs
          simp only at hs
          split at hs
          · rename_i res2 hr
            rw [← Except.error.inj hs] at h
            split at hr
            · exact absurd hr (by simp)
            · split at hr
              · exact absurd hr (by simp)
              · split at hr
                · rw [← Except.error.inj hr] at h; exact absurd h (by simp)
                · exact absurd hr (by simp)
          · rw [← Except.error.inj hs] at h; exact absurd h (by simp)
          · exact absurd hs (by simp)
        · rename_i size hs
          split at h
          · exact absurd h (by simp)
          · rename_i hmod
            split at h
            · exact absurd h (by simp)
            · rename_i mtime hmt
              exact ⟨mode0, size, mtime, hm, hs, hmod, hmt, (Result.file.inj h).symm⟩

/-- When every step of lines 88-166 goes through, `build` returns the record. -/
theorem build_file_of (entry : GoString) (skip : Bool) (facts : mlstFacts) (fn : GoString)
    (mode0 : Nat) (size : Int) (mtime : time.Time)
    (htyp : facts.typ ≠ [])
    (hskip : ¬ (skip = true ∧ (facts.typ = ascii "cdir" ∨ facts.typ = ascii "pdir" ∨
        facts.typ = ascii "." ∨ facts.typ = ascii "..")))
    (hm : modeOf entry facts = .ok mode0)
    (hs : sizeOf entry facts (withTypeBits facts.typ mode0) = .ok size)
    (hmt : parseModTime facts.modify = some mtime) :
    build entry skip facts fn =
      .file { name := filepath.Base fn, size := size, mtime := mtime, raw := entry,
              mode := withTypeBits facts.typ mode0 } := by
  have hmod : facts.modify ≠ [] := by
    intro h0
    rw [h0] at hmt
    simp [parseModTime] at hmt
  unfold build
  simp only [if_neg htyp, if_neg hskip, hm, hs, if_neg hmod, hmt]

theorem isDir_eq_testBit (m : Nat) : os.IsDir m = m.testBit 31 := by
  unfold os.IsDir os.ModeDir
  by_cases h : m.testBit 31 = true
  · rw [h]
    have h2 : (m &&& 2 ^ 31).testBit 31 = true := by
      rw [Nat.testBit_and, h, Nat.testBit_two_pow_self]; rfl
    have h3 : m &&& 2 ^ 31 ≠ 0 := by
      intro h0
      rw [h0, Nat.zero_testBit] at h2
      exact absurd h2 (by decide)
    simpa using h3
  · have hf : m.testBit 31 = false := by simpa using h
    rw [hf]
    have h3 : m &&& 2 ^ 31 = 0 := by
      apply Nat.eq_of_testBit_eq
      intro i
      rw [Nat.testBit_and, Nat.zero_testBit, Nat.testBit_two_pow]
      by_cases hi : 31 = i
      · subst hi; simp [hf]
      · simp [hi]
    simpa using h3

theorem isSymlink_iff_testBit (m : Nat) : m &&& os.ModeSymlink ≠ 0 ↔ m.testBit 27 = true := by
  unfold os.ModeSymlink
  constructor
  · intro h
    by_contra hb
    have hf : m.testBit 27 = false := by simpa using hb
    apply h
    apply Nat.eq_of_testBit_eq
    intro i
    rw [Nat.testBit_and, Nat.zero_testBit, Nat.testBit_two_pow]
    by_cases hi : 27 = i
    · subst hi; simp [hf]
    · simp [hi]
  · intro h h0
    have h2 : (m &&& 2 ^ 27).testBit 27 = true := by
      rw [Nat.testBit_and, h, Nat.testBit_two_pow_self]; rfl
    rw [h0, Nat.zero_testBit] at h2
    exact absurd h2 (by decide)

end mlstParser

/-! ## `strconv` on digit strings -/

namespace strconv

theorem digitValue_digit (c : Nat) (h1 : 48 ≤ c) (h2 : c ≤ 57) : digitValue c = some (c - 48) := by
  unfold digitValue
  rw [if_pos ⟨h1, h2⟩]

theorem le_digitsFrom (base : Nat) (s : GoString) :
    ∀ n, 1 ≤ base → n ≤ digitsFrom base n s := by
  induction s with
  | nil => intro n _; exact Nat.le_refl _
  | cons c cs ih =>
    intro n hb
    have h1 := ih (n * base + (c - 48)) hb
    have h2 : n ≤ n * base := Nat.le_mul_of_pos_right n hb
    show n ≤ digitsFrom base (n * base + (c - 48)) cs
    omega

/-- On a string of digits whose value fits, the digit loop of `ParseUint` returns the
value and no error. -/
theorem parseUintLoop_digits (base maxVal : Nat) (hb1 : 2 ≤ base) (hb2 : base ≤ 10)
    (hmax : maxVal < 2 ^ 64) (s : GoString) :
    ∀ n, IsDigits base s → digitsFrom base n s ≤ maxVal →
      parseUintLoop base ((2 ^ 64 - 1) / base + 1) maxVal s n = (digitsFrom base n s, none) := by
  induction s with
  | nil => intro n _ _; rfl
  | cons c cs ih =>
    intro n hd hle
    have hc := hd c (by simp)
    have hcs : IsDigits base cs := fun x hx => hd x (List.mem_cons_of_mem _ hx)
    have hstep : digitsFrom base n (c :: cs) = digitsFrom base (n * base + (c - 48)) cs := rfl
    rw [hstep] at hle ⊢
    have hmono := le_digitsFrom base cs (n * base + (c - 48)) (by omega)
    have hlt : n * base + (c - 48) < 2 ^ 64 := by omega
    have hnb : n * base ≤ 2 ^ 64 - 1 := by omega
    have hn : n ≤ (2 ^ 64 - 1) / base := (Nat.le_div_iff_mul_le (by omega)).mpr hnb
    have hdv : digitValue c = some (c - 48) := digitValue_digit c hc.1 (by omega)
    have hm1 : n * base % 2 ^ 64 = n * base := Nat.mod_eq_of_lt (by omega)
    have hm2 : (n * base + (c - 48)) % 2 ^ 64 = n * base + (c - 48) := Nat.mod_eq_of_lt hlt
    unfold parseUintLoop
    simp only [hdv]
    rw [if_neg (by omega), if_neg (by omega)]
    simp only [hm1, hm2]
    rw [if_neg (by omega)]
    exact ih _ hcs hle

/-- On a non-empty string of digits whose value fits in `bitSize` bits, `ParseUint` returns
the value and no error. -/
theorem ParseUint_digits (base bitSize : Nat) (hb1 : 2 ≤ base) (hb2 : base ≤ 10)
    (hbits : bitSize ≤ 64) (s : GoString) (hs : s ≠ []) (hd : IsDigits base s)
    (hle : digitsValue base s ≤ 2 ^ bitSize - 1) :
    ParseUint s base bitSize = (digitsValue base s, none) := by
  unfold ParseUint
  rw [if_neg hs]
  have hpow : 2 ^ bitSize ≤ 2 ^ 64 := Nat.pow_le_pow_right (by decide) hbits
  have hpos : 0 < 2 ^ bitSize := Nat.two_pow_pos bitSize
  exact parseUintLoop_digits base (2 ^ bitSize - 1) hb1 hb2 (by omega) s 0 hd hle

theorem digitsFrom_lt (s : GoString) :
    ∀ n, IsDigits 10 s → digitsFrom 10 n s < (n + 1) * 10 ^ s.length := by
  induction s with
  | nil => intro n _; simp [digitsFrom]
  | cons c cs ih =>
    intro n hd
    have hc := hd c (by simp)
    have hcs : IsDigits 10 cs := fun x hx => hd x (List.mem_cons_of_mem _ hx)
    have h1 := ih (n * 10 + (c - 48)) hcs
    have hstep : digitsFrom 10 n (c :: cs) = digitsFrom 10 (n * 10 + (c - 48)) cs := rfl
    rw [hstep]
    have h2 : (n * 10 + (c - 48) + 1) * 10 ^ cs.length ≤ ((n + 1) * 10) * 10 ^ cs.length :=
      Nat.mul_le_mul_right _ (by omega)
    have h3 : (n + 1) * 10 ^ (c :: cs).length = ((n + 1) * 10) * 10 ^ cs.length := by
      rw [List.length_cons, Nat.pow_succ]; ring
    omega

theorem digitsValue_lt (s : GoString) (hd : IsDigits 10 s) :
    digitsValue 10 s < 10 ^ s.length := by
  have := digitsFrom_lt s 0 hd
  simpa [digitsValue] using this

/-- On any string of digits the digit loop of `ParseUint` returns the value, or the range
error. -/
theorem parseUintLoop_digits_total (base maxVal : Nat) (hb1 : 2 ≤ base) (hb2 : base ≤ 10)
    (s : GoString) :
    ∀ n, IsDigits base s →
      parseUintLoop base ((2 ^ 64 - 1) / base + 1) maxVal s n = (digitsFrom base n s, none) ∨
      parseUintLoop base ((2 ^ 64 - 1) / base + 1) maxVal s n = (maxVal, some .ErrRange) := by
  induction s with
  | nil => intro n _; exact Or.inl rfl
  | cons c cs ih =>
    intro n hd
    have hc := hd c (by simp)
    have hcs : IsDigits base cs := fun x hx => hd x (List.mem_cons_of_mem _ hx)
    have hstep : digitsFrom base n (c :: cs) = digitsFrom base (n * base + (c - 48)) cs := rfl
    have hdv : digitValue c = some (c - 48) := digitValue_digit c hc.1 (by omega)
    unfold parseUintLoop
    simp only [hdv]
    rw [if_neg (by omega)]
    by_cases hcut : n ≥ (2 ^ 64 - 1) / base + 1
    · rw [if_pos hcut]; exact Or.inr rfl
    · rw [if_neg hcut]
      have hn : n ≤ (2 ^ 64 - 1) / base := by omega
      have hnb : n * base ≤ 2 ^ 64 - 1 := (Nat.le_div_iff_mul_le (by omega)).mp hn
      have hm1 : n * base % 2 ^ 64 = n * base := Nat.mod_eq_of_lt (by omega)
      simp only [hm1]
      by_cases hov : (n * base + (c - 48)) % 2 ^ 64 < n * base ∨
          (n * base + (c - 48)) % 2 ^ 64 > maxVal
      · rw [if_pos hov]; exact Or.inr rfl
      · rw [if_neg hov, hstep]
        have hm2 : (n * base + (c - 48)) % 2 ^ 64 = n * base + (c - 48) := by
          generalize n * base = p at hnb hov ⊢
          omega
        rw [hm2]
        exact ih _ hcs

/-- When `ParseInt` reads a non-empty string of digits without error, the result is the
number the digits denote in the base. -/
theorem ParseInt_digits_value (base bitSize : Nat) (hb1 : 2 ≤ base) (hb2 : base ≤ 10)
    (hbits1 : 1 ≤ bitSize) (hbits2 : bitSize ≤ 64) (s : GoString) (hd : IsDigits base s)
    (m : Int) (h : ParseInt s base bitSize = (m, none)) :
    m = digitsValue base s ∧ digitsValue base s < 2 ^ (bitSize - 1) := by
  cases s with
  | nil => exact absurd h (by simp [ParseInt])
  | cons c cs =>
    have hc := hd c (by simp)
    have h43 : c ≠ 43 := by omega
    have h45 : c ≠ 45 := by omega
    have hpow : 2 ^ (bitSize - 1) ≤ 2 ^ 63 := Nat.pow_le_pow_right (by decide) (by omega)
    have hpow2 : 2 ^ (bitSize - 1) < 2 ^ bitSize := Nat.pow_lt_pow_right (by decide) (by omega)
    have hU : ParseUint (c :: cs) base bitSize = (digitsValue base (c :: cs), none) ∨
        ParseUint (c :: cs) base bitSize = (2 ^ bitSize - 1, some .ErrRange) := by
      unfold ParseUint
      rw [if_neg (by simp)]
      exact parseUintLoop_digits_total base (2 ^ bitSize - 1) hb1 hb2 (c :: cs) 0 hd
    unfold ParseInt at h
    simp only [if_neg h43, if_neg h45, decide_eq_false h45] at h
    rcases hU with hU | hU
    · rw [hU] at h
      simp only [true_and] at h
      by_cases hge : digitsValue base (c :: cs) ≥ 2 ^ (bitSize - 1)
      · rw [if_pos hge] at h
        exact absurd (Prod.mk.inj h).2 (by simp)
      · rw [if_neg hge] at h
        simp only [false_and, if_false, Bool.false_eq_true] at h
        have hm := (Prod.mk.inj h).1
        refine ⟨?_, by omega⟩
        rw [← hm]
        unfold toInt64
        have hlt : digitsValue base (c :: cs) < 2 ^ 63 := by omega
        generalize digitsValue base (c :: cs) = v at hlt ⊢
        norm_num at hlt ⊢
        omega
    · rw [hU] at h
      simp only [true_and] at h
      rw [if_pos (by omega)] at h
      exact absurd (Prod.mk.inj h).2 (by simp)

end strconv

/-! ## `parseModTime` on fourteen digits, `filepath.Base` on a plain name -/

namespace mlstParser

theorem isDigits_take (s : GoString) (n : Nat) (h : strconv.IsDigits 10 s) :
    strconv.IsDigits 10 (s.take n) := fun c hc => h c (List.mem_of_mem_take hc)

theorem isDigits_drop (s : GoString) (n : Nat) (h : strconv.IsDigits 10 s) :
    strconv.IsDigits 10 (s.drop n) := fun c hc => h c (List.mem_of_mem_drop hc)

theorem ParseUint_field (s : GoString) (len bitSize : Nat) (hlen : s.length = len)
    (hpos : 0 < len) (hbits : bitSize ≤ 64) (hfit : 10 ^ len ≤ 2 ^ bitSize)
    (hd : strconv.IsDigits 10 s) :
    strconv.ParseUint s 10 bitSize = (strconv.digitsValue 10 s, none) := by
  have hne : s ≠ [] := by
    intro h0
    rw [h0] at hlen
    simp at hlen
    omega
  have hlt := strconv.digitsValue_lt s hd
  rw [hlen] at hlt
  exact strconv.ParseUint_digits 10 bitSize (by decide) (by decide) hbits s hne hd (by omega)

/-- Fourteen digits are accepted by `parseModTime`, which hands the six fields they denote
to `time.Date`. -/
theorem parseModTime_digits (value : GoString) (hlen : value.length = 14)
    (hd : strconv.IsDigits 10 value) :
    parseModTime value = some (time.Date
      (strconv.digitsValue 10 (value.take 4))
      (strconv.digitsValue 10 ((value.drop 4).take 2))
      (strconv.digitsValue 10 ((value.drop 6).take 2))
      (strconv.digitsValue 10 ((value.drop 8).take 2))
      (strconv.digitsValue 10 ((value.drop 10).take 2))
      (strconv.digitsValue 10 ((value.drop 12).take 2)) 0) := by
  have h1 := ParseUint_field (value.take 4) 4 16 (by simp [hlen]) (by decide) (by decide)
    (by decide) (isDigits_take _ _ hd)
  have h2 := ParseUint_field ((value.drop 4).take 2) 2 8 (by simp [hlen]) (by decide)
    (by decide) (by decide) (isDigits_take _ _ (isDigits_drop _ _ hd))
  have h3 := ParseUint_field ((value.drop 6).take 2) 2 8 (by simp [hlen]) (by decide)
    (by decide) (by decide) (isDigits_take _ _ (isDigits_drop _ _ hd))
  have h4 := ParseUint_field ((value.drop 8).take 2) 2 8 (by simp [hlen]) (by decide)
    (by decide) (by decide) (isDigits_take _ _ (isDigits_drop _ _ hd))
  have h5 := ParseUint_field ((value.drop 10).take 2) 2 8 (by simp [hlen]) (by decide)
    (by decide) (by decide) (isDigits_take _ _ (isDigits_drop _ _ hd))
  have h6 := ParseUint_field ((value.drop 12).take 2) 2 8 (by simp [hlen]) (by decide)
    (by decide) (by decide) (isDigits_take _ _ (isDigits_drop _ _ hd))
  unfold parseModTime
  rw [if_neg (by omega), h1, h2, h3, h4, h5, h6]

/-- The last element of a non-empty name without `/` is the name. -/
theorem Base_plain (name : GoString) (hne : name ≠ []) (hs : 47 ∉ name) :
    filepath.Base name = name := by
  have hall : ∀ x ∈ name.reverse, ¬ (x = 47) := by
    intro x hx h47
    rw [List.mem_reverse] at hx
    exact hs (h47 ▸ hx)
  have h1 : filepath.stripTrailingSeparators name = name := by
    unfold filepath.stripTrailingSeparators
    have : name.reverse.dropWhile (fun c => decide (c = 47)) = name.reverse := by
      cases hr : name.reverse with
      | nil => rfl
      | cons c cs =>
        have hc : ¬ (c = 47) := hall c (by rw [hr]; simp)
        simp [List.dropWhile, hc]
    rw [this, List.reverse_reverse]
  have h2 : filepath.lastElement name = name := by
    unfold filepath.lastElement
    have : name.reverse.takeWhile (fun c => !decide (c = 47)) = name.reverse := by
      rw [List.takeWhile_eq_self_iff]
      intro x hx
      simpa using hall x hx
    rw [this, List.reverse_reverse]
  unfold filepath.Base
  rw [if_neg hne]
  simp only [h1, h2]
  rw [if_neg hne]

theorem withTypeBits_eq (typ : GoString) (mode : Nat) :
    withTypeBits typ mode = mode ||| typeBits typ := by
  unfold withTypeBits typeBits
  by_cases h1 : typ = ascii "dir" ∨ typ = ascii "cdir" ∨ typ = ascii "pdir"
  · rw [if_pos h1, if_pos h1]
  · rw [if_neg h1, if_neg h1]
    by_cases h2 : strings.HasPrefix typ (ascii "os.unix=slink") = true ∨
        strings.HasPrefix typ (ascii "os.unix=symlink") = true
    · rw [if_pos h2]
      have : (strings.HasPrefix typ (ascii "os.unix=slink") ||
          strings.HasPrefix typ (ascii "os.unix=symlink")) = true := by
        simpa using h2
      rw [if_pos this]
    · rw [if_neg h2]
      have : ¬ (strings.HasPrefix typ (ascii "os.unix=slink") ||
          strings.HasPrefix typ (ascii "os.unix=symlink")) = true := by
        simpa using h2
      rw [if_neg this, Nat.or_zero]

/-- The filename the tokenizer returns is never empty. -/
theorem run_ok_filename (U : GoString → GoString) (e : GoString) :
    ∀ (rest : GoString) (facts : mlstFacts) (state : mlstToken) (left cur : GoString)
      (f : mlstFacts) (fn : GoString),
      run U e rest facts state left cur = .ok f fn → fn ≠ [] := by
  intro rest
  induction rest with
  | nil =>
    intro facts state left cur f fn h
    simp only [run, runEnd] at h
    split at h
    · exact absurd h (by simp)
    · rename_i hc
      have hfn : fn = cur.drop 1 := by
        injection h with _ h2
        exact h2.symm
      intro h0
      rw [h0] at hfn
      have hl : (List.drop 1 cur).length = 0 := by rw [← hfn]; rfl
      rw [List.length_drop] at hl
      push_neg at hc
      omega
  | cons r rest ih =>
    intro facts state left cur f fn h
    simp only [run] at h
    split at h
    · split at h
      · exact absurd h (by simp)
      · split at h
        · exact absurd h (by simp)
        · exact ih _ _ _ _ _ _ h
    · split at h
      · exact ih _ _ _ _ _ _ h
      · exact ih _ _ _ _ _ _ h

theorem tokenize_ok_filename (U : GoString → GoString) (entry : GoString) (facts : mlstFacts)
    (fn : GoString) (h : tokenize U entry = .ok facts fn) : fn ≠ [] := by
  rw [tokenize_eq_run] at h
  exact run_ok_filename U entry _ _ _ _ _ _ _ h

end mlstParser

/-! ## Tokenizing a fact list followed by a filename -/

namespace mlstParser

theorem head_encodeFact (kv : GoString × GoString) (t : GoString) (hw : WellFormedFact kv) :
    ∃ c rest, encodeFact kv ++ t = c :: rest ∧ c ≠ 32 := by
  obtain ⟨k, x⟩ := kv
  cases k with
  | nil => exact ⟨61, x ++ 59 :: t, by simp [encodeFact], by decide⟩
  | cons c k =>
    refine ⟨c, k ++ 61 :: (x ++ 59 :: t), by simp [encodeFact], ?_⟩
    intro hc
    exact hw.2.2.1 (by simp [hc])

theorem readFacts_append (U : GoString → GoString) (facts : mlstFacts)
    (kvs : List (GoString × GoString)) (kv : GoString × GoString) :
    readFacts U facts (kvs ++ [kv]) =
      setFact (readFacts U facts kvs) (strings.ToLower U kv.1) (strings.ToLower U kv.2) := by
  simp [readFacts, List.foldl_append]

/-- A non-empty well-formed fact list, a space and a non-empty name: the tokenizer returns
the facts of the list and the name, whatever bytes the name holds. -/
theorem tokenize_encodeFacts (U : GoString → GoString) (kvs : List (GoString × GoString))
    (name : GoString) (hF : ∀ kv ∈ kvs, WellFormedFact kv) (hkvs : kvs ≠ [])
    (hname : name ≠ []) :
    tokenize U (encodeFacts kvs ++ 32 :: name) = .ok (readFacts U noFacts kvs) name := by
  rcases List.eq_nil_or_concat kvs with h0 | ⟨init, kv, hk⟩
  · exact absurd h0 hkvs
  · rw [List.concat_eq_append] at hk
    subst hk
    obtain ⟨k, x⟩ := kv
    have hw : WellFormedFact (k, x) := hF (k, x) (by simp)
    have hinit : ∀ kv ∈ init, WellFormedFact kv := fun kv h => hF kv (by simp [h])
    rw [tokenize_eq_run]
    generalize hE : encodeFacts (init ++ [(k, x)]) ++ 32 :: name = e
    have hE2 : encodeFacts init ++ (encodeFact (k, x) ++ 32 :: name) = e := by
      rw [← hE, encodeFacts_append]
      simp [encodeFacts]
    obtain ⟨left2, h2⟩ := run_facts U e (encodeFact (k, x) ++ 32 :: name)
      (head_encodeFact (k, x) _ hw) init noFacts [] hinit
    rw [hE2] at h2
    have h3 : run U e e ⟨[], [], [], [], [], []⟩ .mlstFactName [] [] =
        run U e e noFacts .mlstFactName [] [] := rfl
    rw [h3, h2, run_fact U e k x 32 name _ left2 hw.1 hw.2.2.2, if_pos rfl, run_filename,
      readFacts_append]
    cases name with
    | nil => exact absurd rfl hname
    | cons c cs => simp [runEnd]

theorem sizeOf_size (entry : GoString) (facts : mlstFacts) (mode : Nat)
    (h1 : facts.size ≠ []) (h2 : (strconv.ParseInt facts.size 10 64).2 = none) :
    sizeOf entry facts mode = .ok (strconv.ParseInt facts.size 10 64).1 := by
  unfold sizeOf
  simp only [if_pos h1]
  generalize strconv.ParseInt facts.size 10 64 = p at h2 ⊢
  obtain ⟨v, e⟩ := p
  simp only at h2
  subst h2
  rfl

theorem sizeOf_valid (entry : GoString) (facts : mlstFacts) (mode : Nat)
    (h1 : ValidOrAbsent facts.size 10 64) (h2 : ValidOrAbsent facts.sizd 10 64) :
    (∃ size, sizeOf entry facts mode = .ok size) ∨
    (facts.typ = ascii "file" ∧
      sizeOf entry facts mode = .error (.failure (incompleteError entry))) := by
  unfold sizeOf
  by_cases hs : facts.size ≠ []
  · have hv := h1 hs
    simp only [if_pos hs]
    generalize strconv.ParseInt facts.size 10 64 = p at hv ⊢
    obtain ⟨v, e⟩ := p
    simp only at hv
    subst hv
    exact Or.inl ⟨v, rfl⟩
  · simp only [if_neg hs]
    by_cases hd : os.IsDir mode = true ∧ facts.sizd ≠ []
    · have hv := h2 hd.2
      simp only [if_pos hd]
      generalize strconv.ParseInt facts.sizd 10 64 = p at hv ⊢
      obtain ⟨v, e⟩ := p
      simp only at hv
      subst hv
      exact Or.inl ⟨v, rfl⟩
    · simp only [if_neg hd]
      by_cases hf : facts.typ = ascii "file"
      · simp only [if_pos hf]
        exact Or.inr ⟨hf, trivial⟩
      · simp only [if_neg hf]
        exact Or.inl ⟨0, rfl⟩

theorem modeOf_valid (entry : GoString) (facts : mlstFacts)
    (h : ValidOrAbsent facts.unixMode 8 32) : ∃ mode0, modeOf entry facts = .ok mode0 := by
  unfold modeOf
  by_cases hu : facts.unixMode ≠ []
  · have hv := h hu
    simp only [if_pos hu]
    generalize strconv.ParseInt facts.unixMode 8 32 = p at hv ⊢
    obtain ⟨v, e⟩ := p
    simp only at hv
    subst hv
    exact ⟨_, rfl⟩
  · simp only [if_neg hu]
    by_cases hp : facts.perm ≠ []
    · simp only [if_pos hp]; exact ⟨_, rfl⟩
    · simp only [if_neg hp]; exact ⟨_, rfl⟩

theorem isDir_withTypeBits_dir (typ : GoString) (mode : Nat)
    (h : typ = ascii "dir" ∨ typ = ascii "cdir" ∨ typ = ascii "pdir") :
    os.IsDir (withTypeBits typ mode) = true := by
  unfold withTypeBits
  rw [if_pos h, isDir_eq_testBit, Nat.testBit_or]
  unfold os.ModeDir
  rw [Nat.testBit_two_pow_self, Bool.or_true]

end mlstParser

/-! ## The mode without type bit, and the size -/

namespace mlstParser

theorem permMode_lt (perm : GoString) : ∀ m, m < 2 ^ 9 → permMode perm m < 2 ^ 9 := by
  induction perm with
  | nil => intro m h; exact h
  | cons c cs ih =>
    intro m h
    have h200 : m ||| 0o200 < 2 ^ 9 := Nat.or_lt_two_pow h (by decide)
    have h500 : m ||| 0o500 < 2 ^ 9 := Nat.or_lt_two_pow h (by decide)
    have h400 : m ||| 0o400 < 2 ^ 9 := Nat.or_lt_two_pow h (by decide)
    unfold permMode
    rw [List.foldl_cons]
    by_cases h1 : c = 97 ∨ c = 100 ∨ c = 99 ∨ c = 102 ∨ c = 109 ∨ c = 112 ∨ c = 119
    · rw [if_pos h1]; exact ih _ h200
    · rw [if_neg h1]
      by_cases h2 : c = 108
      · rw [if_pos h2]; exact ih _ h500
      · rw [if_neg h2]
        by_cases h3 : c = 114
        · rw [if_pos h3]; exact ih _ h400
        · rw [if_neg h3]; exact ih _ h

end mlstParser

/-! ## `time.Date` on a valid date is the instant of the calendar -/

namespace time

theorem norm_id (hi lo base : Int) (h0 : 0 ≤ lo) (h1 : lo < base) :
    norm hi lo base = (hi, lo) := by
  unfold norm
  simp only [if_neg (not_lt.mpr h0)]
  rw [if_neg (not_le.mpr h1)]

theorem isLeap_natCast (y : Nat) : isLeap (y : Int) = calendar.isLeapYear y := by
  unfold isLeap calendar.isLeapYear
  have h4 : ((y : Int) % 4 = 0) ↔ (y % 4 = 0) := by omega
  have h100 : ((y : Int) % 100 ≠ 0) ↔ (y % 100 ≠ 0) := by omega
  have h400 : ((y : Int) % 400 = 0) ↔ (y % 400 = 0) := by omega
  simp only [h4, h100, h400]

/-- The days of the years before `y`, in closed form. -/
theorem daysBeforeYear_closed (y : Nat) :
    calendar.daysBeforeYear y + (y + 99) / 100 = 365 * y + (y + 3) / 4 + (y + 399) / 400 := by
  induction y with
  | zero => rfl
  | succ y ih =>
    have hstep : calendar.daysBeforeYear (y + 1) =
        calendar.daysBeforeYear y + calendar.daysInYear y := rfl
    have hd : (y % 4 = 0 ∧ (y % 100 ≠ 0 ∨ y % 400 = 0) ∧ calendar.daysInYear y = 366) ∨
        (¬ (y % 4 = 0 ∧ (y % 100 ≠ 0 ∨ y % 400 = 0)) ∧ calendar.daysInYear y = 365) := by
      unfold calendar.daysInYear calendar.isLeapYear
      by_cases h4 : y % 4 = 0 <;> by_cases h100 : y % 100 = 0 <;>
        by_cases h400 : y % 400 = 0 <;> simp [h4, h100, h400]
    rw [hstep]
    clear hstep
    generalize calendar.daysBeforeYear y = a at ih ⊢
    generalize calendar.daysInYear y = b at hd ⊢
    omega

theorem daysBeforeYear_1970 : calendar.daysBeforeYear 1970 = 719528 := by
  have := daysBeforeYear_closed 1970
  omega

/-- The cycle count of `daysSinceEpoch` is the day count of the calendar, shifted by the
days from the absolute epoch to year 0. -/
theorem daysSinceEpoch_natCast (y : Nat) (hy : y ≤ 9999) :
    daysSinceEpoch (y : Int) = calendar.daysBeforeYear y + 106751990353566 := by
  have hc := daysBeforeYear_closed y
  have h0 : toUint64 ((y : Int) - absoluteZeroYear) = y + 292277022399 := by
    unfold toUint64 absoluteZeroYear
    norm_num
    omega
  unfold daysSinceEpoch
  simp only [h0]
  omega

theorem daysBefore_month (y m : Nat) (h1 : 1 ≤ m) (h2 : m ≤ 12) :
    daysBefore.getD (m - 1) 0 + (if calendar.isLeapYear y = true ∧ 3 ≤ m then 1 else 0) =
      calendar.daysBeforeMonth y m := by
  have hl : calendar.isLeapYear y = true ∨ calendar.isLeapYear y = false := by
    cases calendar.isLeapYear y <;> simp
  interval_cases m <;> rcases hl with hl | hl <;>
    simp [daysBefore, calendar.daysBeforeMonth, calendar.daysInMonth, hl]

/-- The two `int64` conversions that shift absolute seconds to Unix seconds undo each
other's wrap-around in the range of the years 0 to 9999. -/
theorem unix_shift (X : Int) (h1 : 9223371966548102400 ≤ X) (h2 : X < 9223372282158489600) :
    ((X + 2 ^ 63) % 2 ^ 64 - 2 ^ 63 + (-9223371966579724800 + -62135596800) + 2 ^ 63) % 2 ^ 64
      - 2 ^ 63 = X - 9223371966548102400 - 62167219200 := by
  norm_num
  omega

theorem daysInMonth_le (y m : Nat) : calendar.daysInMonth y m ≤ 31 := by
  unfold calendar.daysInMonth
  split
  · split <;> decide
  · split <;> decide

/-- On a valid date and time of day with a year up to 9999, `time.Date` returns the seconds
the calendar counts from 1970-01-01T00:00:00Z, and zero nanoseconds. -/
theorem Date_valid (y m d hh mm ss : Nat) (hy : y ≤ 9999)
    (hv : calendar.ValidDateTime y m d hh mm ss) :
    Date y m d hh mm ss 0 = ⟨calendar.unixSeconds y m d hh mm ss, 0⟩ := by
  obtain ⟨hm1, hm2, hd1, hd2, hh1, hmm1, hss1⟩ := hv
  have hd3 := daysInMonth_le y m
  have n1 : norm (y : Int) ((m : Int) - 1) 12 = ((y : Int), (m : Int) - 1) :=
    norm_id _ _ _ (by omega) (by omega)
  have n2 : norm (ss : Int) 0 1000000000 = ((ss : Int), 0) :=
    norm_id _ _ _ (by omega) (by omega)
  have n3 : norm (mm : Int) (ss : Int) 60 = ((mm : Int), (ss : Int)) :=
    norm_id _ _ _ (by omega) (by omega)
  have n4 : norm (hh : Int) (mm : Int) 60 = ((hh : Int), (mm : Int)) :=
    norm_id _ _ _ (by omega) (by omega)
  have n5 : norm (d : Int) (hh : Int) 24 = ((d : Int), (hh : Int)) :=
    norm_id _ _ _ (by omega) (by omega)
  have e1 : ((m : Int) - 1 + 1 - 1).toNat = m - 1 := by omega
  have e2 : toUint64 ((d : Int) - 1) = d - 1 := by
    unfold toUint64
    omega
  have e3 : toUint64 ((hh : Int) * 3600 + (mm : Int) * 60 + (ss : Int)) =
      hh * 3600 + mm * 60 + ss := by
    unfold toUint64
    omega
  have e4 : (isLeap (y : Int) = true ∧ (m : Int) - 1 + 1 ≥ 3) ↔
      (calendar.isLeapYear y = true ∧ 3 ≤ m) := by
    rw [isLeap_natCast]
    constructor
    · intro h; exact ⟨h.1, by omega⟩
    · intro h; exact ⟨h.1, by omega⟩
  have hmonth := daysBefore_month y m hm1 hm2
  have hg : daysBefore.getD (m - 1) 0 ≤ 365 := by
    interval_cases m <;> simp [daysBefore]
  have hc := daysBeforeYear_closed y
  have h1970 := daysBeforeYear_1970
  have hepoch := daysSinceEpoch_natCast y hy
  unfold Date
  simp only [n1, n2, n3, n4, n5, e1, e2, e3, e4, hepoch]
  unfold calendar.unixSeconds calendar.daysSince1970 toInt64 absoluteToUnix
  rw [h1970]
  generalize calendar.daysBeforeYear y = a at hc ⊢
  generalize calendar.daysBeforeMonth y m = b at hmonth ⊢
  generalize daysBefore.getD (m - 1) 0 = g at hmonth hg ⊢
  rw [Time.mk.injEq]
  refine ⟨?_, rfl⟩
  have ha : a ≤ 3652500 := by omega
  have hb : g + (if calendar.isLeapYear y = true ∧ 3 ≤ m then 1 else 0) = b := hmonth
  have hday : (if calendar.isLeapYear y = true ∧ 3 ≤ m
      then ((a + 106751990353566 + g) % 2 ^ 64 + 1) % 2 ^ 64
      else (a + 106751990353566 + g) % 2 ^ 64) = a + 106751990353566 + b := by
    have h1 : (a + 106751990353566 + g) % 2 ^ 64 = a + 106751990353566 + g :=
      Nat.mod_eq_of_lt (by omega)
    have h2 : (a + 106751990353566 + g + 1) % 2 ^ 64 = a + 106751990353566 + g + 1 :=
      Nat.mod_eq_of_lt (by omega)
    rw [h1, h2]
    split_ifs at hb ⊢ <;> omega
  rw [hday]
  have hb2 : b ≤ 366 := by split_ifs at hb <;> omega
  clear hday hb hmonth hg hc n1 n2 n3 n4 n5 e1 e2 e3 e4 hepoch h1970
  have h3 : (a + 106751990353566 + b + (d - 1)) % 2 ^ 64 = a + 106751990353566 + b + (d - 1) :=
    Nat.mod_eq_of_lt (by omega)
  have h4 : (a + 106751990353566 + b + (d - 1)) * 86400 % 2 ^ 64 =
      (a + 106751990353566 + b + (d - 1)) * 86400 := Nat.mod_eq_of_lt (by omega)
  have h5 : ((a + 106751990353566 + b + (d - 1)) * 86400 + (hh * 3600 + mm * 60 + ss)) % 2 ^ 64 =
      (a + 106751990353566 + b + (d - 1)) * 86400 + (hh * 3600 + mm * 60 + ss) :=
    Nat.mod_eq_of_lt (by omega)
  rw [h3, h4, h5]
  have hX1 : 9223371966548102400 ≤
      (a + 106751990353566 + b + (d - 1)) * 86400 + (hh * 3600 + mm * 60 + ss) := by omega
  have hX2 : (a + 106751990353566 + b + (d - 1)) * 86400 + (hh * 3600 + mm * 60 + ss) <
      9223372282158489600 := by omega
  rw [unix_shift _ (by exact_mod_cast hX1) (by exact_mod_cast hX2)]
  omega

end time

/-! ## The perm loop is the bitwise OR of the characters' bits -/

namespace mlstParser

theorem permBits_cons (c : Nat) (cs : GoString) :
    permBits (c :: cs) = permBit c ||| permBits cs := rfl

/-- The loop over `facts.perm` adds the OR of the characters' bits to the mode. -/
theorem permMode_eq (perm : GoString) : ∀ m, permMode perm m = m ||| permBits perm := by
  induction perm with
  | nil => intro m; simp [permMode, permBits]
  | cons c cs ih =>
    intro m
    have hstep : permMode (c :: cs) m = permMode cs (m ||| permBit c) := by
      unfold permMode permBit
      rw [List.foldl_cons]
      by_cases h1 : c = 97 ∨ c = 100 ∨ c = 99 ∨ c = 102 ∨ c = 109 ∨ c = 112 ∨ c = 119
      · rw [if_pos h1, if_pos h1]
      · rw [if_neg h1, if_neg h1]
        by_cases h2 : c = 108
        · rw [if_pos h2, if_pos h2]
        · rw [if_neg h2, if_neg h2]
          by_cases h3 : c = 114
          · rw [if_pos h3, if_pos h3]
          · rw [if_neg h3, if_neg h3, Nat.or_zero]
    rw [hstep, ih, permBits_cons, Nat.or_assoc]

theorem permBit_mem (c : Nat) : permBit c ∈ [0, 0o200, 0o400, 0o500] := by
  unfold permBit
  split
  · decide
  · split
    · decide
    · split <;> decide

/-- The OR of the bits is one of the eight combinations of `0100`, `0200` and `0400`. -/
theorem permBits_mem (perm : GoString) :
    permBits perm ∈ [0, 0o100, 0o200, 0o300, 0o400, 0o500, 0o600, 0o700] := by
  induction perm with
  | nil => decide
  | cons c cs ih =>
    rw [permBits_cons]
    have hall : ∀ a ∈ [0, 0o200, 0o400, 0o500],
        ∀ b ∈ [0, 0o100, 0o200, 0o300, 0o400, 0o500, 0o600, 0o700],
        a ||| b ∈ [0, 0o100, 0o200, 0o300, 0o400, 0o500, 0o600, 0o700] := by decide
    exact hall _ (permBit_mem c) _ ih

theorem permBits_subset (perm : GoString) : permBits perm &&& 0o700 = permBits perm := by
  have hall : ∀ b ∈ [0, 0o100, 0o200, 0o300, 0o400, 0o500, 0o600, 0o700],
      b &&& 0o700 = b := by decide
  exact hall _ (permBits_mem perm)

theorem permBits_lt (perm : GoString) : permBits perm < 2 ^ 9 := by
  have hall : ∀ b ∈ [0, 0o100, 0o200, 0o300, 0o400, 0o500, 0o600, 0o700], b < 2 ^ 9 := by
    decide
  exact hall _ (permBits_mem perm)

theorem testBit_permBits (perm : GoString) (i : Nat) :
    (permBits perm).testBit i = perm.any (fun c => (permBit c).testBit i) := by
  induction perm with
  | nil => simp [permBits]
  | cons c cs ih => rw [permBits_cons, Nat.testBit_or, ih, List.any_cons]

/-- The OR of the bits depends only on which characters occur. -/
theorem permBits_congr (p q : GoString) (h : ∀ c, c ∈ p ↔ c ∈ q) :
    permBits p = permBits q := by
  apply Nat.eq_of_testBit_eq
  intro i
  rw [testBit_permBits, testBit_permBits, Bool.eq_iff_iff, List.any_eq_true, List.any_eq_true]
  constructor
  · rintro ⟨c, hc, hb⟩; exact ⟨c, (h c).mp hc, hb⟩
  · rintro ⟨c, hc, hb⟩; exact ⟨c, (h c).mpr hc, hb⟩

theorem permBits_unrecognised (perm : GoString) (h : ∀ c ∈ perm, permBit c = 0) :
    permBits perm = 0 := by
  induction perm with
  | nil => rfl
  | cons c cs ih =>
    rw [permBits_cons, h c (by simp), ih (fun x hx => h x (List.mem_cons_of_mem _ hx))]
    rfl

/-- `strings.ToLower` on an all-ASCII string is the byte-wise lower-casing. -/
theorem ToLower_ascii (U : GoString → GoString) (s : GoString) (h : IsASCII s) :
    strings.ToLower U s = s.map strings.lowerByte := by
  unfold strings.ToLower
  have : s.all (fun c => decide (c < 128)) = true := by
    rw [List.all_eq_true]
    intro c hc
    simpa using h c hc
  rw [if_pos this]

/-- The permission bits of a mode below `01000` with a type bit added are that mode. -/
theorem Perm_withTypeBits (typ : GoString) (mode0 : Nat) (h : mode0 < 2 ^ 9) :
    os.Perm (withTypeBits typ mode0) = mode0 := by
  unfold os.Perm os.ModePerm
  have h777 : (0o777 : Nat) = 2 ^ 9 - 1 := by decide
  rw [h777, Nat.and_pow_two_sub_one_eq_mod, withTypeBits_eq]
  have hm : mode0 % 2 ^ 9 = mode0 := Nat.mod_eq_of_lt h
  have ht : typeBits typ % 2 ^ 9 = 0 := by
    unfold typeBits os.ModeDir os.ModeSymlink
    split
    · decide
    · split <;> decide
  apply Nat.eq_of_testBit_eq
  intro i
  rw [Nat.testBit_mod_two_pow, Nat.testBit_or]
  have ht2 : (typeBits typ % 2 ^ 9).testBit i = false := by rw [ht]; exact Nat.zero_testBit i
  rw [Nat.testBit_mod_two_pow] at ht2
  by_cases hi : i < 9
  · simp only [hi, decide_True, Bool.true_and] at ht2 ⊢
    rw [ht2, Bool.or_false]
  · have hge : 2 ^ 9 ≤ 2 ^ i := Nat.pow_le_pow_right (by decide) (by omega)
    have : mode0.testBit i = false := Nat.testBit_lt_two_pow (Nat.lt_of_lt_of_le h hge)
    simp [hi, this]

end mlstParser

/-! ## The type bits of the mode -/

namespace mlstParser

/-- A type fact is not both a directory type and a symlink type. -/
theorem not_dir_of_link (typ : GoString)
    (hlink : strings.HasPrefix typ (ascii "os.unix=slink") = true ∨
      strings.HasPrefix typ (ascii "os.unix=symlink") = true) :
    ¬ (typ = ascii "dir" ∨ typ = ascii "cdir" ∨ typ = ascii "pdir") := by
  intro hdir
  rcases hdir with h | h | h <;> rw [h] at hlink <;> revert hlink <;> decide

theorem testBit31_typeBits (typ : GoString) :
    (typeBits typ).testBit 31 = true ↔
      (typ = ascii "dir" ∨ typ = ascii "cdir" ∨ typ = ascii "pdir") := by
  unfold typeBits os.ModeDir os.ModeSymlink
  by_cases h1 : typ = ascii "dir" ∨ typ = ascii "cdir" ∨ typ = ascii "pdir"
  · rw [if_pos h1, Nat.testBit_two_pow_self]
    exact ⟨fun _ => h1, fun _ => rfl⟩
  · rw [if_neg h1]
    constructor
    · intro h
      split at h
      · exact absurd h (by decide)
      · exact absurd h (by decide)
    · intro h; exact absurd h h1

theorem testBit27_typeBits (typ : GoString) :
    (typeBits typ).testBit 27 = true ↔
      (strings.HasPrefix typ (ascii "os.unix=slink") = true ∨
        strings.HasPrefix typ (ascii "os.unix=symlink") = true) := by
  unfold typeBits os.ModeDir os.ModeSymlink
  by_cases h1 : typ = ascii "dir" ∨ typ = ascii "cdir" ∨ typ = ascii "pdir"
  · rw [if_pos h1]
    constructor
    · intro h; exact absurd h (by decide)
    · intro h; exact absurd h1 (not_dir_of_link typ h)
  · rw [if_neg h1]
    by_cases h2 : strings.HasPrefix typ (ascii "os.unix=slink") = true ∨
        strings.HasPrefix typ (ascii "os.unix=symlink") = true
    · rw [if_pos h2, Nat.testBit_two_pow_self]
      exact ⟨fun _ => h2, fun _ => rfl⟩
    · rw [if_neg h2]
      constructor
      · intro h; exact absurd h (by decide)
      · intro h; exact absurd h h2

/-- A `UNIX.mode` fact that is absent or whose mode has neither bit 31 nor bit 27 set
leaves both bits of the mode before the type bit clear. -/
theorem modeOf_no_type_bits (entry : GoString) (facts : mlstFacts) (mode0 : Nat)
    (hm : modeOf entry facts = .ok mode0)
    (h : facts.unixMode = [] ∨
      ∃ m, strconv.ParseInt facts.unixMode 8 32 = (m, none) ∧
        (toUint32 m).testBit 31 = false ∧ (toUint32 m).testBit 27 = false) :
    mode0.testBit 31 = false ∧ mode0.testBit 27 = false := by
  unfold modeOf at hm
  by_cases hu : facts.unixMode ≠ []
  · rcases h with h | ⟨m, hp, h31, h27⟩
    · exact absurd h hu
    · rw [if_pos hu, hp] at hm
      rw [← Except.ok.inj hm]
      exact ⟨h31, h27⟩
  · rw [if_neg hu] at hm
    have hlt : mode0 < 2 ^ 9 := by
      by_cases hp : facts.perm ≠ []
      · rw [if_pos hp] at hm
        rw [← Except.ok.inj hm]
        exact permMode_lt facts.perm 0 (by decide)
      · rw [if_neg hp] at hm
        rw [← Except.ok.inj hm]
        decide
    exact ⟨Nat.testBit_lt_two_pow (Nat.lt_of_lt_of_le hlt (by decide)),
      Nat.testBit_lt_two_pow (Nat.lt_of_lt_of_le hlt (by decide))⟩

end mlstParser

/-! ## The same facts give the same outcome, whatever the entry -/

namespace mlstParser

theorem modeOf_entry (e1 e2 : GoString) (facts : mlstFacts) :
    (modeOf e1 facts = .error (.failure (error e1)) ∧
      modeOf e2 facts = .error (.failure (error e2))) ∨
    ∃ m, modeOf e1 facts = .ok m ∧ modeOf e2 facts = .ok m := by
  unfold modeOf
  by_cases hu : facts.unixMode ≠ []
  · simp only [if_pos hu]
    generalize strconv.ParseInt facts.unixMode 8 32 = p
    obtain ⟨v, err⟩ := p
    cases err with
    | none => exact Or.inr ⟨_, rfl, rfl⟩
    | some x => exact Or.inl ⟨rfl, rfl⟩
  · simp only [if_neg hu]
    by_cases hp : facts.perm ≠ []
    · simp only [if_pos hp]; exact Or.inr ⟨_, rfl, rfl⟩
    · simp only [if_neg hp]; exact Or.inr ⟨_, rfl, rfl⟩

theorem sizeOf_entry (e1 e2 : GoString) (facts : mlstFacts) (mode : Nat) :
    (sizeOf e1 facts mode = .error (.failure (error e1)) ∧
      sizeOf e2 facts mode = .error (.failure (error e2))) ∨
    (sizeOf e1 facts mode = .error (.failure (incompleteError e1)) ∧
      sizeOf e2 facts mode = .error (.failure (incompleteError e2))) ∨
    ∃ size, sizeOf e1 facts mode = .ok size ∧ sizeOf e2 facts mode = .ok size := by
  unfold sizeOf
  by_cases hs : facts.size ≠ []
  · simp only [if_pos hs]
    generalize strconv.ParseInt facts.size 10 64 = p
    obtain ⟨v, err⟩ := p
    cases err with
    | none => exact Or.inr (Or.inr ⟨_, rfl, rfl⟩)
    | some x => exact Or.inl ⟨rfl, rfl⟩
  · simp only [if_neg hs]
    by_cases hd : os.IsDir mode = true ∧ facts.sizd ≠ []
    · simp only [if_pos hd]
      generalize strconv.ParseInt facts.sizd 10 64 = p
      obtain ⟨v, err⟩ := p
      cases err with
      | none => exact Or.inr (Or.inr ⟨_, rfl, rfl⟩)
      | some x => exact Or.inl ⟨rfl, rfl⟩
    · simp only [if_neg hd]
      by_cases hf : facts.typ = ascii "file"
      · simp only [if_pos hf]
        simp
      · simp only [if_neg hf]; exact Or.inr (Or.inr ⟨_, rfl, rfl⟩)

/-- Lines 88-166 on the same facts and filename give the same outcome for two entries. -/
theorem build_sameOutcome (e1 e2 : GoString) (skip : Bool) (facts : mlstFacts)
    (fn : GoString) :
    SameOutcome e1 e2 (build e1 skip facts fn) (build e2 skip facts fn) := by
  by_cases htyp : facts.typ = []
  · have b1 : build e1 skip facts fn = .failure (incompleteError e1) := by
      unfold build; simp only [if_pos htyp]
    have b2 : build e2 skip facts fn = .failure (incompleteError e2) := by
      unfold build; simp only [if_pos htyp]
    exact Or.inr (Or.inl ⟨b1, b2⟩)
  · by_cases hskip : skip = true ∧ (facts.typ = ascii "cdir" ∨ facts.typ = ascii "pdir" ∨
        facts.typ = ascii "." ∨ facts.typ = ascii "..")
    · have b1 : build e1 skip facts fn = .nothing := by
        unfold build; simp only [if_neg htyp, if_pos hskip]
      have b2 : build e2 skip facts fn = .nothing := by
        unfold build; simp only [if_neg htyp, if_pos hskip]
      exact Or.inr (Or.inr (Or.inl ⟨b1, b2⟩))
    · rcases modeOf_entry e1 e2 facts with ⟨h1, h2⟩ | ⟨m, h1, h2⟩
      · have b1 : build e1 skip facts fn = .failure (error e1) := by
          unfold build; simp only [if_neg htyp, if_neg hskip, h1]
        have b2 : build e2 skip facts fn = .failure (error e2) := by
          unfold build; simp only [if_neg htyp, if_neg hskip, h2]
        exact Or.inl ⟨b1, b2⟩
      · rcases sizeOf_entry e1 e2 facts (withTypeBits facts.typ m) with
          ⟨s1, s2⟩ | ⟨s1, s2⟩ | ⟨size, s1, s2⟩
        · have b1 : build e1 skip facts fn = .failure (error e1) := by
            unfold build; simp only [if_neg htyp, if_neg hskip, h1, s1]
          have b2 : build e2 skip facts fn = .failure (error e2) := by
            unfold build; simp only [if_neg htyp, if_neg hskip, h2, s2]
          exact Or.inl ⟨b1, b2⟩
        · have b1 : build e1 skip facts fn = .failure (incompleteError e1) := by
            unfold build; simp only [if_neg htyp, if_neg hskip, h1, s1]
          have b2 : build e2 skip facts fn = .failure (incompleteError e2) := by
            unfold build; simp only [if_neg htyp, if_neg hskip, h2, s2]
          exact Or.inr (Or.inl ⟨b1, b2⟩)
        · by_cases hmod : facts.modify = []
          · have b1 : build e1 skip facts fn = .failure (incompleteError e1) := by
              unfold build; simp only [if_neg htyp, if_neg hskip, h1, s1, if_pos hmod]
            have b2 : build e2 skip facts fn = .failure (incompleteError e2) := by
              unfold build; simp only [if_neg htyp, if_neg hskip, h2, s2, if_pos hmod]
            exact Or.inr (Or.inl ⟨b1, b2⟩)
          · cases hpt : parseModTime facts.modify with
            | none =>
              have b1 : build e1 skip facts fn = .failure (incompleteError e1) := by
                unfold build; simp only [if_neg htyp, if_neg hskip, h1, s1, if_neg hmod, hpt]
              have b2 : build e2 skip facts fn = .failure (incompleteError e2) := by
                unfold build; simp only [if_neg htyp, if_neg hskip, h2, s2, if_neg hmod, hpt]
              exact Or.inr (Or.inl ⟨b1, b2⟩)
            | some t =>
              have b1 := build_file_of e1 skip facts fn m size t htyp hskip h1 s1 hpt
              have b2 := build_file_of e2 skip facts fn m size t htyp hskip h2 s2 hpt
              exact Or.inr (Or.inr (Or.inr ⟨_, _, b1, b2, rfl, rfl, rfl, rfl⟩))

theorem setFact_unknown (facts : mlstFacts) (key val : GoString) (h : UnknownKey key) :
    setFact facts key val = facts := by
  obtain ⟨h1, h2, h3, h4, h5, h6⟩ := h
  unfold setFact
  rw [if_neg h1, if_neg h2, if_neg h3, if_neg h4, if_neg h5, if_neg h6]

theorem readFacts_concat (U : GoString → GoString) (facts : mlstFacts)
    (kvs1 kvs2 : List (GoString × GoString)) :
    readFacts U facts (kvs1 ++ kvs2) = readFacts U (readFacts U facts kvs1) kvs2 := by
  simp [readFacts, List.foldl_append]

/-- A fact with an unknown key, put anywhere in a fact list, changes no stored fact. -/
theorem readFacts_insert_unknown (U : GoString → GoString) (facts : mlstFacts)
    (kvs1 kvs2 : List (GoString × GoString)) (k v : GoString)
    (h : UnknownKey (strings.ToLower U k)) :
    readFacts U facts (kvs1 ++ (k, v) :: kvs2) = readFacts U facts (kvs1 ++ kvs2) := by
  rw [readFacts_concat, readFacts_concat]
  have : readFacts U (readFacts U facts kvs1) ((k, v) :: kvs2) =
      readFacts U (setFact (readFacts U facts kvs1) (strings.ToLower U k)
        (strings.ToLower U v)) kvs2 := rfl
  rw [this, setFact_unknown _ _ _ h]

/-- A non-empty well-formed fact list and a space: the tokenizer is in the filename state
with the facts of the list stored, and what follows the space is the filename. -/
theorem tokenize_encodeFacts_any (U : GoString → GoString)
    (kvs : List (GoString × GoString)) (name : GoString)
    (hF : ∀ kv ∈ kvs, WellFormedFact kv) (hkvs : kvs ≠ []) :
    tokenize U (encodeFacts kvs ++ 32 :: name) =
      runEnd (encodeFacts kvs ++ 32 :: name) (readFacts U noFacts kvs) .mlstFilename
        (32 :: name) := by
  rcases List.eq_nil_or_concat kvs with h0 | ⟨init, kv, hk⟩
  · exact absurd h0 hkvs
  · rw [List.concat_eq_append] at hk
    subst hk
    obtain ⟨k, x⟩ := kv
    have hw : WellFormedFact (k, x) := hF (k, x) (by simp)
    have hinit : ∀ kv ∈ init, WellFormedFact kv := fun kv h => hF kv (by simp [h])
    rw [tokenize_eq_run]
    generalize hE : encodeFacts (init ++ [(k, x)]) ++ 32 :: name = e
    have hE2 : encodeFacts init ++ (encodeFact (k, x) ++ 32 :: name) = e := by
      rw [← hE, encodeFacts_append]
      simp [encodeFacts]
    obtain ⟨left2, h2⟩ := run_facts U e (encodeFact (k, x) ++ 32 :: name)
      (head_encodeFact (k, x) _ hw) init noFacts [] hinit
    rw [hE2] at h2
    have h3 : run U e e ⟨[], [], [], [], [], []⟩ .mlstFactName [] [] =
        run U e e noFacts .mlstFactName [] [] := rfl
    rw [h3, h2, run_fact U e k x 32 name _ left2 hw.1 hw.2.2.2, if_pos rfl, run_filename,
      readFacts_append]
    rfl

end mlstParser

/-! ## Two entries that differ in letter case only -/

namespace mlstParser

theorem lowerByte_sameSeparator (a b : Nat) (h : strings.lowerByte a = strings.lowerByte b) :
    SameSeparator a b := by
  unfold strings.lowerByte at h
  unfold SameSeparator
  split at h <;> split at h <;> omega

theorem LowerEq.nil : LowerEq [] [] :=
  ⟨fun _ h => absurd h (List.not_mem_nil _), fun _ h => absurd h (List.not_mem_nil _), rfl⟩

theorem LowerEq.length_eq (s1 s2 : GoString) (h : LowerEq s1 s2) : s1.length = s2.length := by
  have := congrArg List.length h.2.2
  simpa using this

theorem LowerEq.nil_left (s2 : GoString) (h : LowerEq [] s2) : s2 = [] := by
  have := LowerEq.length_eq [] s2 h
  exact List.length_eq_zero.mp this.symm

theorem LowerEq.cons_inv (a : Nat) (s1 s2 : GoString) (h : LowerEq (a :: s1) s2) :
    ∃ b t, s2 = b :: t ∧ a < 128 ∧ b < 128 ∧ strings.lowerByte a = strings.lowerByte b ∧
      LowerEq s1 t := by
  obtain ⟨h1, h2, h3⟩ := h
  cases s2 with
  | nil => simp at h3
  | cons b t =>
    rw [List.map_cons, List.map_cons] at h3
    injection h3 with hb ht
    exact ⟨b, t, rfl, h1 a (by simp), h2 b (by simp), hb,
      fun c hc => h1 c (List.mem_cons_of_mem _ hc),
      fun c hc => h2 c (List.mem_cons_of_mem _ hc), ht⟩

theorem LowerEq.snoc (s1 s2 : GoString) (a b : Nat) (h : LowerEq s1 s2) (ha : a < 128)
    (hb : b < 128) (hab : strings.lowerByte a = strings.lowerByte b) :
    LowerEq (s1 ++ [a]) (s2 ++ [b]) := by
  obtain ⟨h1, h2, h3⟩ := h
  refine ⟨?_, ?_, ?_⟩
  · intro c hc
    rw [List.mem_append, List.mem_singleton] at hc
    rcases hc with hc | hc
    · exact h1 c hc
    · rw [hc]; exact ha
  · intro c hc
    rw [List.mem_append, List.mem_singleton] at hc
    rcases hc with hc | hc
    · exact h2 c hc
    · rw [hc]; exact hb
  · rw [List.map_append, List.map_append, h3, List.map_singleton, List.map_singleton, hab]

theorem LowerEq.dropLast (s1 s2 : GoString) (h : LowerEq s1 s2) :
    LowerEq s1.dropLast s2.dropLast := by
  obtain ⟨h1, h2, h3⟩ := h
  refine ⟨fun c hc => h1 c (List.mem_of_mem_dropLast hc),
    fun c hc => h2 c (List.mem_of_mem_dropLast hc), ?_⟩
  have := congrArg List.dropLast h3
  simpa [List.map_dropLast] using this

theorem LowerEq.toLower (U : GoString → GoString) (s1 s2 : GoString) (h : LowerEq s1 s2) :
    strings.ToLower U s1 = strings.ToLower U s2 := by
  rw [ToLower_ascii U s1 h.1, ToLower_ascii U s2 h.2.1, h.2.2]

/-- In the filename state the loop returns what follows the first byte of the token. -/
theorem run_filename_ok (U : GoString → GoString) (e : GoString) (rest : GoString)
    (facts : mlstFacts) (left cur : GoString) (fs : mlstFacts) (fn : GoString)
    (h : run U e rest facts .mlstFilename left cur = .ok fs fn) :
    fn = (cur ++ rest).drop 1 ∧ fs = facts := by
  rw [run_filename] at h
  unfold runEnd at h
  split at h
  · exact absurd h (by simp)
  · injection h with h1 h2
    exact ⟨h2.symm, h1.symm⟩

/-- Outside the filename state, a filename the loop returns starts after a `;` and a space
still to be read. -/
theorem run_ok_bound (U : GoString → GoString) (e : GoString) :
    ∀ (rest : GoString) (facts : mlstFacts) (state : mlstToken) (left cur : GoString)
      (fs : mlstFacts) (fn : GoString),
      state ≠ .mlstFilename → run U e rest facts state left cur = .ok fs fn →
      fn.length + 2 ≤ rest.length := by
  intro rest
  induction rest with
  | nil =>
    intro facts state left cur fs fn hst h
    simp only [run, runEnd] at h
    rw [if_pos (Or.inl hst)] at h
    exact absurd h (by simp)
  | cons c rest ih =>
    intro facts state left cur fs fn hst h
    simp only [run] at h
    split at h
    · split at h
      · exact absurd h (by simp)
      · split at h
        · exact absurd h (by simp)
        · rename_i c2 rest2
          by_cases h32 : c2 = 32
          · rw [if_pos h32] at h
            have := (run_filename_ok U e _ _ _ _ _ _ h).1
            rw [this]
            simp
          · rw [if_neg h32] at h
            have := ih _ _ _ _ _ _ (by decide) h
            simp only [List.length_cons] at this ⊢
            omega
    · split at h
      · have := ih _ _ _ _ _ _ (by decide) h
        simp only [List.length_cons]
        omega
      · have := ih _ _ _ _ _ _ hst h
        simp only [List.length_cons]
        omega

/-- Lockstep on the fact part: two entries whose fact parts are ASCII and equal after
lower-casing and whose rest `T` is the same. When the first gives a filename that is `T`
without its first byte, the second gives the same facts and filename. -/
theorem run_lower_ok (U : GoString → GoString) (e1 e2 T : GoString) :
    ∀ (G1 G2 : GoString), LowerEq G1 G2 →
      ∀ (facts : mlstFacts) (state : mlstToken) (left1 left2 cur1 cur2 : GoString)
        (fs : mlstFacts) (fn : GoString),
        LowerEq left1 left2 → LowerEq cur1 cur2 →
        run U e1 (G1 ++ T) facts state left1 cur1 = .ok fs fn → fn.length + 1 = T.length →
        run U e2 (G2 ++ T) facts state left2 cur2 = .ok fs fn := by
  intro G1
  induction G1 with
  | nil =>
    intro G2 hG facts state left1 left2 cur1 cur2 fs fn hleft hcur h hlen
    have hG2 := LowerEq.nil_left G2 hG
    subst hG2
    simp only [List.nil_append] at h ⊢
    by_cases hst : state = .mlstFilename
    · subst hst
      obtain ⟨hfn, hfs⟩ := run_filename_ok U e1 _ _ _ _ _ _ h
      have hc1 : cur1 = [] := by
        have hl := congrArg List.length hfn
        rw [List.length_drop, List.length_append] at hl
        exact List.length_eq_zero.mp (by omega)
      have hc2 : cur2 = [] := by
        rw [hc1] at hcur
        exact LowerEq.nil_left cur2 hcur
      rw [run_filename, hc1, List.nil_append] at h
      rw [run_filename, hc2, List.nil_append]
      unfold runEnd at h ⊢
      split at h
      · exact absurd h (by simp)
      · rename_i hT
        rw [if_neg hT]
        exact h
    · have := run_ok_bound U e1 _ _ _ _ _ _ _ hst h
      omega
  | cons g1 G1 ih =>
    intro G2 hG facts state left1 left2 cur1 cur2 fs fn hleft hcur h hlen
    obtain ⟨g2, G2t, hG2, ha, hb, hl, hGt⟩ := LowerEq.cons_inv g1 G1 G2 hG
    subst hG2
    have hsep := lowerByte_sameSeparator g1 g2 hl
    by_cases hst : state = .mlstFilename
    · subst hst
      obtain ⟨hfn, _⟩ := run_filename_ok U e1 _ _ _ _ _ _ h
      have hl2 := congrArg List.length hfn
      rw [List.length_drop] at hl2
      simp only [List.length_append, List.length_cons] at hl2
      omega
    · simp only [List.cons_append, run] at h ⊢
      by_cases c1 : g1 = 59 ∧ state = .mlstFactValue
      · have c1b : g2 = 59 ∧ state = .mlstFactValue := ⟨hsep.1.mp c1.1, c1.2⟩
        rw [if_pos c1] at h
        rw [if_pos c1b]
        by_cases hl1 : left1 = []
        · rw [if_pos hl1] at h
          exact absurd h (by simp)
        · have hl2 : left2 ≠ [] := by
            intro h0
            rw [h0] at hleft
            have := LowerEq.length_eq _ _ hleft
            exact hl1 (List.length_eq_zero.mp (by simpa using this))
          rw [if_neg hl1] at h
          rw [if_neg hl2]
          have hkey := LowerEq.toLower U _ _ (LowerEq.dropLast _ _ hleft)
          have hval := LowerEq.toLower U _ _ hcur
          rw [← hkey, ← hval]
          cases G1 with
          | nil =>
            have hGt2 := LowerEq.nil_left G2t hGt
            subst hGt2
            simp only [List.append] at h ⊢
            cases T with
            | nil => exact absurd h (by simp)
            | cons c T2 =>
              simp only at h ⊢
              exact ih [] LowerEq.nil _ _ _ _ _ _ _ _ hleft LowerEq.nil h hlen
          | cons a G1t =>
            obtain ⟨b, G2tt, hG3, ha2, hb2, hl3, hGtt⟩ := LowerEq.cons_inv a G1t G2t hGt
            subst hG3
            have hsep2 := lowerByte_sameSeparator a b hl3
            simp only [List.append] at h ⊢
            have hstate : (if a = 32 then mlstToken.mlstFilename else mlstToken.mlstFactName) =
                (if b = 32 then mlstToken.mlstFilename else mlstToken.mlstFactName) := by
              by_cases h32 : a = 32
              · rw [if_pos h32, if_pos (hsep2.2.2.mp h32)]
              · rw [if_neg h32, if_neg (fun hb32 => h32 (hsep2.2.2.mpr hb32))]
            rw [← hstate]
            exact ih (b :: G2tt) hGt _ _ _ _ _ _ _ _ hleft LowerEq.nil h hlen
      · have c1b : ¬ (g2 = 59 ∧ state = .mlstFactValue) :=
          fun hc => c1 ⟨hsep.1.mpr hc.1, hc.2⟩
        rw [if_neg c1] at h
        rw [if_neg c1b]
        by_cases c2 : g1 = 61 ∧ state = .mlstFactName
        · have c2b : g2 = 61 ∧ state = .mlstFactName := ⟨hsep.2.1.mp c2.1, c2.2⟩
          rw [if_pos c2] at h
          rw [if_pos c2b]
          exact ih G2t hGt _ _ _ _ _ _ _ _
            (LowerEq.snoc _ _ 61 61 hcur (by decide) (by decide) rfl) LowerEq.nil h hlen
        · have c2b : ¬ (g2 = 61 ∧ state = .mlstFactName) :=
            fun hc => c2 ⟨hsep.2.1.mpr hc.1, hc.2⟩
          rw [if_neg c2] at h
          rw [if_neg c2b]
          exact ih G2t hGt _ _ _ _ _ _ _ _ hleft (LowerEq.snoc _ _ g1 g2 hcur ha hb hl) h hlen

theorem sameSeparator_refl (T : GoString) : List.Forall₂ SameSeparator T T := by
  induction T with
  | nil => exact List.Forall₂.nil
  | cons c T ih => exact List.Forall₂.cons ⟨Iff.rfl, Iff.rfl, Iff.rfl⟩ ih

theorem sameSeparator_append (T : GoString) :
    ∀ (G1 G2 : GoString), LowerEq G1 G2 →
      List.Forall₂ SameSeparator (G1 ++ T) (G2 ++ T) := by
  intro G1
  induction G1 with
  | nil =>
    intro G2 hG
    rw [LowerEq.nil_left G2 hG]
    exact sameSeparator_refl T
  | cons g1 G1 ih =>
    intro G2 hG
    obtain ⟨g2, G2t, hG2, _, _, hl, hGt⟩ := LowerEq.cons_inv g1 G1 G2 hG
    subst hG2
    exact List.Forall₂.cons (lowerByte_sameSeparator g1 g2 hl) (ih G2t hGt)

/-- Lockstep on the control flow: two entries with `;`, `=` and spaces at the same places.
When the tokenizer returns the malformed-entry error for the first, it does for the
second. -/
theorem run_error_same (U : GoString → GoString) (e1 e2 : GoString) :
    ∀ (rest1 rest2 : GoString), List.Forall₂ SameSeparator rest1 rest2 →
      ∀ (facts1 facts2 : mlstFacts) (state : mlstToken) (left1 left2 cur1 cur2 : GoString),
        (left1 = [] ↔ left2 = []) → cur1.length = cur2.length →
        run U e1 rest1 facts1 state left1 cur1 = .leave (.failure (error e1)) →
        run U e2 rest2 facts2 state left2 cur2 = .leave (.failure (error e2)) := by
  intro rest1
  induction rest1 with
  | nil =>
    intro rest2 hrel facts1 facts2 state left1 left2 cur1 cur2 hleft hcur h
    cases hrel
    simp only [run, runEnd] at h ⊢
    split at h
    · rename_i hc
      rw [if_pos (by rw [← hcur]; exact hc)]
    · exact absurd h (by simp)
  | cons g1 rest1 ih =>
    intro rest2 hrel facts1 facts2 state left1 left2 cur1 cur2 hleft hcur h
    cases hrel with
    | cons hsep hrest =>
      rename_i g2 rest2t
      simp only [run] at h ⊢
      by_cases c1 : g1 = 59 ∧ state = .mlstFactValue
      · have c1b : g2 = 59 ∧ state = .mlstFactValue := ⟨hsep.1.mp c1.1, c1.2⟩
        rw [if_pos c1] at h
        rw [if_pos c1b]
        by_cases hl1 : left1 = []
        · rw [if_pos (hleft.mp hl1)]
        · rw [if_neg hl1] at h
          rw [if_neg (fun h0 => hl1 (hleft.mpr h0))]
          cases hrest with
          | nil => exact absurd h (by simp)
          | cons hsep2 hrest2 =>
            rename_i a b r1 r2
            simp only at h ⊢
            have hstate : (if a = 32 then mlstToken.mlstFilename else mlstToken.mlstFactName) =
                (if b = 32 then mlstToken.mlstFilename else mlstToken.mlstFactName) := by
              by_cases h32 : a = 32
              · rw [if_pos h32, if_pos (hsep2.2.2.mp h32)]
              · rw [if_neg h32, if_neg (fun hb32 => h32 (hsep2.2.2.mpr hb32))]
            rw [← hstate]
            exact ih (b :: r2) (List.Forall₂.cons hsep2 hrest2) _ _ _ _ _ _ _ hleft rfl h
      · have c1b : ¬ (g2 = 59 ∧ state = .mlstFactValue) :=
          fun hc => c1 ⟨hsep.1.mpr hc.1, hc.2⟩
        rw [if_neg c1] at h
        rw [if_neg c1b]
        by_cases c2 : g1 = 61 ∧ state = .mlstFactName
        · have c2b : g2 = 61 ∧ state = .mlstFactName := ⟨hsep.2.1.mp c2.1, c2.2⟩
          rw [if_pos c2] at h
          rw [if_pos c2b]
          exact ih rest2t hrest _ _ _ _ _ _ _ (by simp) rfl h
        · have c2b : ¬ (g2 = 61 ∧ state = .mlstFactName) :=
            fun hc => c2 ⟨hsep.2.1.mpr hc.1, hc.2⟩
          rw [if_neg c2] at h
          rw [if_neg c2b]
          exact ih rest2t hrest _ _ _ _ _ _ _ hleft (by simp [hcur]) h

end mlstParser

/-! ## What `parseModTime` rejects -/

namespace strconv

theorem digitValue_lt_ten (c d : Nat) (h : digitValue c = some d) (hd : d < 10) :
    48 ≤ c ∧ c < 48 + 10 := by
  unfold digitValue at h
  split at h
  · omega
  · split at h
    · injection h with h
      omega
    · exact absurd h (by simp)

/-- When the digit loop of `ParseUint` returns without error in base 10, every byte it read
is a decimal digit. -/
theorem parseUintLoop_ok_digits (cutoff maxVal : Nat) (s : GoString) :
    ∀ n v, parseUintLoop 10 cutoff maxVal s n = (v, none) → IsDigits 10 s := by
  induction s with
  | nil => intro n v _ c hc; exact absurd hc (List.not_mem_nil c)
  | cons c cs ih =>
    intro n v h
    unfold parseUintLoop at h
    split at h
    · exact absurd (Prod.mk.inj h).2 (by simp)
    · rename_i d hd
      split at h
      · exact absurd (Prod.mk.inj h).2 (by simp)
      · rename_i hlt
        split at h
        · exact absurd (Prod.mk.inj h).2 (by simp)
        · simp only at h
          split at h
          · exact absurd (Prod.mk.inj h).2 (by simp)
          · have hcs := ih _ _ h
            have hc := digitValue_lt_ten c d hd (by omega)
            intro x hx
            rw [List.mem_cons] at hx
            rcases hx with hx | hx
            · rw [hx]; exact hc
            · exact hcs x hx

theorem ParseUint_ok_digits (s : GoString) (bitSize v : Nat)
    (h : ParseUint s 10 bitSize = (v, none)) : IsDigits 10 s := by
  unfold ParseUint at h
  split at h
  · exact absurd (Prod.mk.inj h).2 (by simp)
  · exact parseUintLoop_ok_digits _ _ s 0 v h

theorem isDigits_of_take_drop (l : GoString) (n : Nat) (h1 : IsDigits 10 (l.take n))
    (h2 : IsDigits 10 (l.drop n)) : IsDigits 10 l := by
  intro c hc
  rw [← List.take_append_drop n l, List.mem_append] at hc
  rcases hc with hc | hc
  · exact h1 c hc
  · exact h2 c hc

end strconv

namespace mlstParser

/-- What `parseModTime` accepts is fourteen bytes long and all digits. -/
theorem parseModTime_some_digits (value : GoString) (t : time.Time)
    (h : parseModTime value = some t) :
    value.length = 14 ∧ strconv.IsDigits 10 value := by
  unfold parseModTime at h
  split at h
  · exact absurd h (by simp)
  · rename_i hlen
    have hlen : value.length = 14 := by
      by_contra hc
      exact hlen hc
    refine ⟨hlen, ?_⟩
    split at h
    · rename_i year month day hour min sec h1 h2 h3 h4 h5 h6
      have d1 := strconv.ParseUint_ok_digits _ _ _ h1
      have d2 := strconv.ParseUint_ok_digits _ _ _ h2
      have d3 := strconv.ParseUint_ok_digits _ _ _ h3
      have d4 := strconv.ParseUint_ok_digits _ _ _ h4
      have d5 := strconv.ParseUint_ok_digits _ _ _ h5
      have d6 := strconv.ParseUint_ok_digits _ _ _ h6
      have e12 : (value.drop 12).take 2 = value.drop 12 :=
        List.take_of_length_le (by simp [hlen])
      rw [e12] at d6
      have k10 : strconv.IsDigits 10 (value.drop 10) :=
        strconv.isDigits_of_take_drop _ 2 d5 (by rw [List.drop_drop]; exact d6)
      have k8 : strconv.IsDigits 10 (value.drop 8) :=
        strconv.isDigits_of_take_drop _ 2 d4 (by rw [List.drop_drop]; exact k10)
      have k6 : strconv.IsDigits 10 (value.drop 6) :=
        strconv.isDigits_of_take_drop _ 2 d3 (by rw [List.drop_drop]; exact k8)
      have k4 : strconv.IsDigits 10 (value.drop 4) :=
        strconv.isDigits_of_take_drop _ 2 d2 (by rw [List.drop_drop]; exact k6)
      exact strconv.isDigits_of_take_drop _ 4 d1 k4
    · exact absurd h (by simp)

end mlstParser

/-! ## `time.Date` on fields that are out of range -/

namespace time

/-- The helper `norm` on a non-negative `lo`: the quotient is carried, the remainder
stays. -/
theorem norm_nonneg (hi lo base : Int) (h0 : 0 ≤ lo) :
    norm hi lo base = (hi + lo / base, lo % base) := by
  unfold norm
  simp only [if_neg (not_lt.mpr h0)]
  by_cases hge : lo ≥ base
  · rw [if_pos hge]
    have : lo - lo / base * base = lo % base := by
      rw [Int.emod_def, Int.mul_comm]
    rw [this]
  · rw [if_neg hge]
    have hlt : lo < base := not_le.mp hge
    rw [Int.ediv_eq_zero_of_lt h0 hlt, Int.emod_eq_of_lt h0 hlt, Int.add_zero]

/-- The helper `norm` on month index -1: December of the year before. -/
theorem norm_neg_one (hi : Int) : norm hi (-1) 12 = (hi - 1, 11) := by
  unfold norm
  norm_num

/-- The two `int64` conversions that shift absolute seconds to Unix seconds undo each
other's wrap-around for every absolute second count that gives a Unix second count in the
`int64` range. -/
theorem unix_shift_wide (X : Int) (h1 : 0 ≤ X) (h2 : X < 18446744065570097408) :
    toInt64 (toInt64 X + absoluteToUnix) = X - 9223372028715321600 := by
  unfold toInt64 absoluteToUnix
  norm_num
  omega

theorem daysSinceEpoch_natCast_wide (y : Nat) (hy : y ≤ 20000) :
    daysSinceEpoch (y : Int) = calendar.daysBeforeYear y + 106751990353566 := by
  have hc := daysBeforeYear_closed y
  have h0 : toUint64 ((y : Int) - absoluteZeroYear) = y + 292277022399 := by
    unfold toUint64 absoluteZeroYear
    norm_num
    omega
  unfold daysSinceEpoch
  simp only [h0]
  omega

theorem daysSinceEpoch_neg_one : daysSinceEpoch (-1) = 106751990353566 - 365 := by
  decide

theorem isLeap_neg_one : isLeap (-1) = false := by decide

/-- What `time.Date` computes once the fields are normalised: `dd` days from the
absolute epoch to the first of the month, then the days, hours, minutes and seconds. -/
theorem Date_of_norm (year month day hour min sec yr : Int) (k D1 h1 m1 s1 H M S dd : Nat)
    (n1 : norm year (month - 1) 12 = (yr, (k : Int)))
    (n2 : norm sec 0 1000000000 = ((S : Int), 0))
    (n3 : norm min (S : Int) 60 = ((M : Int), (s1 : Int)))
    (n4 : norm hour (M : Int) 60 = ((H : Int), (m1 : Int)))
    (n5 : norm day (H : Int) 24 = ((D1 : Int), (h1 : Int)))
    (hs1 : s1 < 60) (hm1 : m1 < 60) (hh1 : h1 < 24) (hD : D1 ≤ 1000)
    (hdd : daysSinceEpoch yr + daysBefore.getD k 0 +
      (if isLeap yr = true ∧ 2 ≤ k then 1 else 0) = dd)
    (hlo : 1000 ≤ dd) (hhi : dd ≤ 200000000000000) :
    Date year month day hour min sec 0 =
      ⟨((dd : Int) + D1 - 1) * 86400 + (h1 * 3600 + m1 * 60 + s1 : Nat) -
        9223372028715321600, 0⟩ := by
  have e1 : ((k : Int) + 1 - 1).toNat = k := by omega
  have e2 : toUint64 ((D1 : Int) - 1) = if D1 = 0 then 2 ^ 64 - 1 else D1 - 1 := by
    unfold toUint64
    split <;> omega
  have e3 : toUint64 ((h1 : Int) * 3600 + (m1 : Int) * 60 + (s1 : Int)) =
      h1 * 3600 + m1 * 60 + s1 := by
    unfold toUint64
    omega
  have e4 : (isLeap yr = true ∧ (k : Int) + 1 ≥ 3) ↔ (isLeap yr = true ∧ 2 ≤ k) := by
    constructor
    · intro h; exact ⟨h.1, by omega⟩
    · intro h; exact ⟨h.1, by omega⟩
  unfold Date
  simp only [n1, n2, n3, n4, n5, e1, e2, e3, e4]
  generalize daysSinceEpoch yr = a at hdd ⊢
  generalize daysBefore.getD k 0 = g at hdd ⊢
  rw [Time.mk.injEq]
  refine ⟨?_, rfl⟩
  have hday : (if isLeap yr = true ∧ 2 ≤ k then ((a + g) % 2 ^ 64 + 1) % 2 ^ 64
      else (a + g) % 2 ^ 64) = dd := by
    have h1 : (a + g) % 2 ^ 64 = a + g := Nat.mod_eq_of_lt (by split_ifs at hdd <;> omega)
    have h2 : (a + g + 1) % 2 ^ 64 = a + g + 1 :=
      Nat.mod_eq_of_lt (by split_ifs at hdd <;> omega)
    rw [h1, h2]
    split_ifs at hdd ⊢ <;> omega
  rw [hday]
  clear hday hdd n1 n2 n3 n4 n5 e1 e2 e3 e4
  have h3 : (dd + if D1 = 0 then 2 ^ 64 - 1 else D1 - 1) % 2 ^ 64 = dd + D1 - 1 := by
    split_ifs with hz
    · subst hz
      omega
    · rw [Nat.mod_eq_of_lt (by omega)]
      omega
  have h4 : (dd + D1 - 1) * 86400 % 2 ^ 64 = (dd + D1 - 1) * 86400 :=
    Nat.mod_eq_of_lt (by omega)
  have h5 : ((dd + D1 - 1) * 86400 + (h1 * 3600 + m1 * 60 + s1)) % 2 ^ 64 =
      (dd + D1 - 1) * 86400 + (h1 * 3600 + m1 * 60 + s1) := Nat.mod_eq_of_lt (by omega)
  rw [h3, h4, h5]
  have hX2 : (dd + D1 - 1) * 86400 + (h1 * 3600 + m1 * 60 + s1) < 18446744065570097408 := by
    omega
  rw [unix_shift_wide _ (by omega) (by exact_mod_cast hX2)]
  omega

end time

namespace time

theorem norm_natCast (hi lo : Nat) (base : Nat) :
    norm (hi : Int) (lo : Int) (base : Int) =
      (((hi + lo / base : Nat) : Int), ((lo % base : Nat) : Int)) := by
  rw [norm_nonneg _ _ _ (Int.natCast_nonneg lo)]
  push_cast
  rfl

theorem daysBefore_le (k : Nat) : daysBefore.getD k 0 ≤ 365 := by
  by_cases hk : k < 13
  · interval_cases k <;> decide
  · have : daysBefore.length ≤ k := by
      have : daysBefore.length = 13 := rfl
      omega
    rw [List.getD_eq_default _ _ this]
    exact Nat.zero_le _

/-- On six fields of at most two digits (four for the year), `time.Date` returns the
instant in which every overflow or underflow of a field counts on in the next larger
field. -/
theorem Date_fields (y m d hh mm ss : Nat) (hy : y ≤ 9999) (hm : m ≤ 99) (hd : d ≤ 99)
    (hhh : hh ≤ 99) (hmm : mm ≤ 99) (hss : ss ≤ 99) :
    Date y m d hh mm ss 0 = ⟨calendar.normalisedSeconds y m d hh mm ss, 0⟩ := by
  have n2 : norm (ss : Int) 0 1000000000 = ((ss : Int), 0) :=
    norm_id _ _ _ (by omega) (by omega)
  have n3 := norm_natCast mm ss 60
  have n4 := norm_natCast hh (mm + ss / 60) 60
  have n5 := norm_natCast d (hh + (mm + ss / 60) / 60) 24
  simp only [Nat.cast_ofNat] at n3 n4 n5
  have h1970 := daysBeforeYear_1970
  by_cases hm0 : m = 0
  · subst hm0
    have n1 : norm (y : Int) (((0 : Nat) : Int) - 1) 12 = ((y : Int) - 1, ((11 : Nat) : Int)) := by
      have := norm_neg_one (y : Int)
      simpa using this
    have hg : daysBefore.getD 11 0 = 334 := rfl
    have hdd : ∃ dd : Nat, daysSinceEpoch ((y : Int) - 1) + daysBefore.getD 11 0 +
        (if isLeap ((y : Int) - 1) = true ∧ 2 ≤ 11 then 1 else 0) = dd ∧
        (dd : Int) = (calendar.daysBeforeYear y : Int) - 31 + 106751990353566 ∧
        dd ≤ 200000000000000 := by
      cases y with
      | zero =>
        refine ⟨106751990353566 - 31, ?_, ?_, by decide⟩
        · have e0 : (((0 : Nat) : Int) - 1) = -1 := by norm_num
          rw [e0, daysSinceEpoch_neg_one, isLeap_neg_one, hg]
          decide
        · have : calendar.daysBeforeYear 0 = 0 := rfl
          rw [this]
          norm_num
      | succ y1 =>
        have e0 : (((y1 + 1 : Nat) : Int) - 1) = (y1 : Int) := by omega
        have hstep : calendar.daysBeforeYear (y1 + 1) =
            calendar.daysBeforeYear y1 + calendar.daysInYear y1 := rfl
        have hdiy : calendar.daysInYear y1 =
            if calendar.isLeapYear y1 = true then 366 else 365 := rfl
        have hc := daysBeforeYear_closed y1
        have hite : (if calendar.isLeapYear y1 = true ∧ 2 ≤ 11 then 1 else 0) + 365 =
            calendar.daysInYear y1 := by
          rw [hdiy]
          by_cases hl : calendar.isLeapYear y1 = true
          · rw [if_pos ⟨hl, by decide⟩, if_pos hl]
          · rw [if_neg (fun h => hl h.1), if_neg hl]
        refine ⟨calendar.daysBeforeYear y1 + 106751990353566 + 334 +
          (if calendar.isLeapYear y1 = true ∧ 2 ≤ 11 then 1 else 0), ?_, ?_, ?_⟩
        · rw [e0, daysSinceEpoch_natCast_wide y1 (by omega), isLeap_natCast, hg]
        · rw [hstep]
          generalize calendar.daysBeforeYear y1 = a at hc ⊢
          generalize calendar.daysInYear y1 = b at hite ⊢
          generalize (if calendar.isLeapYear y1 = true ∧ 2 ≤ 11 then 1 else 0) = c at hite ⊢
          omega
        · generalize calendar.daysBeforeYear y1 = a at hc ⊢
          have hb : (if calendar.isLeapYear y1 = true ∧ 2 ≤ 11 then 1 else 0) ≤ 1 := by
            split_ifs <;> omega
          generalize (if calendar.isLeapYear y1 = true ∧ 2 ≤ 11 then 1 else 0) = c at hb ⊢
          omega
    obtain ⟨dd, hdd1, hdd2, hdd3⟩ := hdd
    rw [Date_of_norm (y : Int) ((0 : Nat) : Int) d hh mm ss ((y : Int) - 1) 11
      (d + (hh + (mm + ss / 60) / 60) / 24) ((hh + (mm + ss / 60) / 60) % 24)
      ((mm + ss / 60) % 60) (ss % 60) (hh + (mm + ss / 60) / 60) (mm + ss / 60) ss dd
      n1 n2 n3 n4 n5 (by omega) (by omega) (by omega) (by omega) hdd1 (by omega) hdd3]
    rw [Time.mk.injEq]
    refine ⟨?_, rfl⟩
    unfold calendar.normalisedSeconds calendar.monthStart
    rw [if_pos rfl, h1970]
    generalize calendar.daysBeforeYear y = a at hdd2 ⊢
    omega
  · have n1 : norm (y : Int) ((m : Int) - 1) 12 =
        (((y + (m - 1) / 12 : Nat) : Int), (((m - 1) % 12 : Nat) : Int)) := by
      rw [norm_nonneg _ _ _ (by omega)]
      refine Prod.ext ?_ ?_ <;> simp only <;> omega
    have hk : (m - 1) % 12 < 12 := Nat.mod_lt _ (by decide)
    have hmonth := daysBefore_month (y + (m - 1) / 12) ((m - 1) % 12 + 1) (by omega) (by omega)
    rw [Nat.add_sub_cancel] at hmonth
    have hg := daysBefore_le ((m - 1) % 12)
    have hc := daysBeforeYear_closed (y + (m - 1) / 12)
    have hdd : daysSinceEpoch ((y + (m - 1) / 12 : Nat) : Int) +
        daysBefore.getD ((m - 1) % 12) 0 +
        (if isLeap ((y + (m - 1) / 12 : Nat) : Int) = true ∧ 2 ≤ (m - 1) % 12 then 1 else 0) =
        calendar.daysBeforeYear (y + (m - 1) / 12) + 106751990353566 +
          calendar.daysBeforeMonth (y + (m - 1) / 12) ((m - 1) % 12 + 1) := by
      rw [daysSinceEpoch_natCast_wide _ (by omega), isLeap_natCast, ← hmonth]
      have e : (3 ≤ (m - 1) % 12 + 1) ↔ (2 ≤ (m - 1) % 12) := by omega
      simp only [e]
      omega
    have hb : calendar.daysBeforeMonth (y + (m - 1) / 12) ((m - 1) % 12 + 1) ≤ 366 := by
      rw [← hmonth]
      split_ifs <;> omega
    have ha : calendar.daysBeforeYear (y + (m - 1) / 12) ≤ 4000000 := by omega
    rw [Date_of_norm (y : Int) (m : Int) d hh mm ss ((y + (m - 1) / 12 : Nat) : Int)
      ((m - 1) % 12)
      (d + (hh + (mm + ss / 60) / 60) / 24) ((hh + (mm + ss / 60) / 60) % 24)
      ((mm + ss / 60) % 60) (ss % 60) (hh + (mm + ss / 60) / 60) (mm + ss / 60) ss _
      n1 n2 n3 n4 n5 (by omega) (by omega) (by omega) (by omega) hdd (by omega) (by omega)]
    rw [Time.mk.injEq]
    refine ⟨?_, rfl⟩
    unfold calendar.normalisedSeconds calendar.monthStart
    rw [if_neg hm0, h1970]
    generalize calendar.daysBeforeYear (y + (m - 1) / 12) = a
    generalize calendar.daysBeforeMonth (y + (m - 1) / 12) ((m - 1) % 12 + 1) = b
    omega

/-- On a valid date and time the normalised instant is the instant of the calendar. -/
theorem normalisedSeconds_valid (y m d hh mm ss : Nat)
    (hv : calendar.ValidDateTime y m d hh mm ss) :
    calendar.normalisedSeconds y m d hh mm ss = calendar.unixSeconds y m d hh mm ss := by
  obtain ⟨hm1, hm2, hd1, _, _, _, _⟩ := hv
  unfold calendar.normalisedSeconds calendar.monthStart calendar.unixSeconds
    calendar.daysSince1970
  rw [if_neg (by omega)]
  have e1 : (m - 1) / 12 = 0 := by omega
  have e2 : (m - 1) % 12 + 1 = m := by omega
  rw [e1, e2, Nat.add_zero]
  generalize calendar.daysBeforeYear y = a
  generalize calendar.daysBeforeMonth y m = b
  generalize calendar.daysBeforeYear 1970 = c
  omega

end time

/-! ## The filename within the entry and its last path element -/

namespace mlstParser

/-- Outside the filename state, a filename the loop returns is what follows a `;` and a
space in the bytes still to be read. -/
theorem run_ok_suffix (U : GoString → GoString) (e : GoString) :
    ∀ (rest : GoString) (facts : mlstFacts) (state : mlstToken) (left cur : GoString)
      (fs : mlstFacts) (fn : GoString),
      state ≠ .mlstFilename → run U e rest facts state left cur = .ok fs fn →
      ∃ pre, rest = pre ++ 59 :: 32 :: fn := by
  intro rest
  induction rest with
  | nil =>
    intro facts state left cur fs fn hst h
    simp only [run, runEnd] at h
    rw [if_pos (Or.inl hst)] at h
    exact absurd h (by simp)
  | cons c rest ih =>
    intro facts state left cur fs fn hst h
    simp only [run] at h
    split at h
    · rename_i hc
      split at h
      · exact absurd h (by simp)
      · split at h
        · exact absurd h (by simp)
        · rename_i c2 rest2
          by_cases h32 : c2 = 32
          · rw [if_pos h32] at h
            have hfn := (run_filename_ok U e _ _ _ _ _ _ h).1
            refine ⟨[], ?_⟩
            rw [hfn, hc.1, h32]
            rfl
          · rw [if_neg h32] at h
            obtain ⟨pre, hpre⟩ := ih _ _ _ _ _ _ (by decide) h
            exact ⟨c :: pre, by rw [hpre]; rfl⟩
    · split at h
      · obtain ⟨pre, hpre⟩ := ih _ _ _ _ _ _ (by decide) h
        exact ⟨c :: pre, by rw [hpre]; rfl⟩
      · obtain ⟨pre, hpre⟩ := ih _ _ _ _ _ _ hst h
        exact ⟨c :: pre, by rw [hpre]; rfl⟩

/-- The filename the tokenizer returns is the text of the entry after a `;` and a space. -/
theorem tokenize_ok_suffix (U : GoString → GoString) (entry : GoString) (facts : mlstFacts)
    (fn : GoString) (h : tokenize U entry = .ok facts fn) :
    ∃ pre, entry = pre ++ 59 :: 32 :: fn := by
  rw [tokenize_eq_run] at h
  exact run_ok_suffix U entry _ _ _ _ _ _ _ (by decide) h

theorem dropWhile_head (p : Nat → Bool) (l : GoString) :
    l.dropWhile p = [] ∨ ∃ c cs, l.dropWhile p = c :: cs ∧ p c = false := by
  induction l with
  | nil => exact Or.inl rfl
  | cons a l ih =>
    cases hp : p a with
    | true =>
      rw [List.dropWhile_cons_of_pos hp]
      exact ih
    | false =>
      rw [List.dropWhile_cons_of_neg (by simp [hp])]
      exact Or.inr ⟨a, l, rfl, hp⟩

theorem takeWhile_all (p : Nat → Bool) (l : GoString) :
    ∀ x ∈ l.takeWhile p, p x = true := by
  induction l with
  | nil => intro x hx; simp at hx
  | cons a l ih =>
    intro x hx
    cases hp : p a with
    | true =>
      rw [List.takeWhile_cons_of_pos hp, List.mem_cons] at hx
      rcases hx with hx | hx
      · rw [hx]; exact hp
      · exact ih x hx
    | false =>
      rw [List.takeWhile_cons_of_neg (by simp [hp])] at hx
      simp at hx

theorem dropWhile_append_all (p : Nat → Bool) (l r : GoString) (h : ∀ x ∈ l, p x = true) :
    (l ++ r).dropWhile p = r.dropWhile p := by
  induction l with
  | nil => rfl
  | cons a l ih =>
    rw [List.cons_append, List.dropWhile_cons_of_pos (h a (List.mem_cons_self a l))]
    exact ih (fun x hx => h x (List.mem_cons_of_mem a hx))

theorem takeWhile_append_all (p : Nat → Bool) (l r : GoString) (h : ∀ x ∈ l, p x = true) :
    (l ++ r).takeWhile p = l ++ r.takeWhile p := by
  induction l with
  | nil => rfl
  | cons a l ih =>
    rw [List.cons_append, List.takeWhile_cons_of_pos (h a (List.mem_cons_self a l)),
      ih (fun x hx => h x (List.mem_cons_of_mem a hx)), List.cons_append]

/-- A path is what `stripTrailingSeparators` keeps of it, followed by separators only. -/
theorem strip_append (path : GoString) :
    ∃ slashes, path = filepath.stripTrailingSeparators path ++ slashes ∧
      ∀ c ∈ slashes, c = 47 := by
  refine ⟨(path.reverse.takeWhile (fun c => decide (c = 47))).reverse, ?_, ?_⟩
  · unfold filepath.stripTrailingSeparators
    rw [← List.reverse_append, List.takeWhile_append_dropWhile, List.reverse_reverse]
  · intro c hc
    rw [List.mem_reverse] at hc
    have := takeWhile_all _ _ c hc
    simpa using this

/-- What `stripTrailingSeparators` keeps is empty or ends in a byte that is no separator. -/
theorem strip_last (path : GoString) :
    filepath.stripTrailingSeparators path = [] ∨
      ∃ d c, filepath.stripTrailingSeparators path = d ++ [c] ∧ c ≠ 47 := by
  unfold filepath.stripTrailingSeparators
  rcases dropWhile_head (fun c => decide (c = 47)) path.reverse with h | ⟨c, cs, h, hc⟩
  · left
    rw [h]
    rfl
  · right
    refine ⟨cs.reverse, c, ?_, ?_⟩
    · rw [h, List.reverse_cons]
    · simpa using hc

/-- A path is a part that is empty or ends in a separator, followed by `lastElement`, which
holds no separator. -/
theorem lastElement_append (path : GoString) :
    47 ∉ filepath.lastElement path ∧
    ∃ dir, path = dir ++ filepath.lastElement path ∧ (dir = [] ∨ ∃ d, dir = d ++ [47]) := by
  constructor
  · intro hm
    unfold filepath.lastElement at hm
    rw [List.mem_reverse] at hm
    have := takeWhile_all _ _ 47 hm
    simp at this
  · refine ⟨(path.reverse.dropWhile (fun c => !decide (c = 47))).reverse, ?_, ?_⟩
    · unfold filepath.lastElement
      rw [← List.reverse_append, List.takeWhile_append_dropWhile, List.reverse_reverse]
    · rcases dropWhile_head (fun c => !decide (c = 47)) path.reverse with h | ⟨c, cs, h, hc⟩
      · left
        rw [h]
        rfl
      · right
        refine ⟨cs.reverse, ?_⟩
        have hc47 : c = 47 := by simpa using hc
        rw [h, List.reverse_cons, hc47]

/-- The last element of a path that ends in a byte that is no separator is not empty. -/
theorem lastElement_ne_nil (d : GoString) (c : Nat) (hc : c ≠ 47) :
    filepath.lastElement (d ++ [c]) ≠ [] := by
  unfold filepath.lastElement
  rw [List.reverse_append, List.reverse_singleton, List.singleton_append,
    List.takeWhile_cons_of_pos (by simpa using hc)]
  simp

theorem Base_ne_nil (path : GoString) : filepath.Base path ≠ [] := by
  unfold filepath.Base
  split
  · simp
  · simp only
    split
    · simp
    · assumption

theorem Base_separator (path : GoString) (h : 47 ∈ filepath.Base path) :
    filepath.Base path = [47] := by
  unfold filepath.Base at h ⊢
  split
  · rename_i hp
    rw [if_pos hp] at h
    simp at h
  · rename_i hp
    rw [if_neg hp] at h
    simp only at h ⊢
    split
    · rfl
    · rename_i hl
      rw [if_neg hl] at h
      exact absurd h (lastElement_append _).1

theorem Base_all_separators (path : GoString) (hne : path ≠ [])
    (h : ∀ c ∈ path, c = 47) : filepath.Base path = [47] := by
  have hs : filepath.stripTrailingSeparators path = [] := by
    rcases strip_last path with h0 | ⟨d, c, hd, hc⟩
    · exact h0
    · obtain ⟨slashes, hp, _⟩ := strip_append path
      have : c ∈ path := by
        rw [hp, hd]
        simp
      exact absurd (h c this) hc
  unfold filepath.Base
  rw [if_neg hne]
  simp only
  rw [hs]
  rfl

/-- Of a path with a byte that is no separator, `Base` is the last element of the path
without its trailing separators, and the path is built around it. -/
theorem Base_decompose (path : GoString) (h : ∃ c ∈ path, c ≠ 47) :
    47 ∉ filepath.Base path ∧
    ∃ dir slashes, path = dir ++ filepath.Base path ++ slashes ∧
      (dir = [] ∨ ∃ d, dir = d ++ [47]) ∧ ∀ c ∈ slashes, c = 47 := by
  obtain ⟨c, hc, hc47⟩ := h
  have hne : path ≠ [] := by
    intro h0
    rw [h0] at hc
    simp at hc
  obtain ⟨slashes, hp, hsl⟩ := strip_append path
  have hlast : filepath.lastElement (filepath.stripTrailingSeparators path) ≠ [] := by
    rcases strip_last path with h0 | ⟨d, x, hd, hx⟩
    · rw [h0, List.nil_append] at hp
      rw [hp] at hc
      exact absurd (hsl c hc) hc47
    · rw [hd]
      exact lastElement_ne_nil d x hx
  have hB : filepath.Base path =
      filepath.lastElement (filepath.stripTrailingSeparators path) := by
    unfold filepath.Base
    rw [if_neg hne]
    simp only
    rw [if_neg hlast]
  obtain ⟨h47, dir, hdir, hd⟩ := lastElement_append (filepath.stripTrailingSeparators path)
  rw [hB]
  refine ⟨h47, dir, slashes, ?_, hd, hsl⟩
  rw [← hdir]
  exact hp

/-- The decomposition determines the name: if a path is `dir ++ n ++ slashes` with `dir`
empty or ending in a separator, `n` not empty and free of separators, and `slashes` made of
separators, then `Base` is `n`. -/
theorem Base_unique (path dir n slashes : GoString) (hp : path = dir ++ n ++ slashes)
    (hn : n ≠ []) (h47 : 47 ∉ n) (hd : dir = [] ∨ ∃ d, dir = d ++ [47])
    (hsl : ∀ c ∈ slashes, c = 47) : filepath.Base path = n := by
  have hne : path ≠ [] := by
    rw [hp]
    intro h0
    simp at h0
    exact hn h0.2.1
  obtain ⟨m, x, hm⟩ : ∃ m x, n = m ++ [x] := by
    rcases List.eq_nil_or_concat n with h0 | ⟨m, x, h1⟩
    · exact absurd h0 hn
    · exact ⟨m, x, by rw [h1, List.concat_eq_append]⟩
  have hx : x ≠ 47 := by
    intro hx
    apply h47
    rw [hm, hx]
    simp
  have hs : filepath.stripTrailingSeparators path = dir ++ n := by
    unfold filepath.stripTrailingSeparators
    rw [hp, List.reverse_append, dropWhile_append_all _ _ _
      (by intro c hc; rw [List.mem_reverse] at hc; simpa using hsl c hc), hm,
      List.reverse_append, List.reverse_append, List.reverse_singleton, List.append_assoc,
      List.singleton_append, List.dropWhile_cons_of_neg (by simpa using hx)]
    simp
  have ht : dir.reverse.takeWhile (fun c => !decide (c = 47)) = [] := by
    rcases hd with h0 | ⟨d, h1⟩
    · rw [h0]
      rfl
    · rw [h1, List.reverse_append, List.reverse_singleton, List.singleton_append,
        List.takeWhile_cons_of_neg (by simp)]
  have hl : filepath.lastElement (dir ++ n) = n := by
    unfold filepath.lastElement
    rw [List.reverse_append, takeWhile_append_all _ _ _
      (by intro c hc; rw [List.mem_reverse] at hc
          have : c ≠ 47 := fun h => h47 (h ▸ hc)
          simpa using this), ht, List.append_nil, List.reverse_reverse]
  unfold filepath.Base
  rw [if_neg hne]
  simp only
  rw [hs, hl, if_neg hn]

end mlstParser

/-! ## What the tokenizer can leave with -/

namespace mlstParser

/-- The tokenizer loop leaves `parse` only with the malformed-entry error or a panic. -/
theorem run_leave (U : GoString → GoString) (e : GoString) :
    ∀ (rest : GoString) (facts : mlstFacts) (state : mlstToken) (left cur : GoString)
      (r : Result),
      run U e rest facts state left cur = .leave r →
      r = .failure (error e) ∨ r = .runtimePanic := by
  intro rest
  induction rest with
  | nil =>
    intro facts state left cur r h
    simp only [run, runEnd] at h
    split at h
    · exact Or.inl (Tokens.leave.inj h).symm
    · exact absurd h (by simp)
  | cons c rest ih =>
    intro facts state left cur r h
    simp only [run] at h
    split at h
    · split at h
      · exact Or.inl (Tokens.leave.inj h).symm
      · split at h
        · exact Or.inr (Tokens.leave.inj h).symm
        · exact ih _ _ _ _ _ h
    · split at h
      · exact ih _ _ _ _ _ h
      · exact ih _ _ _ _ _ h

theorem tokenize_leave (U : GoString → GoString) (entry : GoString) (r : Result)
    (h : tokenize U entry = .leave r) : r = .failure (error entry) ∨ r = .runtimePanic := by
  rw [tokenize_eq_run] at h
  exact run_leave U entry _ _ _ _ _ r h

/-- When `parse` returns a record, the tokenizer returned facts and a filename, and the
record is what lines 88-166 build from them. -/
theorem parse_file_inv (U : GoString → GoString) (entry : GoString) (skip : Bool)
    (info : ftpFile) (h : parse U entry skip = .file info) :
    ∃ facts fn, tokenize U entry = .ok facts fn ∧ build entry skip facts fn = .file info := by
  unfold parse at h
  split at h
  · rename_i r hr
    rcases tokenize_leave U entry r hr with h1 | h1 <;> rw [h1] at h <;>
      exact absurd h (by simp)
  · rename_i facts fn hr
    exact ⟨facts, fn, hr, h⟩

end mlstParser

/-! ## The claims -/

/-- C1. Filename extraction tolerates punctuation: after a well-formed fact list from which
a non-empty type, a 14-digit modify and a valid decimal size are read and no `UNIX.mode`,
a space and a non-empty name without `/` give a record whose name is exactly the name,
whatever other bytes (spaces, `;`, `=`, the sequence `; `) the name holds. -/
theorem C1_filename_tolerates_punctuation (unicodeLower : GoString → GoString)
    (kvs : List (GoString × GoString)) (name : GoString)
    (hF : ∀ kv ∈ kvs, mlstParser.WellFormedFact kv)
    (htyp : (mlstParser.readFacts unicodeLower mlstParser.noFacts kvs).typ ≠ [])
    (hmodify : (mlstParser.readFacts unicodeLower mlstParser.noFacts kvs).modify.length = 14 ∧
      strconv.IsDigits 10 (mlstParser.readFacts unicodeLower mlstParser.noFacts kvs).modify)
    (hsize : (mlstParser.readFacts unicodeLower mlstParser.noFacts kvs).size ≠ [] ∧
      (strconv.ParseInt (mlstParser.readFacts unicodeLower mlstParser.noFacts kvs).size 10 64).2
        = none)
    (hmode : (mlstParser.readFacts unicodeLower mlstParser.noFacts kvs).unixMode = [])
    (hname : name ≠ []) (hslash : 47 ∉ name) :
    ∃ info, mlstParser.parse unicodeLower (mlstParser.encodeFacts kvs ++ 32 :: name) false =
      .file info ∧ info.name = name := by
  have hkvs : kvs ≠ [] := by
    intro h0
    rw [h0] at htyp
    exact htyp rfl
  have htok := mlstParser.tokenize_encodeFacts unicodeLower kvs name hF hkvs hname
  rw [mlstParser.parse_of_tokenize unicodeLower _ false _ _ htok]
  generalize mlstParser.readFacts unicodeLower mlstParser.noFacts kvs = facts at *
  generalize mlstParser.encodeFacts kvs ++ 32 :: name = entry
  obtain ⟨mode0, hm⟩ := mlstParser.modeOf_valid entry facts (fun h => absurd hmode h)
  have hs := mlstParser.sizeOf_size entry facts (mlstParser.withTypeBits facts.typ mode0)
    hsize.1 hsize.2
  have hmt := mlstParser.parseModTime_digits facts.modify hmodify.1 hmodify.2
  have hb := mlstParser.build_file_of entry false facts name mode0 _ _ htyp (by simp) hm hs hmt
  exact ⟨_, hb, mlstParser.Base_plain name hname hslash⟩

/-- C1 at the facts `type=file;size=81548;modify=20180312093913;` and the name
`happy;752x582 =a; b.jpg`, which holds a space, `;`, `=` and the sequence `; `. -/
theorem C1_filename_tolerates_punctuation_witness :
    (∀ kv ∈ [(ascii "type", ascii "file"), (ascii "size", ascii "81548"),
        (ascii "modify", ascii "20180312093913")], mlstParser.WellFormedFact kv) ∧
    ascii "happy;752x582 =a; b.jpg" ≠ [] ∧ 47 ∉ ascii "happy;752x582 =a; b.jpg" ∧
    ∃ info, mlstParser.parse id
      (ascii "type=file;size=81548;modify=20180312093913; happy;752x582 =a; b.jpg") false =
        .file info ∧ info.name = ascii "happy;752x582 =a; b.jpg" :=
  ⟨by decide, by decide, by decide,
   C1_filename_tolerates_punctuation id
     [(ascii "type", ascii "file"), (ascii "size", ascii "81548"),
      (ascii "modify", ascii "20180312093913")] (ascii "happy;752x582 =a; b.jpg")
     (by decide) (by decide) (by decide) (by decide) (by decide) (by decide) (by decide)⟩

/-- C2. Type-to-mode mapping: when `parse(entry, false)` returns a record, a lower-cased
type fact `dir`, `cdir` or `pdir` gives a mode with the directory bit set, and a type fact
that begins with `os.unix=slink` or `os.unix=symlink` gives a mode with the symlink bit
set. -/
theorem C2_type_to_mode (unicodeLower : GoString → GoString) (entry : GoString)
    (info : ftpFile) (facts : mlstFacts) (filename : GoString)
    (hparse : mlstParser.parse unicodeLower entry false = .file info)
    (htok : mlstParser.tokenize unicodeLower entry = .ok facts filename) :
    ((facts.typ = ascii "dir" ∨ facts.typ = ascii "cdir" ∨ facts.typ = ascii "pdir") →
      os.IsDir info.mode = true) ∧
    ((strings.HasPrefix facts.typ (ascii "os.unix=slink") = true ∨
      strings.HasPrefix facts.typ (ascii "os.unix=symlink") = true) →
      info.mode &&& os.ModeSymlink ≠ 0) := by
  rw [mlstParser.parse_of_tokenize unicodeLower _ false _ _ htok] at hparse
  obtain ⟨_, _, mode0, size, mtime, _, _, _, _, hinfo⟩ :=
    mlstParser.build_file_inv entry false facts filename info hparse
  have hmode : info.mode = mlstParser.withTypeBits facts.typ mode0 := by rw [hinfo]
  constructor
  · intro hdir
    rw [hmode]
    exact mlstParser.isDir_withTypeBits_dir facts.typ mode0 hdir
  · intro hlink
    have hnd : ¬ (facts.typ = ascii "dir" ∨ facts.typ = ascii "cdir" ∨
        facts.typ = ascii "pdir") := by
      intro hdir
      rcases hdir with h | h | h <;> rw [h] at hlink <;> revert hlink <;> decide
    rw [hmode, mlstParser.withTypeBits_eq, mlstParser.isSymlink_iff_testBit, Nat.testBit_or]
    have : mlstParser.typeBits facts.typ = os.ModeSymlink := by
      unfold mlstParser.typeBits
      rw [if_neg hnd, if_pos hlink]
    rw [this]
    unfold os.ModeSymlink
    rw [Nat.testBit_two_pow_self, Bool.or_true]

/-- C2 at the symlink entry of the repository's test, read to mode `0777` with the
symlink bit. -/
theorem C2_type_to_mode_witness :
    mlstParser.parse id
      (ascii "type=OS.unix=slink:;size=32;modify=20140728100902;UNIX.mode=0777; access-logs")
      false =
      .file ⟨ascii "access-logs", 32, ⟨1406542142, 0⟩,
        ascii "type=OS.unix=slink:;size=32;modify=20140728100902;UNIX.mode=0777; access-logs",
        0o777 ||| os.ModeSymlink⟩ ∧
    mlstParser.tokenize id
      (ascii "type=OS.unix=slink:;size=32;modify=20140728100902;UNIX.mode=0777; access-logs") =
      .ok ⟨ascii "os.unix=slink:", ascii "0777", [], ascii "32", [], ascii "20140728100902"⟩
        (ascii "access-logs") ∧
    ((ascii "os.unix=slink:" = ascii "dir" ∨ ascii "os.unix=slink:" = ascii "cdir" ∨
        ascii "os.unix=slink:" = ascii "pdir") →
      os.IsDir (0o777 ||| os.ModeSymlink) = true) ∧
    ((strings.HasPrefix (ascii "os.unix=slink:") (ascii "os.unix=slink") = true ∨
      strings.HasPrefix (ascii "os.unix=slink:") (ascii "os.unix=symlink") = true) →
      (0o777 ||| os.ModeSymlink) &&& os.ModeSymlink ≠ 0) :=
  ⟨by decide, by decide,
   C2_type_to_mode id
     (ascii "type=OS.unix=slink:;size=32;modify=20140728100902;UNIX.mode=0777; access-logs")
     ⟨ascii "access-logs", 32, ⟨1406542142, 0⟩,
        ascii "type=OS.unix=slink:;size=32;modify=20140728100902;UNIX.mode=0777; access-logs",
        0o777 ||| os.ModeSymlink⟩
     ⟨ascii "os.unix=slink:", ascii "0777", [], ascii "32", [], ascii "20140728100902"⟩
     (ascii "access-logs") (by decide) (by decide)⟩

/-- C3. Mode derivation precedence: the mode of a returned record is `base` OR the type
bit of the type fact, where `base` is the `UNIX.mode` fact read in base 8 (converted to
the 32-bit mode) when that fact is non-empty, whatever the perm fact says; otherwise, for a
non-empty perm fact, the bits derived from it: the OR over its characters of `0200` for
`a`, `d`, `c`, `f`, `m`, `p`, `w`, of `0500` for `l`, of `0400` for `r` and of 0 for any
other character; otherwise exactly `0400`. A `UNIX.mode` fact of octal digits only is read
to the number those digits denote in base 8. -/
theorem C3_mode_precedence (unicodeLower : GoString → GoString) (entry : GoString)
    (skipSelfParent : Bool) (info : ftpFile) (facts : mlstFacts) (filename : GoString)
    (hparse : mlstParser.parse unicodeLower entry skipSelfParent = .file info)
    (htok : mlstParser.tokenize unicodeLower entry = .ok facts filename) :
    ∃ base, info.mode = base ||| mlstParser.typeBits facts.typ ∧
      (facts.unixMode ≠ [] →
        ∃ m, strconv.ParseInt facts.unixMode 8 32 = (m, none) ∧ base = toUint32 m) ∧
      (facts.unixMode ≠ [] → strconv.IsDigits 8 facts.unixMode →
        base = strconv.digitsValue 8 facts.unixMode) ∧
      (facts.unixMode = [] → facts.perm ≠ [] → base = mlstParser.permBits facts.perm) ∧
      (facts.unixMode = [] → facts.perm = [] → base = 0o400) := by
  rw [mlstParser.parse_of_tokenize unicodeLower _ _ _ _ htok] at hparse
  obtain ⟨_, _, mode0, size, mtime, hm, _, _, _, hinfo⟩ :=
    mlstParser.build_file_inv entry skipSelfParent facts filename info hparse
  have hoct : facts.unixMode ≠ [] →
      ∃ m, strconv.ParseInt facts.unixMode 8 32 = (m, none) ∧ mode0 = toUint32 m := by
    intro hu
    unfold mlstParser.modeOf at hm
    rw [if_pos hu] at hm
    split at hm
    · exact absurd hm (by simp)
    · rename_i m heq
      exact ⟨m, heq, (Except.ok.inj hm).symm⟩
  refine ⟨mode0, by rw [hinfo, mlstParser.withTypeBits_eq], hoct, ?_, ?_, ?_⟩
  · intro hu hd
    obtain ⟨m, hp, hb⟩ := hoct hu
    obtain ⟨hv, hlt⟩ := strconv.ParseInt_digits_value 8 32 (by decide) (by decide) (by decide)
      (by decide) facts.unixMode hd m hp
    rw [hb, hv]
    unfold toUint32
    generalize strconv.digitsValue 8 facts.unixMode = v at hlt ⊢
    norm_num at hlt ⊢
    omega
  · intro hu hp
    unfold mlstParser.modeOf at hm
    rw [if_neg (by simp [hu]), if_pos hp, mlstParser.permMode_eq, Nat.zero_or] at hm
    exact (Except.ok.inj hm).symm
  · intro hu hp
    unfold mlstParser.modeOf at hm
    rw [if_neg (by simp [hu]), if_neg (by simp [hp])] at hm
    exact (Except.ok.inj hm).symm

/-- C3 at three entries. At `type=dir;modify=19991014192630;perm=fle;UNIX.mode=0755; files`
the mode is `0755` with the directory bit, although `perm=fle` alone gives `0700`; at
`type=file;size=1;modify=20170806081458;perm=fle; a`, without `UNIX.mode`, the base is the
bits of `fle`, `0700`; at `type=file;size=1;modify=20170806081458; a`, with neither fact,
the mode is `0400`. -/
theorem C3_mode_precedence_witness :
    mlstParser.parse id
      (ascii "type=dir;modify=19991014192630;perm=fle;UNIX.mode=0755; files") false =
      .file ⟨ascii "files", 0, ⟨939929190, 0⟩,
        ascii "type=dir;modify=19991014192630;perm=fle;UNIX.mode=0755; files",
        0o755 ||| os.ModeDir⟩ ∧
    mlstParser.tokenize id
      (ascii "type=dir;modify=19991014192630;perm=fle;UNIX.mode=0755; files") =
      .ok ⟨ascii "dir", ascii "0755", ascii "fle", [], [], ascii "19991014192630"⟩
        (ascii "files") ∧
    (∃ base, 0o755 ||| os.ModeDir = base ||| mlstParser.typeBits (ascii "dir") ∧
      (ascii "0755" ≠ [] →
        ∃ m, strconv.ParseInt (ascii "0755") 8 32 = (m, none) ∧ base = toUint32 m) ∧
      (ascii "0755" ≠ [] → strconv.IsDigits 8 (ascii "0755") →
        base = strconv.digitsValue 8 (ascii "0755")) ∧
      (ascii "0755" = [] → ascii "fle" ≠ [] → base = mlstParser.permBits (ascii "fle")) ∧
      (ascii "0755" = [] → ascii "fle" = [] → base = 0o400)) ∧
    strconv.digitsValue 8 (ascii "0755") = 0o755 ∧
    mlstParser.parse id (ascii "type=file;size=1;modify=20170806081458;perm=fle; a") false =
      .file ⟨ascii "a", 1, ⟨1502007298, 0⟩,
        ascii "type=file;size=1;modify=20170806081458;perm=fle; a", 0o700⟩ ∧
    mlstParser.tokenize id (ascii "type=file;size=1;modify=20170806081458;perm=fle; a") =
      .ok ⟨ascii "file", [], ascii "fle", ascii "1", [], ascii "20170806081458"⟩
        (ascii "a") ∧
    (∃ base, 0o700 = base ||| mlstParser.typeBits (ascii "file") ∧
      (([] : GoString) ≠ [] →
        ∃ m, strconv.ParseInt [] 8 32 = (m, none) ∧ base = toUint32 m) ∧
      (([] : GoString) ≠ [] → strconv.IsDigits 8 [] → base = strconv.digitsValue 8 []) ∧
      (([] : GoString) = [] → ascii "fle" ≠ [] → base = mlstParser.permBits (ascii "fle")) ∧
      (([] : GoString) = [] → ascii "fle" = [] → base = 0o400)) ∧
    mlstParser.permBits (ascii "fle") = 0o700 ∧
    mlstParser.typeBits (ascii "file") = 0 ∧
    mlstParser.parse id (ascii "type=file;size=1;modify=20170806081458; a") false =
      .file ⟨ascii "a", 1, ⟨1502007298, 0⟩,
        ascii "type=file;size=1;modify=20170806081458; a", 0o400⟩ ∧
    (∃ base, 0o400 = base ||| mlstParser.typeBits (ascii "file") ∧
      (([] : GoString) ≠ [] →
        ∃ m, strconv.ParseInt [] 8 32 = (m, none) ∧ base = toUint32 m) ∧
      (([] : GoString) ≠ [] → strconv.IsDigits 8 [] → base = strconv.digitsValue 8 []) ∧
      (([] : GoString) = [] → ([] : GoString) ≠ [] →
        base = mlstParser.permBits ([] : GoString)) ∧
      (([] : GoString) = [] → ([] : GoString) = [] → base = 0o400)) :=
  ⟨by decide, by decide,
   C3_mode_precedence id
     (ascii "type=dir;modify=19991014192630;perm=fle;UNIX.mode=0755; files") false
     ⟨ascii "files", 0, ⟨939929190, 0⟩,
        ascii "type=dir;modify=19991014192630;perm=fle;UNIX.mode=0755; files",
        0o755 ||| os.ModeDir⟩
     ⟨ascii "dir", ascii "0755", ascii "fle", [], [], ascii "19991014192630"⟩
     (ascii "files") (by decide) (by decide),
   by decide, by decide, by decide,
   C3_mode_precedence id (ascii "type=file;size=1;modify=20170806081458;perm=fle; a") false
     ⟨ascii "a", 1, ⟨1502007298, 0⟩,
        ascii "type=file;size=1;modify=20170806081458;perm=fle; a", 0o700⟩
     ⟨ascii "file", [], ascii "fle", ascii "1", [], ascii "20170806081458"⟩
     (ascii "a") (by decide) (by decide),
   by decide, by decide, by decide,
   C3_mode_precedence id (ascii "type=file;size=1;modify=20170806081458; a") false
     ⟨ascii "a", 1, ⟨1502007298, 0⟩,
        ascii "type=file;size=1;modify=20170806081458; a", 0o400⟩
     ⟨ascii "file", [], [], ascii "1", [], ascii "20170806081458"⟩
     (ascii "a") (by decide) (by decide)⟩

/-- C4. Modification time is the UTC instant the modify fact names: when `parse` returns a
record and the modify fact is 14 digits `YYYYMMDDhhmmss` forming a valid Gregorian date and
time (month 1-12, day within the month, hour below 24, minute and second below 60), the
record's mtime is the instant the calendar counts for exactly that year, month, day, hour,
minute and second in UTC, with zero nanoseconds. -/
theorem C4_mtime_is_utc_instant (unicodeLower : GoString → GoString) (entry : GoString)
    (skipSelfParent : Bool) (info : ftpFile) (facts : mlstFacts) (filename : GoString)
    (hparse : mlstParser.parse unicodeLower entry skipSelfParent = .file info)
    (htok : mlstParser.tokenize unicodeLower entry = .ok facts filename)
    (hlen : facts.modify.length = 14) (hdigits : strconv.IsDigits 10 facts.modify)
    (hvalid : calendar.ValidDateTime
      (strconv.digitsValue 10 (facts.modify.take 4))
      (strconv.digitsValue 10 ((facts.modify.drop 4).take 2))
      (strconv.digitsValue 10 ((facts.modify.drop 6).take 2))
      (strconv.digitsValue 10 ((facts.modify.drop 8).take 2))
      (strconv.digitsValue 10 ((facts.modify.drop 10).take 2))
      (strconv.digitsValue 10 ((facts.modify.drop 12).take 2))) :
    info.mtime = ⟨calendar.unixSeconds
      (strconv.digitsValue 10 (facts.modify.take 4))
      (strconv.digitsValue 10 ((facts.modify.drop 4).take 2))
      (strconv.digitsValue 10 ((facts.modify.drop 6).take 2))
      (strconv.digitsValue 10 ((facts.modify.drop 8).take 2))
      (strconv.digitsValue 10 ((facts.modify.drop 10).take 2))
      (strconv.digitsValue 10 ((facts.modify.drop 12).take 2)), 0⟩ := by
  rw [mlstParser.parse_of_tokenize unicodeLower _ _ _ _ htok] at hparse
  obtain ⟨_, _, mode0, size, mtime, _, _, _, hmt, hinfo⟩ :=
    mlstParser.build_file_inv entry skipSelfParent facts filename info hparse
  have hm : info.mtime = mtime := by rw [hinfo]
  rw [mlstParser.parseModTime_digits facts.modify hlen hdigits] at hmt
  have hyear : strconv.digitsValue 10 (facts.modify.take 4) ≤ 9999 := by
    have h := strconv.digitsValue_lt (facts.modify.take 4)
      (mlstParser.isDigits_take _ _ hdigits)
    have hl : (facts.modify.take 4).length = 4 := by simp [hlen]
    rw [hl] at h
    omega
  rw [hm, ← Option.some.inj hmt]
  exact time.Date_valid _ _ _ _ _ _ hyear hvalid

/-- C4 at `type=dir;modify=19991014192630; files`: the mtime is 1999-10-14T19:26:30Z,
which is 939929190 seconds after 1970-01-01T00:00:00Z. -/
theorem C4_mtime_is_utc_instant_witness :
    mlstParser.parse id (ascii "type=dir;modify=19991014192630; files") false =
      .file ⟨ascii "files", 0, ⟨939929190, 0⟩,
        ascii "type=dir;modify=19991014192630; files", 0o400 ||| os.ModeDir⟩ ∧
    (⟨939929190, 0⟩ : time.Time) = ⟨calendar.unixSeconds 1999 10 14 19 26 30, 0⟩ :=
  ⟨by decide,
   C4_mtime_is_utc_instant id (ascii "type=dir;modify=19991014192630; files") false
     ⟨ascii "files", 0, ⟨939929190, 0⟩,
        ascii "type=dir;modify=19991014192630; files", 0o400 ||| os.ModeDir⟩
     ⟨ascii "dir", [], [], [], [], ascii "19991014192630"⟩ (ascii "files")
     (by decide) (by decide) (by decide) (by decide) (by decide)⟩

/-- C6. A missing required fact is an incomplete-entry error: for an entry that tokenizes,
(a) an empty type fact gives the "MLST entry incomplete" error for both values of
`skipSelfParent`; (b) with a non-empty type, numeric facts (`UNIX.mode`, `size`, `sizd`)
that are valid or absent and an empty modify fact, `parse(entry, false)` gives the
"MLST entry incomplete" error. That error is not the malformed-entry one. -/
theorem C6_missing_fact_is_incomplete (unicodeLower : GoString → GoString) (entry : GoString)
    (facts : mlstFacts) (filename : GoString)
    (htok : mlstParser.tokenize unicodeLower entry = .ok facts filename) :
    (facts.typ = [] → ∀ skipSelfParent,
      mlstParser.parse unicodeLower entry skipSelfParent =
        .failure (mlstParser.incompleteError entry)) ∧
    (facts.typ ≠ [] → mlstParser.ValidOrAbsent facts.unixMode 8 32 →
      mlstParser.ValidOrAbsent facts.size 10 64 → mlstParser.ValidOrAbsent facts.sizd 10 64 →
      facts.modify = [] →
      mlstParser.parse unicodeLower entry false =
        .failure (mlstParser.incompleteError entry)) ∧
    Result.failure (mlstParser.incompleteError entry) ≠
      Result.failure (mlstParser.error entry) := by
  refine ⟨?_, ?_, ?_⟩
  · intro htyp skip
    rw [mlstParser.parse_of_tokenize unicodeLower _ _ _ _ htok]
    unfold mlstParser.build
    simp only [if_pos htyp]
  · intro htyp hmode hsize hsizd hmodify
    rw [mlstParser.parse_of_tokenize unicodeLower _ _ _ _ htok]
    obtain ⟨mode0, hm⟩ := mlstParser.modeOf_valid entry facts hmode
    unfold mlstParser.build
    simp only [if_neg htyp, hm]
    rw [if_neg (by simp)]
    rcases mlstParser.sizeOf_valid entry facts (mlstParser.withTypeBits facts.typ mode0)
      hsize hsizd with ⟨size, hs⟩ | ⟨_, hs⟩
    · simp only [hs, if_pos hmodify]
    · simp only [hs]
  · intro h
    exact mlstParser.error_ne_incompleteError entry (Result.failure.inj h).symm

/-- C6 at `type=dir;size=1;UNIX.mode=0755; a`, which has no modify fact. -/
theorem C6_missing_fact_is_incomplete_witness :
    mlstParser.tokenize id (ascii "type=dir;size=1;UNIX.mode=0755; a") =
      .ok ⟨ascii "dir", ascii "0755", [], ascii "1", [], []⟩ (ascii "a") ∧
    mlstParser.parse id (ascii "type=dir;size=1;UNIX.mode=0755; a") false =
      .failure (mlstParser.incompleteError (ascii "type=dir;size=1;UNIX.mode=0755; a")) :=
  ⟨by decide,
   (C6_missing_fact_is_incomplete id (ascii "type=dir;size=1;UNIX.mode=0755; a")
     ⟨ascii "dir", ascii "0755", [], ascii "1", [], []⟩ (ascii "a") (by decide)).2.1
     (by decide) (by decide) (by decide) (by decide) (by decide)⟩

/-- C7. An entry that ends inside a fact value (a well-formed fact list, possibly empty,
followed by `key=v` where the key has no `=`, no `;` and no leading space and `v` has no
`;`) makes `parse` return the "failed parsing MLST entry" error, which is not the
"MLST entry incomplete" error, for both values of `skipSelfParent` and whatever the
facts are. -/
theorem C7_unterminated_fact_is_malformed (unicodeLower : GoString → GoString)
    (kvs : List (GoString × GoString)) (key v : GoString) (skipSelfParent : Bool)
    (hF : ∀ kv ∈ kvs, mlstParser.WellFormedFact kv)
    (hkey : 61 ∉ key ∧ 59 ∉ key ∧ key.head? ≠ some 32) (hv : 59 ∉ v) :
    mlstParser.parse unicodeLower (mlstParser.encodeFacts kvs ++ key ++ 61 :: v)
        skipSelfParent =
      .failure (mlstParser.error (mlstParser.encodeFacts kvs ++ key ++ 61 :: v)) ∧
    mlstParser.parse unicodeLower (mlstParser.encodeFacts kvs ++ key ++ 61 :: v)
        skipSelfParent ≠
      .failure (mlstParser.incompleteError (mlstParser.encodeFacts kvs ++ key ++ 61 :: v)) := by
  have ht : ∃ c rest, key ++ 61 :: v = c :: rest ∧ c ≠ 32 := by
    cases key with
    | nil => exact ⟨61, v, rfl, by decide⟩
    | cons c key => exact ⟨c, key ++ 61 :: v, rfl, fun hc => hkey.2.2 (by simp [hc])⟩
  have htok : mlstParser.tokenize unicodeLower (mlstParser.encodeFacts kvs ++ key ++ 61 :: v) =
      .leave (.failure (mlstParser.error (mlstParser.encodeFacts kvs ++ key ++ 61 :: v))) := by
    rw [mlstParser.tokenize_eq_run]
    generalize hE : mlstParser.encodeFacts kvs ++ key ++ 61 :: v = e
    have hE2 : mlstParser.encodeFacts kvs ++ (key ++ 61 :: v) = e := by rw [← hE]; simp
    obtain ⟨left2, h2⟩ := mlstParser.run_facts unicodeLower e (key ++ 61 :: v) ht kvs
      ⟨[], [], [], [], [], []⟩ [] hF
    rw [hE2] at h2
    rw [h2, mlstParser.run_name_skip unicodeLower e key _ _ _ hkey.1 []]
    have h3 : ∀ facts left cur, mlstParser.run unicodeLower e (61 :: v) facts .mlstFactName left cur =
        mlstParser.run unicodeLower e (v ++ []) facts .mlstFactValue (cur ++ [61]) [] := by
      intro facts left cur
      simp [mlstParser.run]
    rw [h3, mlstParser.run_value_skip unicodeLower e v [] _ _ hv []]
    simp [mlstParser.run, mlstParser.runEnd]
  have hp : mlstParser.parse unicodeLower (mlstParser.encodeFacts kvs ++ key ++ 61 :: v)
      skipSelfParent =
      .failure (mlstParser.error (mlstParser.encodeFacts kvs ++ key ++ 61 :: v)) := by
    unfold mlstParser.parse
    rw [htok]
  refine ⟨hp, ?_⟩
  rw [hp]
  intro h
  exact mlstParser.error_ne_incompleteError _ (Result.failure.inj h)

/-- C7 at the entry `type=file;size=12;modify=2015`, read with and without suppression. -/
theorem C7_unterminated_fact_is_malformed_witness :
    (∀ kv ∈ [(ascii "type", ascii "file"), (ascii "size", ascii "12")],
      mlstParser.WellFormedFact kv) ∧
    (61 ∉ ascii "modify" ∧ 59 ∉ ascii "modify" ∧ (ascii "modify").head? ≠ some 32) ∧
    59 ∉ ascii "2015" ∧
    mlstParser.parse id (ascii "type=file;size=12;modify=2015") true =
      .failure (mlstParser.error (ascii "type=file;size=12;modify=2015")) ∧
    mlstParser.parse id (ascii "type=file;size=12;modify=2015") true ≠
      .failure (mlstParser.incompleteError (ascii "type=file;size=12;modify=2015")) :=
  ⟨by decide, by decide, by decide,
   C7_unterminated_fact_is_malformed id
     [(ascii "type", ascii "file"), (ascii "size", ascii "12")] (ascii "modify") (ascii "2015")
     true (by decide) (by decide) (by decide)⟩

/-- C8, the code at `type=file;`: the entry ends with the `;` that closes a fact, the
guard `len(entry) >= i2+1` holds at the last index, and `entry[i2+1]` is out of range:
`parse` panics instead of returning the "failed parsing MLST entry" error. -/
theorem C8_trailing_semicolon_panics (unicodeLower : GoString → GoString)
    (skipSelfParent : Bool) :
    mlstParser.parse unicodeLower (ascii "type=file;") skipSelfParent = .runtimePanic := by
  rfl

/-- C9, the code at `type=file;size=1;modify=2019; a`: the modify fact is not 14 digits
and `parse` returns the "MLST entry incomplete" error, not the "failed parsing MLST
entry" one. -/
theorem C9_bad_timestamp_reported_incomplete (unicodeLower : GoString → GoString) :
    mlstParser.parse unicodeLower (ascii "type=file;size=1;modify=2019; a") false =
      .failure (mlstParser.incompleteError (ascii "type=file;size=1;modify=2019; a")) ∧
    mlstParser.parse unicodeLower (ascii "type=file;size=1;modify=2019; a") false ≠
      .failure (mlstParser.error (ascii "type=file;size=1;modify=2019; a")) := by
  have h : mlstParser.parse unicodeLower (ascii "type=file;size=1;modify=2019; a") false =
      .failure (mlstParser.incompleteError (ascii "type=file;size=1;modify=2019; a")) := rfl
  refine ⟨h, ?_⟩
  rw [h]
  intro h2
  exact mlstParser.error_ne_incompleteError _ (Result.failure.inj h2).symm

/-- C10. Self/parent suppression by type: for an entry that tokenizes and whose lower-cased
type fact is `cdir` or `pdir`, `parse(entry, true)` returns no record and no error,
whatever the other facts; and with a 14-digit modify fact and numeric facts that are valid
or absent, `parse(entry, false)` returns a record with the directory bit set, whose name is
the filename when the filename has no `/`. -/
theorem C10_self_parent_suppression (unicodeLower : GoString → GoString) (entry : GoString)
    (facts : mlstFacts) (filename : GoString)
    (htok : mlstParser.tokenize unicodeLower entry = .ok facts filename)
    (htyp : facts.typ = ascii "cdir" ∨ facts.typ = ascii "pdir") :
    mlstParser.parse unicodeLower entry true = .nothing ∧
    (facts.modify.length = 14 → strconv.IsDigits 10 facts.modify →
      mlstParser.ValidOrAbsent facts.unixMode 8 32 →
      mlstParser.ValidOrAbsent facts.size 10 64 → mlstParser.ValidOrAbsent facts.sizd 10 64 →
      ∃ info, mlstParser.parse unicodeLower entry false = .file info ∧
        os.IsDir info.mode = true ∧ (47 ∉ filename → info.name = filename)) := by
  have hne : facts.typ ≠ [] := by
    rcases htyp with h | h <;> rw [h] <;> decide
  have hnf : facts.typ ≠ ascii "file" := by
    rcases htyp with h | h <;> rw [h] <;> decide
  constructor
  · rw [mlstParser.parse_of_tokenize unicodeLower _ _ _ _ htok]
    unfold mlstParser.build
    simp only [if_neg hne]
    split
    · rfl
    · rename_i hcond
      exact absurd (by rcases htyp with h | h <;> simp [h]) hcond
  · intro hlen hdig hmode hsize hsizd
    rw [mlstParser.parse_of_tokenize unicodeLower _ _ _ _ htok]
    obtain ⟨mode0, hm⟩ := mlstParser.modeOf_valid entry facts hmode
    have hmt := mlstParser.parseModTime_digits facts.modify hlen hdig
    rcases mlstParser.sizeOf_valid entry facts (mlstParser.withTypeBits facts.typ mode0)
      hsize hsizd with ⟨size, hs⟩ | ⟨hf, _⟩
    · have hb := mlstParser.build_file_of entry false facts filename mode0 size _ hne
        (by simp) hm hs hmt
      refine ⟨_, hb, ?_, ?_⟩
      · exact mlstParser.isDir_withTypeBits_dir facts.typ mode0
          (by rcases htyp with h | h <;> simp [h])
      · intro hslash
        exact mlstParser.Base_plain filename
          (mlstParser.tokenize_ok_filename unicodeLower entry facts filename htok) hslash
    · exact absurd hf hnf

/-- C10 at `type=cdir;modify=20170806081458; .`: nothing with suppression, a directory
record named `.` without. -/
theorem C10_self_parent_suppression_witness :
    mlstParser.tokenize id (ascii "type=cdir;modify=20170806081458; .") =
      .ok ⟨ascii "cdir", [], [], [], [], ascii "20170806081458"⟩ (ascii ".") ∧
    mlstParser.parse id (ascii "type=cdir;modify=20170806081458; .") true = .nothing ∧
    (∃ info, mlstParser.parse id (ascii "type=cdir;modify=20170806081458; .") false =
        .file info ∧ os.IsDir info.mode = true ∧ (47 ∉ ascii "." → info.name = ascii ".")) :=
  ⟨by decide,
   (C10_self_parent_suppression id (ascii "type=cdir;modify=20170806081458; .")
     ⟨ascii "cdir", [], [], [], [], ascii "20170806081458"⟩ (ascii ".") (by decide)
     (by decide)).1,
   (C10_self_parent_suppression id (ascii "type=cdir;modify=20170806081458; .")
     ⟨ascii "cdir", [], [], [], [], ascii "20170806081458"⟩ (ascii ".") (by decide)
     (by decide)).2 (by decide) (by decide) (by decide) (by decide) (by decide)⟩

/-- C11, the code at `type=dir;modify=20170806081458; .` with `skipSelfParent`: line 94
compares the type fact, not the filename, with `.` and `..`, so the entry named `.` is not
suppressed and `parse` returns a record named `.`. -/
theorem C11_dot_name_not_suppressed (unicodeLower : GoString → GoString) :
    mlstParser.parse unicodeLower (ascii "type=dir;modify=20170806081458; .") true =
      .file ⟨ascii ".", 0, ⟨1502007298, 0⟩, ascii "type=dir;modify=20170806081458; .",
        0o400 ||| os.ModeDir⟩ ∧
    mlstParser.parse unicodeLower (ascii "type=dir;modify=20170806081458; ..") true =
      .file ⟨ascii "..", 0, ⟨1502007298, 0⟩, ascii "type=dir;modify=20170806081458; ..",
        0o400 ||| os.ModeDir⟩ := by
  have h1 : mlstParser.tokenize unicodeLower (ascii "type=dir;modify=20170806081458; .") =
      .ok ⟨ascii "dir", [], [], [], [], ascii "20170806081458"⟩ (ascii ".") := rfl
  have h2 : mlstParser.tokenize unicodeLower (ascii "type=dir;modify=20170806081458; ..") =
      .ok ⟨ascii "dir", [], [], [], [], ascii "20170806081458"⟩ (ascii "..") := rfl
  rw [mlstParser.parse_of_tokenize unicodeLower _ _ _ _ h1,
    mlstParser.parse_of_tokenize unicodeLower _ _ _ _ h2]
  constructor <;> decide

/-- C12. The perm heuristic's exact bit pattern: when the `UNIX.mode` fact is absent and
the perm fact is non-empty, the permission bits of the record are the bitwise OR, over the
characters of the lower-cased perm value, of `0200` for `a`, `d`, `c`, `f`, `m`, `p`, `w`,
`0500` for `l`, `0400` for `r` and 0 for any other character. The result is a subset of
`0700`, depends only on which characters occur (not on order or repetition), is the same
for ASCII perm values that differ in letter case only, and is 0 when no character is
recognised. -/
theorem C12_perm_bit_pattern (unicodeLower : GoString → GoString) (entry : GoString)
    (skipSelfParent : Bool) (info : ftpFile) (facts : mlstFacts) (filename : GoString)
    (hparse : mlstParser.parse unicodeLower entry skipSelfParent = .file info)
    (htok : mlstParser.tokenize unicodeLower entry = .ok facts filename)
    (hmode : facts.unixMode = []) (hperm : facts.perm ≠ []) :
    os.Perm info.mode = mlstParser.permBits facts.perm ∧
    info.mode = mlstParser.permBits facts.perm ||| mlstParser.typeBits facts.typ ∧
    mlstParser.permBits facts.perm &&& 0o700 = mlstParser.permBits facts.perm ∧
    (∀ q, (∀ c, c ∈ q ↔ c ∈ facts.perm) →
      mlstParser.permBits q = mlstParser.permBits facts.perm) ∧
    ((∀ c ∈ facts.perm, mlstParser.permBit c = 0) → os.Perm info.mode = 0) ∧
    (∀ v w, mlstParser.IsASCII v → mlstParser.IsASCII w →
      v.map strings.lowerByte = w.map strings.lowerByte →
      mlstParser.permBits (strings.ToLower unicodeLower v) =
        mlstParser.permBits (strings.ToLower unicodeLower w)) := by
  rw [mlstParser.parse_of_tokenize unicodeLower _ _ _ _ htok] at hparse
  obtain ⟨_, _, mode0, size, mtime, hm, _, _, _, hinfo⟩ :=
    mlstParser.build_file_inv entry skipSelfParent facts filename info hparse
  have hbase : mode0 = mlstParser.permBits facts.perm := by
    unfold mlstParser.modeOf at hm
    rw [if_neg (by simp [hmode]), if_pos hperm, mlstParser.permMode_eq, Nat.zero_or] at hm
    exact (Except.ok.inj hm).symm
  have hmode2 : info.mode = mlstParser.withTypeBits facts.typ mode0 := by rw [hinfo]
  have hP : os.Perm info.mode = mlstParser.permBits facts.perm := by
    rw [hmode2, mlstParser.Perm_withTypeBits facts.typ mode0
      (by rw [hbase]; exact mlstParser.permBits_lt facts.perm), hbase]
  refine ⟨hP, ?_, mlstParser.permBits_subset facts.perm, ?_, ?_, ?_⟩
  · rw [hmode2, mlstParser.withTypeBits_eq, hbase]
  · intro q hq
    exact mlstParser.permBits_congr q facts.perm hq
  · intro h0
    rw [hP, mlstParser.permBits_unrecognised facts.perm h0]
  · intro v w hv hw hvw
    rw [mlstParser.ToLower_ascii unicodeLower v hv, mlstParser.ToLower_ascii unicodeLower w hw,
      hvw]

/-- C12 at `type=file;size=1;modify=20170806081458;perm=FLE; a`: `perm=FLE` is read as
`fle` and gives permission bits `0700`; `adfrw` gives `0600` and `e` gives 0. -/
theorem C12_perm_bit_pattern_witness :
    mlstParser.tokenize id (ascii "type=file;size=1;modify=20170806081458;perm=FLE; a") =
      .ok ⟨ascii "file", [], ascii "fle", ascii "1", [], ascii "20170806081458"⟩ (ascii "a") ∧
    os.Perm 0o700 = mlstParser.permBits (ascii "fle") ∧
    mlstParser.permBits (ascii "fle") = 0o700 ∧
    mlstParser.permBits (ascii "adfrw") = 0o600 ∧
    mlstParser.permBits (ascii "e") = 0 :=
  ⟨by decide,
   (C12_perm_bit_pattern id (ascii "type=file;size=1;modify=20170806081458;perm=FLE; a") false
     ⟨ascii "a", 1, ⟨1502007298, 0⟩,
      ascii "type=file;size=1;modify=20170806081458;perm=FLE; a", 0o700⟩
     ⟨ascii "file", [], ascii "fle", ascii "1", [], ascii "20170806081458"⟩ (ascii "a")
     (by decide) (by decide) (by decide) (by decide)).1,
   by decide, by decide, by decide⟩

/-- C13, as the claim states it, fails: with `UNIX.mode=1000000000` (octal, bit 27) a
`type=file` entry is returned with the symlink bit, and with `UNIX.mode=-20000000000`
(bit 31 after the conversion to a 32-bit mode) it is returned with the directory bit. -/
theorem C13_unix_mode_sets_type_bits :
    mlstParser.tokenize id
      (ascii "type=file;size=1;modify=20170806081458;UNIX.mode=1000000000; a") =
      .ok ⟨ascii "file", ascii "1000000000", [], ascii "1", [], ascii "20170806081458"⟩
        (ascii "a") ∧
    mlstParser.parse id
      (ascii "type=file;size=1;modify=20170806081458;UNIX.mode=1000000000; a") false =
      .file ⟨ascii "a", 1, ⟨1502007298, 0⟩,
        ascii "type=file;size=1;modify=20170806081458;UNIX.mode=1000000000; a",
        os.ModeSymlink⟩ ∧
    os.ModeSymlink &&& os.ModeSymlink ≠ 0 ∧
    mlstParser.tokenize id
      (ascii "type=file;size=1;modify=20170806081458;UNIX.mode=-20000000000; a") =
      .ok ⟨ascii "file", ascii "-20000000000", [], ascii "1", [], ascii "20170806081458"⟩
        (ascii "a") ∧
    mlstParser.parse id
      (ascii "type=file;size=1;modify=20170806081458;UNIX.mode=-20000000000; a") false =
      .file ⟨ascii "a", 1, ⟨1502007298, 0⟩,
        ascii "type=file;size=1;modify=20170806081458;UNIX.mode=-20000000000; a",
        os.ModeDir⟩ ∧
    os.IsDir os.ModeDir = true := by
  refine ⟨?_, ?_, ?_, ?_, ?_, ?_⟩ <;> decide

/-- C13, amended. The file-type tag is derived from the type fact alone when the
`UNIX.mode` fact carries no type bit: for a returned record whose `UNIX.mode` fact is
absent or has a value whose 32-bit mode has neither bit 31 nor bit 27 set, the directory
bit is set if and only if the lower-cased type fact is `dir`, `cdir` or `pdir`, the symlink
bit is set if and only if the type fact begins with `os.unix=slink` or `os.unix=symlink`,
whatever the perm, size and sizd facts are, and a symlink entry does not have the
directory bit. -/
theorem C13_type_tag_from_type (unicodeLower : GoString → GoString) (entry : GoString)
    (skipSelfParent : Bool) (info : ftpFile) (facts : mlstFacts) (filename : GoString)
    (hparse : mlstParser.parse unicodeLower entry skipSelfParent = .file info)
    (htok : mlstParser.tokenize unicodeLower entry = .ok facts filename)
    (hmode : facts.unixMode = [] ∨
      ∃ m, strconv.ParseInt facts.unixMode 8 32 = (m, none) ∧
        (toUint32 m).testBit 31 = false ∧ (toUint32 m).testBit 27 = false) :
    (os.IsDir info.mode = true ↔
      (facts.typ = ascii "dir" ∨ facts.typ = ascii "cdir" ∨ facts.typ = ascii "pdir")) ∧
    (info.mode &&& os.ModeSymlink ≠ 0 ↔
      (strings.HasPrefix facts.typ (ascii "os.unix=slink") = true ∨
        strings.HasPrefix facts.typ (ascii "os.unix=symlink") = true)) ∧
    ((strings.HasPrefix facts.typ (ascii "os.unix=slink") = true ∨
        strings.HasPrefix facts.typ (ascii "os.unix=symlink") = true) →
      os.IsDir info.mode = false) := by
  rw [mlstParser.parse_of_tokenize unicodeLower _ _ _ _ htok] at hparse
  obtain ⟨_, _, mode0, size, mtime, hm, _, _, _, hinfo⟩ :=
    mlstParser.build_file_inv entry skipSelfParent facts filename info hparse
  obtain ⟨h31, h27⟩ := mlstParser.modeOf_no_type_bits entry facts mode0 hm hmode
  have hmode2 : info.mode = mode0 ||| mlstParser.typeBits facts.typ := by
    rw [hinfo, mlstParser.withTypeBits_eq]
  have hd : os.IsDir info.mode = true ↔
      (facts.typ = ascii "dir" ∨ facts.typ = ascii "cdir" ∨ facts.typ = ascii "pdir") := by
    rw [mlstParser.isDir_eq_testBit, hmode2, Nat.testBit_or, h31, Bool.false_or]
    exact mlstParser.testBit31_typeBits facts.typ
  refine ⟨hd, ?_, ?_⟩
  · rw [mlstParser.isSymlink_iff_testBit, hmode2, Nat.testBit_or, h27, Bool.false_or]
    exact mlstParser.testBit27_typeBits facts.typ
  · intro hlink
    have hnd := mlstParser.not_dir_of_link facts.typ hlink
    cases hb : os.IsDir info.mode with
    | false => rfl
    | true => exact absurd (hd.mp hb) hnd

/-- C13, amended, at the symlink entry of the repository's test with `UNIX.mode=0777`: the
symlink bit is set and the directory bit is not. -/
theorem C13_type_tag_from_type_witness :
    mlstParser.tokenize id
      (ascii "type=OS.unix=slink:;size=32;modify=20140728100902;UNIX.mode=0777; access-logs") =
      .ok ⟨ascii "os.unix=slink:", ascii "0777", [], ascii "32", [], ascii "20140728100902"⟩
        (ascii "access-logs") ∧
    ((0o777 ||| os.ModeSymlink) &&& os.ModeSymlink ≠ 0 ↔
      (strings.HasPrefix (ascii "os.unix=slink:") (ascii "os.unix=slink") = true ∨
        strings.HasPrefix (ascii "os.unix=slink:") (ascii "os.unix=symlink") = true)) ∧
    os.IsDir (0o777 ||| os.ModeSymlink) = false :=
  ⟨by decide,
   (C13_type_tag_from_type id
     (ascii "type=OS.unix=slink:;size=32;modify=20140728100902;UNIX.mode=0777; access-logs")
     false
     ⟨ascii "access-logs", 32, ⟨1406542142, 0⟩,
        ascii "type=OS.unix=slink:;size=32;modify=20140728100902;UNIX.mode=0777; access-logs",
        0o777 ||| os.ModeSymlink⟩
     ⟨ascii "os.unix=slink:", ascii "0777", [], ascii "32", [], ascii "20140728100902"⟩
     (ascii "access-logs") (by decide) (by decide)
     (Or.inr ⟨0o777, by decide, by decide, by decide⟩)).2.1,
   (C13_type_tag_from_type id
     (ascii "type=OS.unix=slink:;size=32;modify=20140728100902;UNIX.mode=0777; access-logs")
     false
     ⟨ascii "access-logs", 32, ⟨1406542142, 0⟩,
        ascii "type=OS.unix=slink:;size=32;modify=20140728100902;UNIX.mode=0777; access-logs",
        0o777 ||| os.ModeSymlink⟩
     ⟨ascii "os.unix=slink:", ascii "0777", [], ascii "32", [], ascii "20140728100902"⟩
     (ascii "access-logs") (by decide) (by decide)
     (Or.inr ⟨0o777, by decide, by decide, by decide⟩)).2.2 (by decide)⟩

/-- C14. Case-insensitivity of facts: two entries `F1 ++ " " ++ name` and
`F2 ++ " " ++ name` whose fact parts `F1` and `F2` are ASCII and equal after ASCII
lower-casing, where `name` is the filename part of the first (the filename the tokenizer
finds in it, when it finds one) and `parse` returns for the first, give the same outcome
under the same `skipSelfParent`: both fail with the same kind of error, both give no
record, or both give records with equal name, size, mode and mtime. -/
theorem C14_facts_case_insensitive (unicodeLower : GoString → GoString)
    (F1 F2 name : GoString) (skipSelfParent : Bool)
    (hlower : mlstParser.LowerEq F1 F2)
    (hname : ∀ facts filename,
      mlstParser.tokenize unicodeLower (F1 ++ 32 :: name) = .ok facts filename →
      filename = name)
    (hreturns : mlstParser.parse unicodeLower (F1 ++ 32 :: name) skipSelfParent ≠
      .runtimePanic) :
    mlstParser.SameOutcome (F1 ++ 32 :: name) (F2 ++ 32 :: name)
      (mlstParser.parse unicodeLower (F1 ++ 32 :: name) skipSelfParent)
      (mlstParser.parse unicodeLower (F2 ++ 32 :: name) skipSelfParent) := by
  cases ht : mlstParser.tokenize unicodeLower (F1 ++ 32 :: name) with
  | ok facts fn =>
    have hfn := hname facts fn ht
    subst hfn
    have ht2 : mlstParser.tokenize unicodeLower (F2 ++ 32 :: fn) = .ok facts fn := by
      rw [mlstParser.tokenize_eq_run] at ht ⊢
      exact mlstParser.run_lower_ok unicodeLower _ _ (32 :: fn) F1 F2 hlower _ _ _ _ _ _ _ _
        mlstParser.LowerEq.nil mlstParser.LowerEq.nil ht (by simp)
    rw [mlstParser.parse_of_tokenize unicodeLower _ _ _ _ ht,
      mlstParser.parse_of_tokenize unicodeLower _ _ _ _ ht2]
    exact mlstParser.build_sameOutcome _ _ skipSelfParent facts fn
  | leave r =>
    have hp : mlstParser.parse unicodeLower (F1 ++ 32 :: name) skipSelfParent = r := by
      unfold mlstParser.parse
      rw [ht]
    rcases mlstParser.tokenize_leave unicodeLower _ r ht with hr | hr
    · have ht2 : mlstParser.tokenize unicodeLower (F2 ++ 32 :: name) =
          .leave (.failure (mlstParser.error (F2 ++ 32 :: name))) := by
        rw [hr, mlstParser.tokenize_eq_run] at ht
        rw [mlstParser.tokenize_eq_run]
        exact mlstParser.run_error_same unicodeLower _ _ _ _
          (mlstParser.sameSeparator_append (32 :: name) F1 F2 hlower) _ _ _ _ _ _ _
          Iff.rfl rfl ht
      have hp2 : mlstParser.parse unicodeLower (F2 ++ 32 :: name) skipSelfParent =
          .failure (mlstParser.error (F2 ++ 32 :: name)) := by
        unfold mlstParser.parse
        rw [ht2]
      rw [hp, hp2, hr]
      exact Or.inl ⟨rfl, rfl⟩
    · rw [hp, hr] at hreturns
      exact absurd rfl hreturns

/-- C14 at the fact parts `TYPE=DIR;MODIFY=19991014192630;unix.MODE=0755;` and
`type=dir;modify=19991014192630;UNIX.mode=0755;` with the name `files`. -/
theorem C14_facts_case_insensitive_witness :
    mlstParser.LowerEq (ascii "TYPE=DIR;MODIFY=19991014192630;unix.MODE=0755;")
      (ascii "type=dir;modify=19991014192630;UNIX.mode=0755;") ∧
    mlstParser.tokenize id (ascii "TYPE=DIR;MODIFY=19991014192630;unix.MODE=0755; files") =
      .ok ⟨ascii "dir", ascii "0755", [], [], [], ascii "19991014192630"⟩ (ascii "files") ∧
    mlstParser.SameOutcome
      (ascii "TYPE=DIR;MODIFY=19991014192630;unix.MODE=0755; files")
      (ascii "type=dir;modify=19991014192630;UNIX.mode=0755; files")
      (mlstParser.parse id (ascii "TYPE=DIR;MODIFY=19991014192630;unix.MODE=0755; files")
        false)
      (mlstParser.parse id (ascii "type=dir;modify=19991014192630;UNIX.mode=0755; files")
        false) :=
  ⟨⟨by decide, by decide, by decide⟩, by decide,
   C14_facts_case_insensitive id (ascii "TYPE=DIR;MODIFY=19991014192630;unix.MODE=0755;")
     (ascii "type=dir;modify=19991014192630;UNIX.mode=0755;") (ascii "files") false
     ⟨by decide, by decide, by decide⟩
     (fun facts filename h => by
       have ht : mlstParser.tokenize id
           (ascii "TYPE=DIR;MODIFY=19991014192630;unix.MODE=0755;" ++ 32 :: ascii "files") =
           .ok ⟨ascii "dir", ascii "0755", [], [], [], ascii "19991014192630"⟩
             (ascii "files") := by decide
       rw [ht] at h
       injection h with _ h2
       exact h2.symm)
     (by decide)⟩

/-- C15. Unrecognized facts are ignored: for a non-empty well-formed fact list split at a
fact boundary into `F1` and `F2`, a name, and an extra well-formed fact `k=v;` whose
lower-cased key is none of `type`, `unix.mode`, `perm`, `size`, `sizd`, `modify`, parsing
`F1 ++ "k=v;" ++ F2 ++ " " ++ name` gives the same outcome as parsing
`F1 ++ F2 ++ " " ++ name` (the same kind of error, or no record, or records with equal
name, size, mode and mtime), for both values of `skipSelfParent`. -/
theorem C15_unrecognized_facts_ignored (unicodeLower : GoString → GoString)
    (kvs1 kvs2 : List (GoString × GoString)) (k v name : GoString) (skipSelfParent : Bool)
    (hF : ∀ kv ∈ kvs1 ++ kvs2, mlstParser.WellFormedFact kv) (hne : kvs1 ++ kvs2 ≠ [])
    (hkv : mlstParser.WellFormedFact (k, v))
    (hk : mlstParser.UnknownKey (strings.ToLower unicodeLower k)) :
    mlstParser.SameOutcome
      (mlstParser.encodeFacts (kvs1 ++ (k, v) :: kvs2) ++ 32 :: name)
      (mlstParser.encodeFacts (kvs1 ++ kvs2) ++ 32 :: name)
      (mlstParser.parse unicodeLower
        (mlstParser.encodeFacts (kvs1 ++ (k, v) :: kvs2) ++ 32 :: name) skipSelfParent)
      (mlstParser.parse unicodeLower
        (mlstParser.encodeFacts (kvs1 ++ kvs2) ++ 32 :: name) skipSelfParent) := by
  have hF2 : ∀ kv ∈ kvs1 ++ (k, v) :: kvs2, mlstParser.WellFormedFact kv := by
    intro kv hmem
    rw [List.mem_append, List.mem_cons] at hmem
    rcases hmem with h | h | h
    · exact hF kv (List.mem_append_left _ h)
    · rw [h]; exact hkv
    · exact hF kv (List.mem_append_right _ h)
  have hne2 : kvs1 ++ (k, v) :: kvs2 ≠ [] := by simp
  have t1 := mlstParser.tokenize_encodeFacts_any unicodeLower _ name hF2 hne2
  have t2 := mlstParser.tokenize_encodeFacts_any unicodeLower _ name hF hne
  rw [mlstParser.readFacts_insert_unknown unicodeLower _ kvs1 kvs2 k v hk] at t1
  generalize mlstParser.encodeFacts (kvs1 ++ (k, v) :: kvs2) ++ 32 :: name = e1 at t1 ⊢
  generalize mlstParser.encodeFacts (kvs1 ++ kvs2) ++ 32 :: name = e2 at t2 ⊢
  generalize mlstParser.readFacts unicodeLower mlstParser.noFacts (kvs1 ++ kvs2) = facts
    at t1 t2
  cases name with
  | nil =>
    have r1 : mlstParser.tokenize unicodeLower e1 = .leave (.failure (mlstParser.error e1)) := by
      rw [t1]; rfl
    have r2 : mlstParser.tokenize unicodeLower e2 = .leave (.failure (mlstParser.error e2)) := by
      rw [t2]; rfl
    unfold mlstParser.parse
    rw [r1, r2]
    exact Or.inl ⟨rfl, rfl⟩
  | cons c cs =>
    have r1 : mlstParser.tokenize unicodeLower e1 = .ok facts (c :: cs) := by
      rw [t1]; rfl
    have r2 : mlstParser.tokenize unicodeLower e2 = .ok facts (c :: cs) := by
      rw [t2]; rfl
    rw [mlstParser.parse_of_tokenize unicodeLower _ _ _ _ r1,
      mlstParser.parse_of_tokenize unicodeLower _ _ _ _ r2]
    exact mlstParser.build_sameOutcome e1 e2 skipSelfParent facts (c :: cs)

/-- C15 at the facts `type=file;size=12;modify=20150216084148;` with
`unique=1000004g1187ec7;` put in after the first fact: both entries give a record named
`lorem.txt` of size 12. -/
theorem C15_unrecognized_facts_ignored_witness :
    (∀ kv ∈ [(ascii "type", ascii "file")] ++
        [(ascii "size", ascii "12"), (ascii "modify", ascii "20150216084148")],
      mlstParser.WellFormedFact kv) ∧
    mlstParser.WellFormedFact (ascii "unique", ascii "1000004g1187ec7") ∧
    mlstParser.UnknownKey (strings.ToLower id (ascii "unique")) ∧
    mlstParser.SameOutcome
      (ascii "type=file;unique=1000004g1187ec7;size=12;modify=20150216084148; lorem.txt")
      (ascii "type=file;size=12;modify=20150216084148; lorem.txt")
      (mlstParser.parse id
        (ascii "type=file;unique=1000004g1187ec7;size=12;modify=20150216084148; lorem.txt")
        false)
      (mlstParser.parse id (ascii "type=file;size=12;modify=20150216084148; lorem.txt")
        false) :=
  ⟨by decide, by decide, by decide,
   C15_unrecognized_facts_ignored id [(ascii "type", ascii "file")]
     [(ascii "size", ascii "12"), (ascii "modify", ascii "20150216084148")]
     (ascii "unique") (ascii "1000004g1187ec7") (ascii "lorem.txt") false
     (by decide) (by decide) (by decide) (by decide)⟩

/-- C16. The raw line is retained: for every entry and flag for which `parse` returns a
record, the record's raw field is the entry, byte for byte. -/
theorem C16_raw_is_entry (unicodeLower : GoString → GoString) (entry : GoString)
    (skipSelfParent : Bool) (info : ftpFile)
    (hparse : mlstParser.parse unicodeLower entry skipSelfParent = .file info) :
    info.raw = entry := by
  obtain ⟨facts, fn, _, hb⟩ :=
    mlstParser.parse_file_inv unicodeLower entry skipSelfParent info hparse
  obtain ⟨_, _, mode0, size, mtime, _, _, _, _, hinfo⟩ :=
    mlstParser.build_file_inv entry skipSelfParent facts fn info hb
  rw [hinfo]

/-- C16 at `Type=DIR;Modify=20170806081458;  Foo `: upper case and the blanks around the
name stay in the raw field. -/
theorem C16_raw_is_entry_witness :
    mlstParser.parse id (ascii "Type=DIR;Modify=20170806081458;  Foo ") false =
      .file ⟨ascii " Foo ", 0, ⟨1502007298, 0⟩, ascii "Type=DIR;Modify=20170806081458;  Foo ",
        0o400 ||| os.ModeDir⟩ ∧
    (⟨ascii " Foo ", 0, ⟨1502007298, 0⟩, ascii "Type=DIR;Modify=20170806081458;  Foo ",
        0o400 ||| os.ModeDir⟩ : ftpFile).raw = ascii "Type=DIR;Modify=20170806081458;  Foo " :=
  ⟨by decide,
   C16_raw_is_entry id (ascii "Type=DIR;Modify=20170806081458;  Foo ") false
     ⟨ascii " Foo ", 0, ⟨1502007298, 0⟩, ascii "Type=DIR;Modify=20170806081458;  Foo ",
        0o400 ||| os.ModeDir⟩ (by decide)⟩

/-- C17. Pool conservation: from a pool at rest (as many live connections as idle ones, as
in a client just constructed), after any sequence of operations that all complete, with
success or with a reported error, the number of live connections equals the number of idle
connections: no borrowed connection is leaked. -/
theorem C17_pool_conservation (p : pool.Pool) (ops : List pool.Operation)
    (hrest : p.live = p.idle) :
    (pool.performAll p ops).live = (pool.performAll p ops).idle := by
  have hstep : ∀ (q : pool.Pool) (op : pool.Operation), q.live = q.idle →
      (pool.perform q op).live = (pool.perform q op).idle := by
    intro q op hq
    obtain ⟨live, idle, max⟩ := q
    obtain ⟨dialOk, stale, retryDialOk, healthy⟩ := op
    simp only at hq
    subst hq
    unfold pool.perform pool.borrow pool.giveBack
    by_cases h0 : live > 0 <;> by_cases h1 : live < max <;> cases dialOk <;> cases stale <;>
      cases retryDialOk <;> cases healthy <;>
      simp [h0, h1] <;> (try split_ifs) <;> (try simp) <;> omega
  unfold pool.performAll
  induction ops generalizing p with
  | nil => exact hrest
  | cons op ops ih => exact ih (pool.perform p op) (hstep p op hrest)

/-- C17 at a client just constructed with at most two connections: a Store that succeeds,
a Delete whose connection turns out stale and is replaced, a Delete that ends with an
unhealthy connection and an operation that cannot dial leave one live, idle connection. -/
theorem C17_pool_conservation_witness :
    (⟨0, 0, 2⟩ : pool.Pool).live = (⟨0, 0, 2⟩ : pool.Pool).idle ∧
    pool.performAll ⟨0, 0, 2⟩
      [⟨true, false, true, true⟩, ⟨true, true, true, true⟩, ⟨true, false, true, false⟩,
       ⟨false, false, true, true⟩, ⟨true, false, true, true⟩] = ⟨1, 1, 2⟩ ∧
    (pool.performAll ⟨0, 0, 2⟩
      [⟨true, false, true, true⟩, ⟨true, true, true, true⟩, ⟨true, false, true, false⟩,
       ⟨false, false, true, true⟩, ⟨true, false, true, true⟩]).live =
    (pool.performAll ⟨0, 0, 2⟩
      [⟨true, false, true, true⟩, ⟨true, true, true, true⟩, ⟨true, false, true, false⟩,
       ⟨false, false, true, true⟩, ⟨true, false, true, true⟩]).idle :=
  ⟨by decide, by decide,
   C17_pool_conservation ⟨0, 0, 2⟩
     [⟨true, false, true, true⟩, ⟨true, true, true, true⟩, ⟨true, false, true, false⟩,
      ⟨false, false, true, true⟩, ⟨true, false, true, true⟩] (by decide)⟩

/-- C18, the code at `modify=20170806081458;type=cdir;` and at `a=;`: the last byte is the
`;` that closes a fact value, `entry[i2+1]` on line 67 is out of range and `parse` panics,
for both values of `skipSelfParent`. -/
theorem C18_parse_panics (unicodeLower : GoString → GoString) (skipSelfParent : Bool) :
    mlstParser.parse unicodeLower (ascii "modify=20170806081458;type=cdir;") skipSelfParent =
      .runtimePanic ∧
    mlstParser.parse unicodeLower (ascii "a=;") skipSelfParent = .runtimePanic := by
  constructor <;> rfl

/-- C19, the code at `type=.;modify=20170806081458; foo`: the type fact is neither `cdir`
nor `pdir` and the filename is neither `.` nor `..`, yet `parse(entry, true)` returns
nothing and `parse(entry, false)` returns a record. -/
theorem C19_flag_changes_other_entry (unicodeLower : GoString → GoString) :
    mlstParser.tokenize unicodeLower (ascii "type=.;modify=20170806081458; foo") =
      .ok ⟨ascii ".", [], [], [], [], ascii "20170806081458"⟩ (ascii "foo") ∧
    mlstParser.parse unicodeLower (ascii "type=.;modify=20170806081458; foo") true =
      .nothing ∧
    mlstParser.parse unicodeLower (ascii "type=.;modify=20170806081458; foo") false =
      .file ⟨ascii "foo", 0, ⟨1502007298, 0⟩, ascii "type=.;modify=20170806081458; foo",
        0o400⟩ := by
  have h1 : mlstParser.tokenize unicodeLower (ascii "type=.;modify=20170806081458; foo") =
      .ok ⟨ascii ".", [], [], [], [], ascii "20170806081458"⟩ (ascii "foo") := rfl
  rw [mlstParser.parse_of_tokenize unicodeLower _ _ _ _ h1,
    mlstParser.parse_of_tokenize unicodeLower _ _ _ _ h1]
  exact ⟨h1, by decide, by decide⟩

/-- C20. The method `parseModTime` accepts a value if and only if it is exactly 14 bytes
long and every byte is an ASCII decimal digit (so a sign, a space, an underscore or any
other character is rejected). It makes no calendar range check: every 14-digit value is
accepted and yields, with zero nanoseconds, the instant in which what is beyond the range
of a field counts on in the next larger field; for a valid date and time that is the
instant of the calendar. -/
theorem C20_parseModTime_fourteen_digits (value : GoString) :
    ((∃ t, mlstParser.parseModTime value = some t) ↔
      (value.length = 14 ∧ strconv.IsDigits 10 value)) ∧
    (value.length = 14 → strconv.IsDigits 10 value →
      mlstParser.parseModTime value = some ⟨calendar.normalisedSeconds
        (strconv.digitsValue 10 (value.take 4))
        (strconv.digitsValue 10 ((value.drop 4).take 2))
        (strconv.digitsValue 10 ((value.drop 6).take 2))
        (strconv.digitsValue 10 ((value.drop 8).take 2))
        (strconv.digitsValue 10 ((value.drop 10).take 2))
        (strconv.digitsValue 10 ((value.drop 12).take 2)), 0⟩) ∧
    (calendar.ValidDateTime
        (strconv.digitsValue 10 (value.take 4))
        (strconv.digitsValue 10 ((value.drop 4).take 2))
        (strconv.digitsValue 10 ((value.drop 6).take 2))
        (strconv.digitsValue 10 ((value.drop 8).take 2))
        (strconv.digitsValue 10 ((value.drop 10).take 2))
        (strconv.digitsValue 10 ((value.drop 12).take 2)) →
      calendar.normalisedSeconds
        (strconv.digitsValue 10 (value.take 4))
        (strconv.digitsValue 10 ((value.drop 4).take 2))
        (strconv.digitsValue 10 ((value.drop 6).take 2))
        (strconv.digitsValue 10 ((value.drop 8).take 2))
        (strconv.digitsValue 10 ((value.drop 10).take 2))
        (strconv.digitsValue 10 ((value.drop 12).take 2)) =
      calendar.unixSeconds
        (strconv.digitsValue 10 (value.take 4))
        (strconv.digitsValue 10 ((value.drop 4).take 2))
        (strconv.digitsValue 10 ((value.drop 6).take 2))
        (strconv.digitsValue 10 ((value.drop 8).take 2))
        (strconv.digitsValue 10 ((value.drop 10).take 2))
        (strconv.digitsValue 10 ((value.drop 12).take 2))) := by
  have hacc : value.length = 14 → strconv.IsDigits 10 value →
      mlstParser.parseModTime value = some ⟨calendar.normalisedSeconds
        (strconv.digitsValue 10 (value.take 4))
        (strconv.digitsValue 10 ((value.drop 4).take 2))
        (strconv.digitsValue 10 ((value.drop 6).take 2))
        (strconv.digitsValue 10 ((value.drop 8).take 2))
        (strconv.digitsValue 10 ((value.drop 10).take 2))
        (strconv.digitsValue 10 ((value.drop 12).take 2)), 0⟩ := by
    intro hlen hdig
    have bound : ∀ (s : GoString) (n : Nat), s.length = n → strconv.IsDigits 10 s →
        strconv.digitsValue 10 s < 10 ^ n := by
      intro s n hs hd
      rw [← hs]
      exact strconv.digitsValue_lt s hd
    have b1 := bound (value.take 4) 4 (by simp [hlen]) (mlstParser.isDigits_take _ _ hdig)
    have b2 := bound ((value.drop 4).take 2) 2 (by simp [hlen])
      (mlstParser.isDigits_take _ _ (mlstParser.isDigits_drop _ _ hdig))
    have b3 := bound ((value.drop 6).take 2) 2 (by simp [hlen])
      (mlstParser.isDigits_take _ _ (mlstParser.isDigits_drop _ _ hdig))
    have b4 := bound ((value.drop 8).take 2) 2 (by simp [hlen])
      (mlstParser.isDigits_take _ _ (mlstParser.isDigits_drop _ _ hdig))
    have b5 := bound ((value.drop 10).take 2) 2 (by simp [hlen])
      (mlstParser.isDigits_take _ _ (mlstParser.isDigits_drop _ _ hdig))
    have b6 := bound ((value.drop 12).take 2) 2 (by simp [hlen])
      (mlstParser.isDigits_take _ _ (mlstParser.isDigits_drop _ _ hdig))
    rw [mlstParser.parseModTime_digits value hlen hdig,
      time.Date_fields _ _ _ _ _ _ (by omega) (by omega) (by omega) (by omega) (by omega)
        (by omega)]
  refine ⟨⟨?_, ?_⟩, hacc, ?_⟩
  · rintro ⟨t, ht⟩
    exact mlstParser.parseModTime_some_digits value t ht
  · rintro ⟨hlen, hdig⟩
    exact ⟨_, hacc hlen hdig⟩
  · intro hv
    exact time.normalisedSeconds_valid _ _ _ _ _ _ hv

/-- C20 at values with a field out of range, each accepted as the instant of the valid
value beside it, and at values that are rejected: a sign, a space, an underscore, a letter,
13 and 15 digits. -/
theorem C20_parseModTime_fourteen_digits_witness :
    mlstParser.parseModTime (ascii "20171301000000") =
      some ⟨calendar.normalisedSeconds 2017 13 1 0 0 0, 0⟩ ∧
    mlstParser.parseModTime (ascii "20171301000000") =
      mlstParser.parseModTime (ascii "20180101000000") ∧
    mlstParser.parseModTime (ascii "20170015000000") =
      mlstParser.parseModTime (ascii "20161215000000") ∧
    mlstParser.parseModTime (ascii "20170300000000") =
      mlstParser.parseModTime (ascii "20170228000000") ∧
    mlstParser.parseModTime (ascii "20170132000000") =
      mlstParser.parseModTime (ascii "20170201000000") ∧
    mlstParser.parseModTime (ascii "20171231240000") =
      mlstParser.parseModTime (ascii "20180101000000") ∧
    mlstParser.parseModTime (ascii "20170101006000") =
      mlstParser.parseModTime (ascii "20170101010000") ∧
    mlstParser.parseModTime (ascii "20170101000060") =
      mlstParser.parseModTime (ascii "20170101000100") ∧
    mlstParser.parseModTime (ascii "+2017010100000") = none ∧
    mlstParser.parseModTime (ascii "2017 101000000") = none ∧
    mlstParser.parseModTime (ascii "2017_101000000") = none ∧
    mlstParser.parseModTime (ascii "2017010100000a") = none ∧
    mlstParser.parseModTime (ascii "2017010100000") = none ∧
    mlstParser.parseModTime (ascii "201701010000000") = none :=
  ⟨(C20_parseModTime_fourteen_digits (ascii "20171301000000")).2.1 (by decide) (by decide),
   by decide, by decide, by decide, by decide, by decide, by decide, by decide, by decide,
   by decide, by decide, by decide, by decide, by decide⟩

/-- C21. The record name is the last path element of the listed filename: for every entry
for which `parse` returns a record, with `filename` the text after the delimiter space (what
the tokenizer returns, which follows a `;` and a space of the entry and is not empty), the
name is `filepath.Base filename`. It is never empty and contains `/` only when it is exactly
`/`, which it is when the filename consists only of `/` characters. Otherwise the filename
is `dir ++ name ++ slashes` with `slashes` the trailing `/` characters, `name` free of `/`
and `dir` empty or ending in the last remaining `/`, and the name is the only text with such
a decomposition. -/
theorem C21_name_is_last_path_element (unicodeLower : GoString → GoString)
    (entry : GoString) (skipSelfParent : Bool) (info : ftpFile) (facts : mlstFacts)
    (filename : GoString)
    (hparse : mlstParser.parse unicodeLower entry skipSelfParent = .file info)
    (htok : mlstParser.tokenize unicodeLower entry = .ok facts filename) :
    (∃ pre, entry = pre ++ 59 :: 32 :: filename) ∧
    filename ≠ [] ∧
    info.name = filepath.Base filename ∧
    info.name ≠ [] ∧
    (47 ∈ info.name → info.name = [47]) ∧
    ((∀ c ∈ filename, c = 47) → info.name = [47]) ∧
    ((∃ c ∈ filename, c ≠ 47) →
      47 ∉ info.name ∧
      ∃ dir slashes, filename = dir ++ info.name ++ slashes ∧
        (dir = [] ∨ ∃ d, dir = d ++ [47]) ∧ ∀ c ∈ slashes, c = 47) ∧
    (∀ dir n slashes, filename = dir ++ n ++ slashes → n ≠ [] → 47 ∉ n →
      (dir = [] ∨ ∃ d, dir = d ++ [47]) → (∀ c ∈ slashes, c = 47) → info.name = n) := by
  have hfn := mlstParser.tokenize_ok_filename unicodeLower entry facts filename htok
  rw [mlstParser.parse_of_tokenize unicodeLower _ _ _ _ htok] at hparse
  obtain ⟨_, _, mode0, size, mtime, _, _, _, _, hinfo⟩ :=
    mlstParser.build_file_inv entry skipSelfParent facts filename info hparse
  have hname : info.name = filepath.Base filename := by rw [hinfo]
  rw [hname]
  refine ⟨mlstParser.tokenize_ok_suffix unicodeLower entry facts filename htok, hfn, rfl,
    mlstParser.Base_ne_nil filename, mlstParser.Base_separator filename,
    mlstParser.Base_all_separators filename hfn, mlstParser.Base_decompose filename, ?_⟩
  intro dir n slashes hp hn h47 hd hsl
  exact mlstParser.Base_unique filename dir n slashes hp hn h47 hd hsl

/-- C21 at `type=file;size=12;modify=20170806081458; /pub/dir/lorem.txt`: the name is
`lorem.txt`; a filename `/pub/dir//` gives the name `dir` and a filename `//` the name
`/`. -/
theorem C21_name_is_last_path_element_witness :
    mlstParser.parse id (ascii "type=file;size=12;modify=20170806081458; /pub/dir/lorem.txt")
      false =
      .file ⟨ascii "lorem.txt", 12, ⟨1502007298, 0⟩,
        ascii "type=file;size=12;modify=20170806081458; /pub/dir/lorem.txt", 0o400⟩ ∧
    mlstParser.tokenize id
      (ascii "type=file;size=12;modify=20170806081458; /pub/dir/lorem.txt") =
      .ok ⟨ascii "file", [], [], ascii "12", [], ascii "20170806081458"⟩
        (ascii "/pub/dir/lorem.txt") ∧
    ascii "lorem.txt" = filepath.Base (ascii "/pub/dir/lorem.txt") ∧
    (∀ dir n slashes, ascii "/pub/dir/lorem.txt" = dir ++ n ++ slashes → n ≠ [] → 47 ∉ n →
      (dir = [] ∨ ∃ d, dir = d ++ [47]) → (∀ c ∈ slashes, c = 47) →
      ascii "lorem.txt" = n) ∧
    mlstParser.parse id (ascii "type=dir;modify=20170806081458; /pub/dir//") false =
      .file ⟨ascii "dir", 0, ⟨1502007298, 0⟩,
        ascii "type=dir;modify=20170806081458; /pub/dir//", 0o400 ||| os.ModeDir⟩ ∧
    mlstParser.parse id (ascii "type=dir;modify=20170806081458; //") false =
      .file ⟨ascii "/", 0, ⟨1502007298, 0⟩,
        ascii "type=dir;modify=20170806081458; //", 0o400 ||| os.ModeDir⟩ :=
  ⟨by decide, by decide,
   (C21_name_is_last_path_element id
     (ascii "type=file;size=12;modify=20170806081458; /pub/dir/lorem.txt") false
     ⟨ascii "lorem.txt", 12, ⟨1502007298, 0⟩,
        ascii "type=file;size=12;modify=20170806081458; /pub/dir/lorem.txt", 0o400⟩
     ⟨ascii "file", [], [], ascii "12", [], ascii "20170806081458"⟩
     (ascii "/pub/dir/lorem.txt") (by decide) (by decide)).2.2.1,
   (C21_name_is_last_path_element id
     (ascii "type=file;size=12;modify=20170806081458; /pub/dir/lorem.txt") false
     ⟨ascii "lorem.txt", 12, ⟨1502007298, 0⟩,
        ascii "type=file;size=12;modify=20170806081458; /pub/dir/lorem.txt", 0o400⟩
     ⟨ascii "file", [], [], ascii "12", [], ascii "20170806081458"⟩
     (ascii "/pub/dir/lorem.txt") (by decide) (by decide)).2.2.2.2.2.2.2,
   by decide, by decide⟩

end goftp
